import Mathlib

/-!
Verification of the skip-list key-value store (include/Node.h, include/SkipList.h,
include/KVStore.h), shallowly embedded at the instantiation used by the driver
program, SkipList<int, std::string>.

The pointer graph of the C++ structure is modelled as an explicit heap: an
association list from node ids (Nat) to node records.  The header node lives at
id 0; freshly allocated nodes receive consecutive ids from a counter.  Raw
pointers Node* become Option Nat (none is nullptr).  The while-loops of the
walks are modelled with explicit fuel; fuel at least the heap size is always
enough on well-formed states, which is proved below.  The random level draw of
get_random_level is modelled by passing the stream of outcomes of the
comparisons distribution(generator) < P_FACTOR as an oracle (Nat to Bool).
-/

/-- Maximum number of levels, from SkipList.h: const int MAX_LEVEL = 32. -/
def MAX_LEVEL : Nat := 32

/-- Node<K,V> for K = int, V = std::string.  The field forward_ holds one
successor slot per level 0..node_level_; the constructor fills it with
node_level_ + 1 null pointers. -/
structure Node where
  key_ : Int
  value_ : String
  node_level_ : Nat
  forward_ : List (Option Nat)
deriving DecidableEq

/-- The constructor Node(K k, V v, int level): forward_ is resized to
level + 1 slots, all nullptr. -/
def Node.new (k : Int) (v : String) (level : Nat) : Node :=
  ⟨k, v, level, List.replicate (level + 1) none⟩

/-- Write one successor slot of a node (update[i]->forward_[i] = p). -/
def Node.setForward (n : Node) (i : Nat) (p : Option Nat) : Node :=
  { n with forward_ := n.forward_.set i p }

/-- The heap of live nodes: node id to node record. -/
abbrev Heap := List (Nat × Node)

/-- Dereference a node id in the heap. -/
def hLookup : Heap → Nat → Option Node
  | [], _ => none
  | (k, n) :: t, q => if q = k then some n else hLookup t q

/-- Read q->forward_[i]; none when the id is dead (never happens on reachable
states) or the slot is out of range (the C++ vector would be indexed out of
bounds; claim C9 shows all reachable accesses are in range). -/
def hForward (h : Heap) (q : Nat) (i : Nat) : Option Nat :=
  match hLookup h q with
  | none => none
  | some n => n.forward_.getD i none

/-- Update the node stored at one id in place. -/
def hModify (h : Heap) (q : Nat) (f : Node → Node) : Heap :=
  h.map (fun p => if p.1 = q then (p.1, f p.2) else p)

/-- Free a node (delete current). -/
def hErase (h : Heap) (q : Nat) : Heap :=
  h.filter (fun p => p.1 ≠ q)

/-- The state of a SkipList<int, std::string> object: the node heap, the
members current_level_ and element_count_, and the allocation counter that
names the next node id. -/
structure SkipState where
  heap : Heap
  current_level_ : Nat
  element_count_ : Nat
  next_id : Nat
deriving DecidableEq

/-- The constructor SkipList(): current_level_ = 0, element_count_ = 0, and a
header node of level MAX_LEVEL whose key and value are never read (the C++
default-initializes them; the model uses 0 and the empty string). -/
def SkipList.new : SkipState :=
  ⟨[(0, Node.new 0 "" MAX_LEVEL)], 0, 0, 1⟩

/-- The loop of get_random_level: lvl starts at 0 and increments while the
draw succeeds and lvl < MAX_LEVEL.  The fuel argument only pays for the
bounded iteration; MAX_LEVEL + 1 rounds always suffice. -/
def grlLoop (coins : Nat → Bool) : Nat → Nat → Nat
  | lvl, 0 => lvl
  | lvl, fuel + 1 =>
    if coins lvl ∧ lvl < MAX_LEVEL then grlLoop coins (lvl + 1) fuel else lvl

/-- SkipList::get_random_level, with the outcomes of the successive
comparisons distribution(generator) < P_FACTOR passed in as coins. -/
def SkipList.get_random_level (coins : Nat → Bool) : Nat :=
  grlLoop coins 0 (MAX_LEVEL + 1)

/-- The inner while-loop of every walk, at one level i: advance while
current->forward_[i] is non-null and its key is below the target. -/
def walkLevel (h : Heap) : Nat → Nat → Int → Nat → Nat
  | 0, _, _, cur => cur
  | fuel + 1, i, key, cur =>
    match hForward h cur i with
    | none => cur
    | some nxt =>
      match hLookup h nxt with
      | none => cur
      | some n => if n.key_ < key then walkLevel h fuel i key nxt else cur

/-- The descending for-loop of search_element, which records no update array:
walk level i, then level i-1 from the stopping point, down to level 0. -/
def descend (s : SkipState) (key : Int) : Nat → Nat → Nat
  | 0, cur => walkLevel s.heap s.heap.length 0 key cur
  | i + 1, cur => descend s key i (walkLevel s.heap s.heap.length (i + 1) key cur)

/-- The descending for-loop of insert_element and delete_element: the same walk
but also recording update[j] (the predecessor at level j) for every level
j = 0..i.  The second component lists update[0], update[1], ..., update[i]. -/
def walkDown (s : SkipState) (key : Int) : Nat → Nat → Nat × List Nat
  | 0, cur =>
    let c := walkLevel s.heap s.heap.length 0 key cur
    (c, [c])
  | i + 1, cur =>
    let c := walkLevel s.heap s.heap.length (i + 1) key cur
    let r := walkDown s key i c
    (r.1, r.2 ++ [c])

/-- SkipList::search_element(key, value).  The C++ signature writes the found
value into a reference out-parameter and returns bool; the model returns the
pair (return value, out-parameter after the call). -/
def SkipList.search_element (s : SkipState) (key : Int) (value : String) :
    Bool × String :=
  let cur := descend s key s.current_level_ 0
  match hForward s.heap cur 0 with
  | none => (false, value)
  | some c =>
    match hLookup s.heap c with
    | none => (false, value)
    | some n => if n.key_ = key then (true, n.value_) else (false, value)

/-- One round of the splicing loop of insert_element at level i:
new_node->forward_[i] = update[i]->forward_[i]; update[i]->forward_[i] = new_node. -/
def spliceStep (h : Heap) (nid : Nat) (pred : Nat) (i : Nat) : Heap :=
  let h1 := hModify h nid (fun n => n.setForward i (hForward h pred i))
  hModify h1 pred (fun n => n.setForward i (some nid))

/-- The fresh-key tail of insert_element: draw the level, extend the update
array with the header on the new top levels, allocate the node and splice it
in at levels 0..random_level, then bump the count. -/
def SkipList.insertFresh (s : SkipState) (key : Int) (value : String)
    (upd : List Nat) (coins : Nat → Bool) : SkipState :=
  let random_level := SkipList.get_random_level coins
  let upd2 := if s.current_level_ < random_level then
    upd ++ List.replicate (random_level - s.current_level_) 0 else upd
  let cl2 := if s.current_level_ < random_level then random_level
    else s.current_level_
  let nid := s.next_id
  let h0 : Heap := (nid, Node.new key value random_level) :: s.heap
  let h1 := (List.range (random_level + 1)).foldl
    (fun h i => spliceStep h nid (upd2.getD i 0) i) h0
  ⟨h1, cl2, s.element_count_ + 1, nid + 1⟩

/-- SkipList::insert_element(key, value).  Walk down recording update, then
either overwrite the value of an existing node (returning true) or splice in a
fresh node (also returning true). -/
def SkipList.insert_element (s : SkipState) (key : Int) (value : String)
    (coins : Nat → Bool) : Bool × SkipState :=
  let r := walkDown s key s.current_level_ 0
  match hForward s.heap r.1 0 with
  | some c =>
    match hLookup s.heap c with
    | some n =>
      if n.key_ = key then
        (true, { s with heap := hModify s.heap c (fun m => { m with value_ := value }) })
      else (true, SkipList.insertFresh s key value r.2 coins)
    | none => (true, SkipList.insertFresh s key value r.2 coins)
  | none => (true, SkipList.insertFresh s key value r.2 coins)

/-- The unlinking loop of delete_element over the levels in the list is, with
the break: stop at the first level whose recorded predecessor does not point
at the doomed node, otherwise rewire it past the node. -/
def unlinkGo (h : Heap) (cid : Nat) (upd : List Nat) : List Nat → Heap
  | [] => h
  | i :: rest =>
    if hForward h (upd.getD i 0) i = some cid then
      unlinkGo (hModify h (upd.getD i 0)
        (fun n => n.setForward i (hForward h cid i))) cid upd rest
    else h

/-- The level-shrinking loop of delete_element: while current_level_ > 0 and
the header has no successor at current_level_, decrement it. -/
def shrinkLevel (h : Heap) : Nat → Nat
  | 0 => 0
  | n + 1 => if hForward h 0 (n + 1) = none then shrinkLevel h n else n + 1

/-- SkipList::delete_element(key): walk down recording update; fail without
mutation when the key is absent; otherwise unlink level by level, shrink
current_level_, free the node and decrement the count. -/
def SkipList.delete_element (s : SkipState) (key : Int) : Bool × SkipState :=
  let r := walkDown s key s.current_level_ 0
  match hForward s.heap r.1 0 with
  | none => (false, s)
  | some cid =>
    match hLookup s.heap cid with
    | none => (false, s)
    | some n =>
      if n.key_ = key then
        let h1 := unlinkGo s.heap cid r.2 (List.range (s.current_level_ + 1))
        let cl2 := shrinkLevel h1 s.current_level_
        let h2 := hErase h1 cid
        (true, ⟨h2, cl2, s.element_count_ - 1, s.next_id⟩)
      else (false, s)

/-- The node-freeing loop of clear: follow the level-0 chain from the header,
reading each next pointer before freeing the node. -/
def clearLoop (h : Heap) : Nat → Option Nat → Heap
  | _, none => h
  | 0, some _ => h
  | fuel + 1, some q =>
    let nxt := hForward h q 0
    clearLoop (hErase h q) fuel nxt

/-- SkipList::clear(): free every node on the level-0 chain, null out every
header slot, and reset current_level_ and element_count_ to 0. -/
def SkipList.clear (s : SkipState) : SkipState :=
  let h1 := clearLoop s.heap s.heap.length (hForward s.heap 0 0)
  let h2 := hModify h1 0
    (fun n => { n with forward_ := List.replicate n.forward_.length none })
  ⟨h2, 0, 0, s.next_id⟩

/-- The enumeration loop of process_all, collecting the (key, value) pairs
passed to the callback in order. -/
def processLoop (h : Heap) : Nat → Option Nat → List (Int × String)
  | _, none => []
  | 0, some _ => []
  | fuel + 1, some q =>
    match hLookup h q with
    | none => []
    | some n => (n.key_, n.value_) :: processLoop h fuel (n.forward_.getD 0 none)

/-- SkipList::process_all(func): traverse the level-0 chain from the header
and hand each key and value to the callback. -/
def SkipList.process_all (s : SkipState) : List (Int × String) :=
  processLoop s.heap s.heap.length (hForward s.heap 0 0)

/-- Ids on the successor chain of the header at one level, in order.  This is
the read-only observation the structural claims quantify over. -/
def chainIds (h : Heap) (i : Nat) : Nat → Option Nat → List Nat
  | _, none => []
  | 0, some _ => []
  | fuel + 1, some q => q :: chainIds h i fuel (hForward h q i)

/-- The list of node ids reachable from the header by successor steps at
level i. -/
def levelChain (h : Heap) (i : Nat) : List Nat :=
  chainIds h i h.length (hForward h 0 i)

/-- Key stored at an id (0 when dead; chain ids are never dead). -/
def keyD (h : Heap) (q : Nat) : Int :=
  match hLookup h q with
  | none => 0
  | some n => n.key_

/-- Value stored at an id. -/
def valD (h : Heap) (q : Nat) : String :=
  match hLookup h q with
  | none => ""
  | some n => n.value_

/-- Level assigned to an id. -/
def levelOfD (h : Heap) (q : Nat) : Nat :=
  match hLookup h q with
  | none => 0
  | some n => n.node_level_

/-! ## The KVStore wrapper (include/KVStore.h)

File contents are modelled as character lists; the lines written by dump join
into one stream and load splits the stream back with getline semantics.  The
success of opening the file is an explicit input; the file system itself is
outside the embedding. -/

/-- KVStore::put: forwards to insert_element and drops the bool. -/
def KVStore.put (s : SkipState) (k : Int) (v : String) (coins : Nat → Bool) :
    SkipState :=
  (SkipList.insert_element s k v coins).2

/-- KVStore::get: direct forward to search_element. -/
def KVStore.get (s : SkipState) (k : Int) (v : String) : Bool × String :=
  SkipList.search_element s k v

/-- KVStore::del is declared void: it calls delete_element and discards the
returned bool, so only the state change survives the call. -/
def KVStore.del (s : SkipState) (k : Int) : SkipState :=
  (SkipList.delete_element s k).2

/-- The value the caller of KVStore::del receives: the function returns void,
so the caller receives nothing. -/
def KVStore.delResult (s : SkipState) (k : Int) : Unit := ()

/-- KVStore::clear: direct forward. -/
def KVStore.clearStore (s : SkipState) : SkipState := SkipList.clear s

/-- Decimal rendering of a nonnegative integer, most significant digit first,
as operator<< prints it. -/
def natToDigits (n : Nat) : List Char :=
  if h : n < 10 then [Char.ofNat (48 + n)]
  else natToDigits (n / 10) ++ [Char.ofNat (48 + n % 10)]
termination_by n
decreasing_by exact Nat.div_lt_self (by omega) (by omega)

/-- Text produced by out_file << key for an int key. -/
def intDecimal (k : Int) : List Char :=
  if k < 0 then '-' :: natToDigits (-k).toNat else natToDigits k.toNat

/-- The character stream dump writes: for each pair handed over by
process_all, key, a colon, the value, and a newline. -/
def dumpContent (s : SkipState) : List Char :=
  (SkipList.process_all s).foldr
    (fun p acc => intDecimal p.1 ++ ':' :: p.2.data ++ '\n' :: acc) []

/-- KVStore::dump(): on open failure print a message to stderr and write
nothing; otherwise write the stream.  The skip list is only read, never
written, so the state is returned untouched in both branches.  Result:
(state after the call, file written, stderr lines). -/
def KVStore.dump (s : SkipState) (file_path : String) (openOk : Bool) :
    SkipState × Option (List Char) × List String :=
  if openOk then (s, some (dumpContent s), [])
  else (s, none, ["Error opening file for dump: " ++ file_path])

/-- What the caller of KVStore::dump receives: the function returns void. -/
def KVStore.dumpResult (s : SkipState) (file_path : String) (openOk : Bool) :
    Unit := ()

/-- Lines delivered by the getline loop of load: each call yields the
characters before the next newline and consumes the newline; it fails only at
end of input with nothing read. -/
def getlineSplit : List Char → List (List Char)
  | [] => []
  | c :: cs =>
    let before := (c :: cs).takeWhile (fun d => d ≠ '\n')
    let rest := (c :: cs).dropWhile (fun d => d ≠ '\n')
    before :: getlineSplit (rest.drop 1)
termination_by cs => cs.length + 1
decreasing_by
  simp only [List.length_drop]
  have hle := ((c :: cs).dropWhile_sublist (fun d => d ≠ '\n')).length_le
  simp only [List.length_cons] at hle ⊢
  omega

/-- Model of line.find(delimiter) plus the two substr calls: split at the
first colon, or report none when the line has no colon. -/
def splitFirstColon : List Char → Option (List Char × List Char)
  | [] => none
  | c :: rest =>
    if c = ':' then some ([], rest)
    else (splitFirstColon rest).map (fun p => (c :: p.1, p.2))

/-- Model of ss >> key for an int: skip whitespace, take an optional sign,
then accumulate decimal digits; extracting nothing leaves the value 0. -/
def parseDigits (acc : Nat) : List Char → Nat
  | [] => acc
  | c :: rest => if c.isDigit then parseDigits (acc * 10 + (c.toNat - 48)) rest else acc

/-- The full int extraction of operator>> on a stringstream. -/
def parseIntCpp (cs : List Char) : Int :=
  let cs1 := cs.dropWhile Char.isWhitespace
  match cs1 with
  | '-' :: rest => - (parseDigits 0 rest : Nat)
  | '+' :: rest => (parseDigits 0 rest : Nat)
  | _ => (parseDigits 0 cs1 : Nat)

/-- One iteration of the load loop: lines without the delimiter are skipped;
otherwise the key text is parsed as an int, the value text is taken verbatim
(V = std::string), and the pair is inserted. -/
def KVStore.loadLine (s : SkipState) (line : List Char) (coins : Nat → Bool) :
    SkipState :=
  match splitFirstColon line with
  | none => s
  | some p =>
    (SkipList.insert_element s (parseIntCpp p.1) (String.mk p.2) coins).2

/-- The while-getline loop of load; the n-th executed insert draws its level
from the n-th coin stream. -/
def KVStore.loadLines : List (List Char) → SkipState → (Nat → Nat → Bool) →
    Nat → SkipState
  | [], s, _, _ => s
  | l :: rest, s, coinss, n =>
    KVStore.loadLines rest (KVStore.loadLine s l (coinss n)) coinss (n + 1)

/-- KVStore::load(): an unopenable file returns at once with the state
untouched and nothing printed; otherwise every line of the file is split and
inserted. -/
def KVStore.load (file : Option (List Char)) (s : SkipState)
    (coinss : Nat → Nat → Bool) : SkipState :=
  match file with
  | none => s
  | some content => KVStore.loadLines (getlineSplit content) s coinss 0

/-- What the caller of KVStore::load receives: the function returns void. -/
def KVStore.loadResult (file : Option (List Char)) (s : SkipState)
    (coinss : Nat → Nat → Bool) : Unit := ()

/-- Stderr lines printed by KVStore::load: none on any path, in particular
none when opening the file fails. -/
def KVStore.loadStderr (file : Option (List Char)) : List String := []

/-! ## Locking discipline (SkipList.h)

Each member function of SkipList either constructs a std::unique_lock on
mutex_, constructs a std::shared_lock on mutex_, or constructs no guard at
all.  The table below transcribes, per member function, which of the three
its body contains. -/

/-- How a member function guards mutex_. -/
inductive LockMode where
  | exclusive
  | shared
  | unguarded
deriving DecidableEq

/-- The five operations of the Index. -/
inductive SkipOp where
  | insertOp
  | searchOp
  | deleteOp
  | traverseOp
  | clearOp
deriving DecidableEq

/-- Guard constructed by each member function of SkipList: insert_element and
delete_element construct a unique_lock, search_element a shared_lock, and
process_all and clear construct no guard. -/
def lockDiscipline : SkipOp → LockMode
  | .insertOp => .exclusive
  | .searchOp => .shared
  | .deleteOp => .exclusive
  | .traverseOp => .unguarded
  | .clearOp => .unguarded

/-! ## Operation sequences and the reference map model -/

/-- One call against the index: an insert (with its level oracle), a delete,
or a clear. -/
inductive Op where
  | ins : Int → String → (Nat → Bool) → Op
  | del : Int → Op
  | clr : Op

/-- Whether an operation is the clear call. -/
def Op.isClear : Op → Bool
  | .clr => true
  | _ => false

/-- Apply one call to a state. -/
def applyOp (s : SkipState) : Op → SkipState
  | .ins k v c => (SkipList.insert_element s k v c).2
  | .del k => (SkipList.delete_element s k).2
  | .clr => SkipList.clear s

/-- The state of a freshly constructed SkipList after a sequence of calls. -/
def applyOps (ops : List Op) : SkipState :=
  ops.foldl applyOp SkipList.new

/-- Reference model, following the words of the specified properties: a
key-sorted association list in which an insert overwrites the value of a
present key and otherwise adds the pair, keeping the order. -/
def specInsert : List (Int × String) → Int → String → List (Int × String)
  | [], k, v => [(k, v)]
  | (k', v') :: rest, k, v =>
    if k < k' then (k, v) :: (k', v') :: rest
    else if k = k' then (k, v) :: rest
    else (k', v') :: specInsert rest k v

/-- Reference model of a delete: drop the key if present. -/
def specDelete (m : List (Int × String)) (k : Int) : List (Int × String) :=
  m.filter (fun p => p.1 ≠ k)

/-- Reference model of a whole call sequence: the keys inserted and not
subsequently deleted, each with the value of its most recent insert. -/
def specModel (ops : List Op) : List (Int × String) :=
  ops.foldl (fun m op =>
    match op with
    | .ins k v _ => specInsert m k v
    | .del k => specDelete m k
    | .clr => []) []

/-- Lookup in the reference model. -/
def lookupKey : List (Int × String) → Int → Option String
  | [], _ => none
  | (k', v') :: rest, k => if k = k' then some v' else lookupKey rest k

/-! ## Chain segments

The statement chainSeg h i a xs o says: starting at node a, following the
level-i successor pointers spells out exactly the ids in xs, and the pointer
after the last of them is o.  The links invariant of a well-formed state says
the header chains out the whole level population this way, ending in null. -/

def chainSeg (h : Heap) (i : Nat) : Nat → List Nat → Option Nat → Prop
  | a, [], o => hForward h a i = o
  | a, b :: rest, o => hForward h a i = some b ∧ chainSeg h i b rest o

/-- Whether the key stored at an id is below the target key. -/
def belowKey (h : Heap) (key : Int) (q : Nat) : Bool := decide (keyD h q < key)

/-- The ids of L whose assigned level reaches level i: the population of
level i when L is the level-0 population. -/
def levelFilter (h : Heap) (L : List Nat) (i : Nat) : List Nat :=
  L.filter (fun q => decide (i ≤ levelOfD h q))

/-- The key/value pairs stored at a list of ids. -/
def absList (h : Heap) (L : List Nat) : List (Int × String) :=
  L.map (fun q => (keyD h q, valD h q))

/-- The ids of L holding a key below the target, in order (the part of the
chain every walk moves through). -/
def twL (h : Heap) (L : List Nat) (key : Int) : List Nat :=
  L.takeWhile (belowKey h key)

/-- The ids of L from the first key at or above the target onward. -/
def dwL (h : Heap) (L : List Nat) (key : Int) : List Nat :=
  L.dropWhile (belowKey h key)

/-- The predecessor of the target key at level i: the last id of the level-i
population holding a key below the target, or the header. -/
def predAbs (h : Heap) (L : List Nat) (key : Int) (i : Nat) : Nat :=
  (levelFilter h (twL h L key) i).getLastD 0

/-- Well-formedness of a SkipState, relative to the ordered list L of the ids
of its live data nodes.  Everything the operations rely on: the heap holds
the header (id 0, level MAX_LEVEL, MAX_LEVEL + 1 slots) and the nodes of L,
all ids are below the allocation counter, node levels are capped by
current_level_ and slot counts equal level + 1, keys strictly increase along
L, every level i chains out exactly the level-i population, the element count
is the length of L, and current_level_ is tight: 0, or else its population is
non-empty. -/
structure SkipInv (s : SkipState) (L : List Nat) : Prop where
  keysNodup : (s.heap.map Prod.fst).Nodup
  dom : ∀ q : Nat, (hLookup s.heap q).isSome = true ↔ q ∈ (0 :: L)
  headerZero : 0 ∉ L
  headerNode : ∃ fw, hLookup s.heap 0 = some ⟨0, "", MAX_LEVEL, fw⟩ ∧
    fw.length = MAX_LEVEL + 1
  fresh : ∀ q ∈ (0 :: L), q < s.next_id
  nodesWF : ∀ q ∈ L, ∀ n, hLookup s.heap q = some n →
    n.node_level_ ≤ s.current_level_ ∧ n.forward_.length = n.node_level_ + 1
  sorted : List.Chain' (fun a b => keyD s.heap a < keyD s.heap b) L
  links : ∀ i, i ≤ MAX_LEVEL → chainSeg s.heap i 0 (levelFilter s.heap L i) none
  count : s.element_count_ = L.length
  clLe : s.current_level_ ≤ MAX_LEVEL
  clTight : s.current_level_ = 0 ∨ levelFilter s.heap L s.current_level_ ≠ []

/-- All fields of a node except the successor pointers themselves (their
count included): the part of a node no pointer-rewiring step changes. -/
def nodeMeta (n : Node) : Int × String × Nat × Nat :=
  (n.key_, n.value_, n.node_level_, n.forward_.length)

/-! ## Heap access lemmas -/

theorem hLookup_cons (k : Nat) (n : Node) (t : Heap) (q : Nat) :
    hLookup ((k, n) :: t) q = if q = k then some n else hLookup t q := rfl

theorem hModify_cons (k : Nat) (n : Node) (t : Heap) (q : Nat) (f : Node → Node) :
    hModify ((k, n) :: t) q f =
      (if k = q then (k, f n) else (k, n)) :: hModify t q f := rfl

theorem hErase_cons (k : Nat) (n : Node) (t : Heap) (q : Nat) :
    hErase ((k, n) :: t) q =
      if k = q then hErase t q else (k, n) :: hErase t q := by
  by_cases hkq : k = q <;> simp [hErase, hkq]

theorem hLookup_hModify (h : Heap) (q : Nat) (f : Node → Node) (r : Nat) :
    hLookup (hModify h q f) r = if r = q then (hLookup h q).map f else hLookup h r := by
  induction h with
  | nil => simp [hModify, hLookup]
  | cons p t ih =>
    obtain ⟨k, n⟩ := p
    rw [hModify_cons]
    by_cases hkq : k = q
    · subst hkq
      rw [if_pos rfl]
      by_cases hrk : r = k
      · simp [hLookup_cons, hrk]
      · simp [hLookup_cons, hrk, ih]
    · rw [if_neg hkq]
      by_cases hrk : r = k
      · subst hrk
        simp [hLookup_cons, hkq]
      · simp [hLookup_cons, hrk, ih, Ne.symm hkq]

theorem hLookup_hErase (h : Heap) (q : Nat) (r : Nat) :
    hLookup (hErase h q) r = if r = q then none else hLookup h r := by
  induction h with
  | nil => simp [hErase, hLookup]
  | cons p t ih =>
    obtain ⟨k, n⟩ := p
    rw [hErase_cons]
    by_cases hkq : k = q
    · subst hkq
      by_cases hrk : r = k
      · subst hrk; simp [ih]
      · simp [hLookup_cons, hrk, ih]
    · rw [if_neg hkq]
      by_cases hrk : r = k
      · subst hrk
        simp [hLookup_cons, hkq]
      · simp [hLookup_cons, hrk, ih]

theorem hLookup_isSome_iff_memKeys (h : Heap) (q : Nat) :
    (hLookup h q).isSome = true ↔ q ∈ h.map Prod.fst := by
  induction h with
  | nil => simp [hLookup]
  | cons p t ih =>
    obtain ⟨k, n⟩ := p
    by_cases hqk : q = k
    · subst hqk; simp [hLookup]
    · simp [hLookup, hqk, ih]

/-- List.set at an index leaves the other positions of getD unchanged and
rewrites the hit position when it is in range. -/
theorem getD_set_eq_of (l : List (Option Nat)) (i j : Nat) (p : Option Nat) :
    (l.set i p).getD j none =
      if j = i ∧ i < l.length then p else l.getD j none := by
  by_cases hji : j = i
  · subst hji
    by_cases hlen : j < l.length
    · simp [List.getD, hlen, List.getElem?_set_self, hlen]
    · have h1 : l.set j p = l := List.set_eq_of_length_le (by omega)
      simp [h1, hlen]
  · simp [List.getD, List.getElem?_set_ne (fun h => hji h.symm), hji]

theorem hForward_hModify_setForward (h : Heap) (a i : Nat) (p : Option Nat)
    (q j : Nat) :
    hForward (hModify h a (fun n => n.setForward i p)) q j =
      if q = a ∧ j = i ∧
          (∃ n, hLookup h a = some n ∧ i < n.forward_.length) then p
      else hForward h q j := by
  unfold hForward
  rw [hLookup_hModify]
  by_cases hqa : q = a
  · subst hqa
    cases hn : hLookup h q with
    | none => simp [hn]
    | some n =>
      simp only [hn, if_pos rfl, Option.map_some]
      show (n.setForward i p).forward_.getD j none = _
      rw [Node.setForward]
      simp only []
      rw [getD_set_eq_of]
      by_cases hji : j = i
      · subst hji
        by_cases hl : j < n.forward_.length
        · simp [hl]
        · simp [hl]
      · simp [hji]
  · simp [hqa]

theorem hForward_hModify_value (h : Heap) (a : Nat) (v : String) (q j : Nat) :
    hForward (hModify h a (fun n => { n with value_ := v })) q j =
      hForward h q j := by
  unfold hForward
  rw [hLookup_hModify]
  by_cases hqa : q = a
  · subst hqa
    cases hn : hLookup h q with
    | none => simp [hn]
    | some n => simp [hn]
  · simp [hqa]

theorem hForward_hErase (h : Heap) (a : Nat) (q j : Nat) :
    hForward (hErase h a) q j = if q = a then none else hForward h q j := by
  unfold hForward
  rw [hLookup_hErase]
  by_cases hqa : q = a <;> simp [hqa]

theorem keys_hModify (h : Heap) (q : Nat) (f : Node → Node) :
    (hModify h q f).map Prod.fst = h.map Prod.fst := by
  induction h with
  | nil => rfl
  | cons p t ih =>
    obtain ⟨k, n⟩ := p
    rw [hModify_cons]
    by_cases hkq : k = q
    · rw [if_pos hkq]; simpa using ih
    · rw [if_neg hkq]; simpa using ih

theorem chainSeg_nil (h : Heap) (i a : Nat) (o : Option Nat) :
    chainSeg h i a [] o ↔ hForward h a i = o := Iff.rfl

theorem chainSeg_cons (h : Heap) (i a b : Nat) (rest : List Nat) (o : Option Nat) :
    chainSeg h i a (b :: rest) o ↔
      hForward h a i = some b ∧ chainSeg h i b rest o := Iff.rfl

theorem chainSeg_append (h : Heap) (i a : Nat) (xs : List Nat) (b : Nat)
    (ys : List Nat) (o : Option Nat) :
    chainSeg h i a (xs ++ b :: ys) o ↔
      chainSeg h i a xs (some b) ∧ chainSeg h i b ys o := by
  induction xs generalizing a with
  | nil => simp [chainSeg_cons, chainSeg_nil]
  | cons x xs ih =>
    simp only [List.cons_append, chainSeg_cons, ih, and_assoc]

theorem chainSeg_getLastD (h : Heap) (i a : Nat) (xs : List Nat) (o : Option Nat)
    (hs : chainSeg h i a xs o) : hForward h (xs.getLastD a) i = o := by
  induction xs generalizing a with
  | nil => exact hs
  | cons b rest ih =>
    rw [List.getLastD_cons]
    exact ih b hs.2

/-- Extract a chain segment starting in the middle. -/
theorem chainSeg_extract (h : Heap) (i : Nat) (u : List Nat) :
    ∀ (a : Nat) (xs : List Nat) (o : Option Nat) (p : Nat) (v : List Nat),
      chainSeg h i a xs o → a :: xs = u ++ p :: v → chainSeg h i p v o := by
  induction u with
  | nil =>
    intro a xs o p v hs hsplit
    simp only [List.nil_append] at hsplit
    injection hsplit with h1 h2
    subst h1; subst h2; exact hs
  | cons x u ih =>
    intro a xs o p v hs hsplit
    cases xs with
    | nil =>
      injection hsplit with h1 h2
      exact absurd h2 (by simp)
    | cons b rest =>
      injection hsplit with h1 h2
      exact ih b rest o p v hs.2 h2

/-- A chain segment only depends on the successor pointers of its members. -/
theorem chainSeg_congr (h h2 : Heap) (i a : Nat) (xs : List Nat) (o : Option Nat)
    (hagree : ∀ q ∈ a :: xs, hForward h2 q i = hForward h q i)
    (hs : chainSeg h i a xs o) : chainSeg h2 i a xs o := by
  induction xs generalizing a with
  | nil => rw [chainSeg_nil, hagree a (by simp)]; exact hs
  | cons b rest ih =>
    refine ⟨by rw [hagree a (by simp)]; exact hs.1, ?_⟩
    exact ih b (fun q hq => hagree q (by simp at hq ⊢; tauto)) hs.2

/-- The reading loops deliver exactly a null-terminated chain segment. -/
theorem chainIds_of_chainSeg (h : Heap) (i a : Nat) (xs : List Nat)
    (hs : chainSeg h i a xs none) (fuel : Nat) (hfuel : xs.length ≤ fuel) :
    chainIds h i fuel (hForward h a i) = xs := by
  induction xs generalizing a fuel with
  | nil => rw [chainSeg_nil] at hs; rw [hs]; cases fuel <;> rfl
  | cons b rest ih =>
    rw [hs.1]
    cases fuel with
    | zero => simp at hfuel
    | succ f =>
      show b :: chainIds h i f (hForward h b i) = b :: rest
      rw [ih b hs.2 f (by simpa using hfuel)]

theorem processLoop_of_chainSeg (h : Heap) (a : Nat) (xs : List Nat)
    (hs : chainSeg h 0 a xs none)
    (hdom : ∀ q ∈ xs, (hLookup h q).isSome = true)
    (fuel : Nat) (hfuel : xs.length ≤ fuel) :
    processLoop h fuel (hForward h a 0) =
      xs.map (fun q => (keyD h q, valD h q)) := by
  induction xs generalizing a fuel with
  | nil => rw [chainSeg_nil] at hs; rw [hs]; cases fuel <;> rfl
  | cons b rest ih =>
    rw [hs.1]
    cases fuel with
    | zero => simp at hfuel
    | succ f =>
      have hb := hdom b (by simp)
      cases hn : hLookup h b with
      | none => rw [hn] at hb; simp at hb
      | some n =>
        have hfw : n.forward_.getD 0 none = hForward h b 0 := by
          unfold hForward; rw [hn]
        show processLoop h (f + 1) (some b) = _
        simp only [processLoop, hn]
        rw [hfw, ih b hs.2 (fun q hq => hdom q (by simp [hq])) f (by simpa using hfuel)]
        simp [keyD, valD, hn]

/-! ## The walk lemma: one level -/

theorem walkLevel_spec (h : Heap) (i : Nat) (key : Int) (cur : Nat)
    (suf : List Nat) (hseg : chainSeg h i cur suf none)
    (hdom : ∀ q ∈ suf, (hLookup h q).isSome = true)
    (fuel : Nat) (hfuel : suf.length ≤ fuel) :
    walkLevel h fuel i key cur = (suf.takeWhile (belowKey h key)).getLastD cur := by
  induction suf generalizing cur fuel with
  | nil =>
    rw [chainSeg_nil] at hseg
    cases fuel with
    | zero => rfl
    | succ f => simp only [walkLevel, hseg]; rfl
  | cons b rest ih =>
    cases fuel with
    | zero => simp at hfuel
    | succ f =>
      have hb := hdom b (by simp)
      cases hn : hLookup h b with
      | none => rw [hn] at hb; simp at hb
      | some n =>
        have hkey : keyD h b = n.key_ := by unfold keyD; rw [hn]
        show walkLevel h (f + 1) i key cur = _
        simp only [walkLevel, hseg.1, hn]
        by_cases hlt : n.key_ < key
        · rw [if_pos hlt]
          have htw : (b :: rest).takeWhile (belowKey h key) =
              b :: rest.takeWhile (belowKey h key) := by
            rw [List.takeWhile_cons, if_pos (by simp [belowKey, hkey, hlt])]
          rw [htw, List.getLastD_cons]
          exact ih b hseg.2 (fun q hq => hdom q (by simp [hq])) f (by simpa using hfuel)
        · rw [if_neg hlt]
          have htw : (b :: rest).takeWhile (belowKey h key) = [] := by
            rw [List.takeWhile_cons, if_neg (by simp [belowKey, hkey, hlt])]
          rw [htw]
          rfl

/-! ## List helpers -/

theorem takeWhile_append_all_not {p : Nat → Bool} {xs ys : List Nat}
    (hx : ∀ x ∈ xs, p x = true) (hy : ∀ y ∈ ys, p y = false) :
    (xs ++ ys).takeWhile p = xs := by
  induction xs with
  | nil =>
    simp only [List.nil_append]
    cases ys with
    | nil => rfl
    | cons y yt => rw [List.takeWhile_cons, if_neg (by simp [hy y (by simp)])]
  | cons x xt ih =>
    rw [List.cons_append, List.takeWhile_cons, if_pos (hx x (by simp))]
    rw [ih (fun a ha => hx a (by simp [ha]))]

theorem getLastD_append_cons (u : List Nat) (p : Nat) (w : List Nat) (d : Nat) :
    (u ++ p :: w).getLastD d = w.getLastD p := by
  induction u generalizing d with
  | nil => rw [List.nil_append, List.getLastD_cons]
  | cons x ut ih => rw [List.cons_append, List.getLastD_cons, ih]

/-! ## Facts derived from the invariant -/

theorem SkipInv.sortedPairwise {s : SkipState} {L : List Nat} (inv : SkipInv s L) :
    L.Pairwise (fun a b => keyD s.heap a < keyD s.heap b) := by
  haveI : IsTrans Nat (fun a b => keyD s.heap a < keyD s.heap b) :=
    ⟨fun _ _ _ => lt_trans⟩
  exact List.chain'_iff_pairwise.mp inv.sorted

theorem SkipInv.nodupL {s : SkipState} {L : List Nat} (inv : SkipInv s L) :
    L.Nodup := by
  have hp := inv.sortedPairwise
  exact hp.imp (fun {a b} hlt => by
    intro hab; subst hab; exact absurd hlt (lt_irrefl _))

theorem SkipInv.nodup0L {s : SkipState} {L : List Nat} (inv : SkipInv s L) :
    (0 :: L).Nodup := by
  exact List.nodup_cons.mpr ⟨inv.headerZero, inv.nodupL⟩

theorem SkipInv.heapLen {s : SkipState} {L : List Nat} (inv : SkipInv s L) :
    s.heap.length = L.length + 1 := by
  have hperm : (s.heap.map Prod.fst).Perm (0 :: L) := by
    refine (List.perm_ext_iff_of_nodup inv.keysNodup inv.nodup0L).mpr ?_
    intro a
    rw [← hLookup_isSome_iff_memKeys]
    exact inv.dom a
  have := hperm.length_eq
  simpa using this

theorem SkipInv.memDom {s : SkipState} {L : List Nat} (inv : SkipInv s L)
    {q : Nat} (hq : q ∈ (0 :: L)) : (hLookup s.heap q).isSome = true :=
  (inv.dom q).mpr hq

/-- The level population of a sublist of L is a sublist of the level
population of L (and in particular membership carries over). -/
theorem levelFilter_mono (h : Heap) (L : List Nat) (i : Nat) :
    ∀ q ∈ levelFilter h L (i + 1), q ∈ levelFilter h L i := by
  intro q hq
  rw [levelFilter, List.mem_filter] at hq ⊢
  exact ⟨hq.1, by have := hq.2; simp at this ⊢; omega⟩

theorem levelFilter_zero (h : Heap) (L : List Nat) :
    levelFilter h L 0 = L := by
  rw [levelFilter, List.filter_eq_self]
  intro a _
  simp

theorem levelFilter_subset (h : Heap) (L : List Nat) (i : Nat) :
    ∀ q ∈ levelFilter h L i, q ∈ L := by
  intro q hq
  exact (List.mem_filter.mp hq).1

theorem levelFilter_length_le (h : Heap) (L : List Nat) (i : Nat) :
    (levelFilter h L i).length ≤ L.length :=
  List.length_filter_le _ _

/-- Members of the level population carry level at least i. -/
theorem levelFilter_level {h : Heap} {L : List Nat} {i : Nat} {q : Nat}
    (hq : q ∈ levelFilter h L i) : i ≤ levelOfD h q := by
  have := (List.mem_filter.mp hq).2
  simpa using this

/-- Splitting L at the target key. -/
theorem tw_dw_append (h : Heap) (L : List Nat) (key : Int) :
    twL h L key ++ dwL h L key = L :=
  List.takeWhile_append_dropWhile _ _

theorem mem_twL_below {h : Heap} {L : List Nat} {key : Int} {q : Nat}
    (hq : q ∈ twL h L key) : belowKey h key q = true :=
  List.mem_takeWhile_imp hq

theorem mem_dwL_not_below {h : Heap} {L : List Nat} {key : Int}
    (hpair : L.Pairwise (fun a b => keyD h a < keyD h b)) :
    ∀ q ∈ dwL h L key, belowKey h key q = false := by
  intro q hq
  have hsplit := tw_dw_append h L key
  cases hdw : dwL h L key with
  | nil => rw [hdw] at hq; simp at hq
  | cons d dt =>
    rw [hdw] at hq
    have hd : belowKey h key d = false := by
      have := List.head?_dropWhile_not (belowKey h key) L
      rw [dwL] at hdw
      rw [hdw] at this
      simpa using this
    have hpair2 : (d :: dt).Pairwise (fun a b => keyD h a < keyD h b) := by
      have hsub : (d :: dt).Sublist L := by
        rw [← hsplit, hdw]
        exact (List.sublist_append_right _ _)
      exact hpair.sublist hsub
    rcases List.mem_cons.mp hq with rfl | hq2
    · exact hd
    · have hlt : keyD h d < keyD h q := (List.pairwise_cons.mp hpair2).1 q hq2
      simp only [belowKey, decide_eq_false_iff_not] at hd ⊢
      omega

/-! ## The walk reaches the per-level predecessor -/

theorem mem_twL_mem {h : Heap} {L : List Nat} {key : Int} {q : Nat}
    (hq : q ∈ twL h L key) : q ∈ L := by
  rw [← tw_dw_append h L key]
  exact List.mem_append_left _ hq

theorem mem_dwL_mem {h : Heap} {L : List Nat} {key : Int} {q : Nat}
    (hq : q ∈ dwL h L key) : q ∈ L := by
  rw [← tw_dw_append h L key]
  exact List.mem_append_right _ hq

theorem walk_to_pred {s : SkipState} {L : List Nat} (inv : SkipInv s L)
    (key : Int) (i : Nat) (hi : i ≤ MAX_LEVEL) (p : Nat)
    (hp : p ∈ 0 :: levelFilter s.heap (twL s.heap L key) i) :
    walkLevel s.heap s.heap.length i key p = predAbs s.heap L key i := by
  have hFi : levelFilter s.heap L i =
      levelFilter s.heap (twL s.heap L key) i ++
      levelFilter s.heap (dwL s.heap L key) i := by
    rw [levelFilter, levelFilter, levelFilter, ← List.filter_append,
      tw_dw_append]
  obtain ⟨u, w, hsplit⟩ := List.append_of_mem hp
  have hwsub : ∀ q ∈ w, q ∈ levelFilter s.heap (twL s.heap L key) i := by
    cases u with
    | nil =>
      simp only [List.nil_append] at hsplit
      injection hsplit with h1 h2
      intro q hq; rw [h2]; exact hq
    | cons x ut =>
      injection hsplit with h1 h2
      intro q hq
      rw [h2]
      exact List.mem_append_right _ (List.mem_cons_of_mem _ hq)
  have hseg : chainSeg s.heap i p
      (w ++ levelFilter s.heap (dwL s.heap L key) i) none := by
    have hs0 := inv.links i hi
    rw [hFi] at hs0
    refine chainSeg_extract s.heap i u 0 _ none p _ hs0 ?_
    have h6 := congrArg
      (fun l => l ++ levelFilter s.heap (dwL s.heap L key) i) hsplit
    simpa [List.append_assoc] using h6
  have hdom : ∀ q ∈ w ++ levelFilter s.heap (dwL s.heap L key) i,
      (hLookup s.heap q).isSome = true := by
    intro q hq
    rcases List.mem_append.mp hq with hq1 | hq2
    · exact inv.memDom (List.mem_cons_of_mem _
        (mem_twL_mem (levelFilter_subset _ _ _ _ (hwsub q hq1))))
    · exact inv.memDom (List.mem_cons_of_mem _
        (mem_dwL_mem (levelFilter_subset _ _ _ _ hq2)))
  have hlen : (w ++ levelFilter s.heap (dwL s.heap L key) i).length ≤
      s.heap.length := by
    have h1 := congrArg List.length hsplit
    simp only [List.length_cons, List.length_append] at h1
    have h2 : (levelFilter s.heap (twL s.heap L key) i).length ≤
        (twL s.heap L key).length := levelFilter_length_le _ _ _
    have h3 : (levelFilter s.heap (dwL s.heap L key) i).length ≤
        (dwL s.heap L key).length := levelFilter_length_le _ _ _
    have h4 : (twL s.heap L key).length + (dwL s.heap L key).length =
        L.length := by
      have := congrArg List.length (tw_dw_append s.heap L key)
      simpa using this
    have h5 := inv.heapLen
    simp only [List.length_append]
    omega
  rw [walkLevel_spec s.heap i key p _ hseg hdom _ hlen]
  have htake : (w ++ levelFilter s.heap (dwL s.heap L key) i).takeWhile
      (belowKey s.heap key) = w := by
    refine takeWhile_append_all_not ?_ ?_
    · intro x hx
      exact mem_twL_below (levelFilter_subset _ _ _ _ (hwsub x hx))
    · intro y hy
      exact mem_dwL_not_below inv.sortedPairwise y
        (levelFilter_subset _ _ _ _ hy)
  rw [htake]
  have hpred : predAbs s.heap L key i =
      (u ++ p :: w).getLastD p := by
    rw [predAbs, ← hsplit, List.getLastD_cons]
  rw [hpred, getLastD_append_cons]

theorem getD_map_range (f : Nat → Nat) (n j : Nat) (hj : j < n) :
    ((List.range n).map f).getD j 0 = f j := by
  rw [List.getD_eq_getElem?_getD, List.getElem?_map, List.getElem?_range hj]
  rfl

theorem chainSeg_from_getLastD (h : Heap) (i a : Nat) (xs ys : List Nat)
    (o : Option Nat) (hs : chainSeg h i a (xs ++ ys) o) :
    chainSeg h i (xs.getLastD a) ys o := by
  induction xs generalizing a with
  | nil => exact hs
  | cons b bt ih =>
    rw [List.getLastD_cons]
    exact ih b hs.2

theorem predAbs_mem (h : Heap) (L : List Nat) (key : Int) (i : Nat) :
    predAbs h L key i ∈ 0 :: levelFilter h (twL h L key) i :=
  List.getLastD_mem_cons _ _

/-- The whole downward walk of search_element lands on the level-0
predecessor of the target key. -/
theorem descend_spec {s : SkipState} {L : List Nat} (inv : SkipInv s L)
    (key : Int) :
    ∀ i, i ≤ MAX_LEVEL →
      ∀ p, p ∈ 0 :: levelFilter s.heap (twL s.heap L key) i →
        descend s key i p = predAbs s.heap L key 0 := by
  intro i
  induction i with
  | zero =>
    intro _ p hp
    exact walk_to_pred inv key 0 (by simp [MAX_LEVEL]) p hp
  | succ i ih =>
    intro hi p hp
    show descend s key i _ = _
    rw [walk_to_pred inv key (i + 1) hi p hp]
    refine ih (by omega) _ ?_
    rcases List.mem_cons.mp (predAbs_mem s.heap L key (i + 1)) with h0 | hmem
    · rw [h0]; simp
    · exact List.mem_cons_of_mem _ (levelFilter_mono _ _ _ _ hmem)

/-- The downward walk of insert_element and delete_element lands on the
level-0 predecessor and records the level-j predecessor in update[j]. -/
theorem walkDown_spec {s : SkipState} {L : List Nat} (inv : SkipInv s L)
    (key : Int) :
    ∀ i, i ≤ MAX_LEVEL →
      ∀ p, p ∈ 0 :: levelFilter s.heap (twL s.heap L key) i →
        walkDown s key i p = (predAbs s.heap L key 0,
          (List.range (i + 1)).map (predAbs s.heap L key)) := by
  intro i
  induction i with
  | zero =>
    intro _ p hp
    show (walkLevel s.heap s.heap.length 0 key p,
      [walkLevel s.heap s.heap.length 0 key p]) = _
    rw [walk_to_pred inv key 0 (by simp [MAX_LEVEL]) p hp]
    rfl
  | succ i ih =>
    intro hi p hp
    show (let c := walkLevel s.heap s.heap.length (i + 1) key p
      let r := walkDown s key i c
      (r.1, r.2 ++ [c])) = _
    simp only []
    rw [walk_to_pred inv key (i + 1) hi p hp]
    have hmem2 : predAbs s.heap L key (i + 1) ∈
        0 :: levelFilter s.heap (twL s.heap L key) i := by
      rcases List.mem_cons.mp (predAbs_mem s.heap L key (i + 1)) with h0 | hmem
      · rw [h0]; simp
      · exact List.mem_cons_of_mem _ (levelFilter_mono _ _ _ _ hmem)
    rw [ih (by omega) _ hmem2]
    simp only [List.range_succ, List.map_append, List.map_cons, List.map_nil]

/-- The chain continues from the level-i predecessor through the level-i
population at or above the target key. -/
theorem chain_at_dw_level {s : SkipState} {L : List Nat} (inv : SkipInv s L)
    (key : Int) (i : Nat) (hi : i ≤ MAX_LEVEL) :
    chainSeg s.heap i (predAbs s.heap L key i)
      (levelFilter s.heap (dwL s.heap L key) i) none := by
  have hs0 := inv.links i hi
  have hFi : levelFilter s.heap L i =
      levelFilter s.heap (twL s.heap L key) i ++
      levelFilter s.heap (dwL s.heap L key) i := by
    rw [levelFilter, levelFilter, levelFilter, ← List.filter_append,
      tw_dw_append]
  rw [hFi] at hs0
  exact chainSeg_from_getLastD s.heap i 0 _ _ none hs0

/-- The successor of the level-i predecessor is the head of the level-i
population at or above the target. -/
theorem pred_forward {s : SkipState} {L : List Nat} (inv : SkipInv s L)
    (key : Int) (i : Nat) (hi : i ≤ MAX_LEVEL) :
    hForward s.heap (predAbs s.heap L key i) i =
      (levelFilter s.heap (dwL s.heap L key) i).head? := by
  have hs := chain_at_dw_level inv key i hi
  cases hdw : levelFilter s.heap (dwL s.heap L key) i with
  | nil => rw [hdw] at hs; exact hs
  | cons d dt => rw [hdw] at hs; exact hs.1

/-- A key present in L sits exactly at the head of the drop part. -/
theorem key_at_dw_head {s : SkipState} {L : List Nat} (inv : SkipInv s L)
    (key : Int) (q : Nat) (hq : q ∈ L) (hkey : keyD s.heap q = key) :
    (dwL s.heap L key).head? = some q := by
  have hsplit := tw_dw_append s.heap L key
  have hq2 : q ∈ twL s.heap L key ∨ q ∈ dwL s.heap L key := by
    rw [← hsplit] at hq
    exact List.mem_append.mp hq
  rcases hq2 with htw | hdw
  · have := mem_twL_below htw
    simp only [belowKey, hkey, decide_eq_true_eq] at this
    omega
  · cases hd : dwL s.heap L key with
    | nil => rw [hd] at hdw; simp at hdw
    | cons d dt =>
      rw [hd] at hdw
      rcases List.mem_cons.mp hdw with rfl | hdt
      · rfl
      · exfalso
        have hdnb := mem_dwL_not_below inv.sortedPairwise d (by rw [hd]; simp)
        have hpair2 : (d :: dt).Pairwise
            (fun a b => keyD s.heap a < keyD s.heap b) := by
          refine inv.sortedPairwise.sublist ?_
          rw [← hsplit, hd]
          exact List.sublist_append_right _ _
        have hlt : keyD s.heap d < keyD s.heap q :=
          (List.pairwise_cons.mp hpair2).1 q hdt
        simp only [belowKey, decide_eq_false_iff_not] at hdnb
        omega

/-- Keys absent from L: every id of L fails the key. -/
theorem dw_head_absent {s : SkipState} {L : List Nat} (inv : SkipInv s L)
    (key : Int)
    (habs : ∀ q ∈ L, keyD s.heap q ≠ key) :
    ∀ d, (dwL s.heap L key).head? = some d → keyD s.heap d ≠ key := by
  intro d hd
  have hdmem : d ∈ dwL s.heap L key := by
    cases hd2 : dwL s.heap L key with
    | nil => rw [hd2] at hd; simp at hd
    | cons x xt => rw [hd2] at hd; injection hd with h1; rw [h1]; simp
  exact habs d (mem_dwL_mem hdmem)

theorem lookupKey_absList_some {h : Heap} {L : List Nat} {key : Int}
    (hpair : L.Pairwise (fun a b => keyD h a < keyD h b))
    (d : Nat) (hd : d ∈ L) (hkey : keyD h d = key) :
    lookupKey (absList h L) key = some (valD h d) := by
  induction L with
  | nil => simp at hd
  | cons a t ih =>
    rw [absList, List.map_cons]
    show lookupKey ((keyD h a, valD h a) :: absList h t) key = _
    rcases List.mem_cons.mp hd with rfl | hdt
    · rw [lookupKey, if_pos hkey.symm]
    · have hlt : keyD h a < keyD h d := (List.pairwise_cons.mp hpair).1 d hdt
      rw [lookupKey, if_neg (by omega)]
      exact ih (List.pairwise_cons.mp hpair).2 hdt

theorem lookupKey_absList_none {h : Heap} {L : List Nat} {key : Int}
    (habs : ∀ q ∈ L, keyD h q ≠ key) :
    lookupKey (absList h L) key = none := by
  induction L with
  | nil => rfl
  | cons a t ih =>
    rw [absList, List.map_cons]
    show lookupKey ((keyD h a, valD h a) :: absList h t) key = none
    rw [lookupKey, if_neg (fun he => habs a (by simp) he.symm)]
    exact ih (fun q hq => habs q (by simp [hq]))

/-- Functional behaviour of search_element on a well-formed state: exactly
the map lookup, and the out-parameter is untouched on a miss. -/
theorem search_element_spec {s : SkipState} {L : List Nat} (inv : SkipInv s L)
    (key : Int) (v0 : String) :
    SkipList.search_element s key v0 =
      match lookupKey (absList s.heap L) key with
      | some v => (true, v)
      | none => (false, v0) := by
  have hcur : descend s key s.current_level_ 0 = predAbs s.heap L key 0 :=
    descend_spec inv key s.current_level_ inv.clLe 0 (by simp)
  have hfw : hForward s.heap (predAbs s.heap L key 0) 0 =
      (dwL s.heap L key).head? := by
    have := pred_forward inv key 0 (by simp [MAX_LEVEL])
    rwa [levelFilter_zero] at this
  show (match hForward s.heap (descend s key s.current_level_ 0) 0 with
    | none => (false, v0)
    | some c =>
      match hLookup s.heap c with
      | none => (false, v0)
      | some n => if n.key_ = key then (true, n.value_) else (false, v0)) = _
  rw [hcur, hfw]
  cases hdw : dwL s.heap L key with
  | nil =>
    have habs : ∀ q ∈ L, keyD s.heap q ≠ key := by
      intro q hq hkey
      have := key_at_dw_head inv key q hq hkey
      rw [hdw] at this
      simp at this
    rw [lookupKey_absList_none habs]
    rfl
  | cons d dt =>
    have hdmem : d ∈ L := mem_dwL_mem (by rw [hdw]; simp)
    have hds := inv.memDom (List.mem_cons_of_mem _ hdmem)
    simp only [List.head?_cons]
    cases hn : hLookup s.heap d with
    | none => rw [hn] at hds; simp at hds
    | some n =>
      have hkeyd : keyD s.heap d = n.key_ := by rw [keyD, hn]
      show (if n.key_ = key then (true, n.value_) else (false, v0)) = _
      by_cases hk : n.key_ = key
      · rw [if_pos hk]
        rw [lookupKey_absList_some inv.sortedPairwise d hdmem (by omega)]
        have : valD s.heap d = n.value_ := by rw [valD, hn]
        rw [this]
      · rw [if_neg hk]
        have habs : ∀ q ∈ L, keyD s.heap q ≠ key := by
          intro q hq hkey
          have := key_at_dw_head inv key q hq hkey
          rw [hdw] at this
          injection this with h1
          rw [← h1] at hkey
          omega
        rw [lookupKey_absList_none habs]

/-! ## Metadata preservation and the unlink loop -/

theorem nodeMeta_setForward (n : Node) (i : Nat) (p : Option Nat) :
    nodeMeta (n.setForward i p) = nodeMeta n := by
  simp [nodeMeta, Node.setForward]

theorem meta_hModify_setForward (h : Heap) (a i : Nat) (p : Option Nat) (q : Nat) :
    (hLookup (hModify h a (fun n => n.setForward i p)) q).map nodeMeta =
      (hLookup h q).map nodeMeta := by
  rw [hLookup_hModify]
  by_cases hqa : q = a
  · subst hqa
    cases hn : hLookup h q with
    | none => simp
    | some n => simp [nodeMeta_setForward]
  · rw [if_neg hqa]

theorem keys_hErase (h : Heap) (q : Nat) :
    (hErase h q).map Prod.fst = (h.map Prod.fst).filter (fun r => r ≠ q) := by
  induction h with
  | nil => rfl
  | cons p t ih =>
    obtain ⟨k, n⟩ := p
    rw [hErase_cons]
    by_cases hkq : k = q
    · subst hkq
      rw [if_pos rfl]
      simp only [List.map_cons, List.filter_cons]
      rw [if_neg (by simp)]
      exact ih
    · rw [if_neg hkq]
      simp only [List.map_cons, List.filter_cons]
      rw [if_pos (by simp [hkq])]
      rw [ih]

theorem unlinkGo_meta (cid : Nat) (upd : List Nat) :
    ∀ (js : List Nat) (g : Heap) (q : Nat),
      (hLookup (unlinkGo g cid upd js) q).map nodeMeta =
        (hLookup g q).map nodeMeta := by
  intro js
  induction js with
  | nil => intro g q; rfl
  | cons j rest ih =>
    intro g q
    show (hLookup (if hForward g (upd.getD j 0) j = some cid then
      unlinkGo (hModify g (upd.getD j 0)
        (fun n => n.setForward j (hForward g cid j))) cid upd rest
      else g) q).map nodeMeta = _
    by_cases hc : hForward g (upd.getD j 0) j = some cid
    · rw [if_pos hc, ih, meta_hModify_setForward]
    · rw [if_neg hc]

theorem unlinkGo_keys (cid : Nat) (upd : List Nat) :
    ∀ (js : List Nat) (g : Heap),
      (unlinkGo g cid upd js).map Prod.fst = g.map Prod.fst := by
  intro js
  induction js with
  | nil => intro g; rfl
  | cons j rest ih =>
    intro g
    show ((if hForward g (upd.getD j 0) j = some cid then
      unlinkGo (hModify g (upd.getD j 0)
        (fun n => n.setForward j (hForward g cid j))) cid upd rest
      else g)).map Prod.fst = _
    by_cases hc : hForward g (upd.getD j 0) j = some cid
    · rw [if_pos hc, ih, keys_hModify]
    · rw [if_neg hc]

/-- The level-shrinking loop: the result is at most the start, every level
strictly above it (within the start) has an empty header slot, and the result
is 0 or has a non-empty header slot. -/
theorem shrinkLevel_spec (h : Heap) : ∀ cl : Nat,
    shrinkLevel h cl ≤ cl ∧
    (∀ i, shrinkLevel h cl < i → i ≤ cl → hForward h 0 i = none) ∧
    (shrinkLevel h cl = 0 ∨ hForward h 0 (shrinkLevel h cl) ≠ none) := by
  intro cl
  induction cl with
  | zero => exact ⟨le_refl _, fun i h1 h2 => absurd (lt_of_lt_of_le h1 h2) (lt_irrefl _), Or.inl rfl⟩
  | succ n ih =>
    have hunfold : shrinkLevel h (n + 1) =
        if hForward h 0 (n + 1) = none then shrinkLevel h n else n + 1 := rfl
    rw [hunfold]
    by_cases hc : hForward h 0 (n + 1) = none
    · rw [if_pos hc]
      refine ⟨by omega, ?_, ih.2.2⟩
      intro i h1 h2
      by_cases hi : i ≤ n
      · exact ih.2.1 i h1 hi
      · have : i = n + 1 := by omega
        rw [this]; exact hc
    · rw [if_neg hc]
      exact ⟨le_refl _, fun i h1 h2 => by omega, Or.inr hc⟩

/-- Rewiring only the last node of a chain segment. -/
theorem chainSeg_rewrite_last (h h2 : Heap) (i a : Nat) (xs : List Nat)
    (o o2 : Option Nat) (hnd : (a :: xs).Nodup)
    (hs : chainSeg h i a xs o)
    (hagree : ∀ q ∈ a :: xs, q ≠ xs.getLastD a → hForward h2 q i = hForward h q i)
    (hlast : hForward h2 (xs.getLastD a) i = o2) :
    chainSeg h2 i a xs o2 := by
  induction xs generalizing a with
  | nil => exact hlast
  | cons b bt ih =>
    have hne : a ≠ (b :: bt).getLastD a := by
      rw [List.getLastD_cons]
      intro he
      have hmem := List.getLastD_mem_cons bt b
      rw [← he] at hmem
      exact (List.nodup_cons.mp hnd).1 hmem
    refine ⟨?_, ?_⟩
    · rw [hagree a (by simp) hne]
      exact hs.1
    · refine ih b (List.nodup_cons.mp hnd).2 hs.2 ?_ ?_
      · intro q hq hqne
        refine hagree q (List.mem_cons_of_mem _ hq) ?_
        rw [List.getLastD_cons]
        exact hqne
      · rw [List.getLastD_cons] at hlast
        exact hlast

theorem levelFilter_cons (h : Heap) (d : Nat) (L : List Nat) (i : Nat) :
    levelFilter h (d :: L) i =
      if i ≤ levelOfD h d then d :: levelFilter h L i
      else levelFilter h L i := by
  rw [levelFilter, List.filter_cons]
  by_cases hc : i ≤ levelOfD h d
  · rw [if_pos (by simpa using hc), if_pos hc]; rfl
  · rw [if_neg (by simpa using hc), if_neg hc]; rfl

/-- Effect of the unlinking loop of delete_element on the successor pointers,
processing levels a, a+1, ..., a+n-1 in order: when the recorded predecessor
points at the doomed node exactly on the levels up to m, the loop rewires the
slot (update[i], i) for the levels up to m and leaves every other slot
alone. -/
theorem unlinkGo_forward_spec (cid : Nat) (upd : List Nat) (m : Nat)
    (hne : ∀ j, upd.getD j 0 ≠ cid) :
    ∀ (n a : Nat) (g : Heap),
      (∀ j, a ≤ j → j < a + n →
        ((hForward g (upd.getD j 0) j = some cid) ↔ j ≤ m)) →
      (∀ j, a ≤ j → j < a + n → j ≤ m →
        ∃ nd, hLookup g (upd.getD j 0) = some nd ∧ j < nd.forward_.length) →
      ∀ q i, hForward (unlinkGo g cid upd (List.range' a n)) q i =
        if a ≤ i ∧ i < a + n ∧ i ≤ m ∧ q = upd.getD i 0 then hForward g cid i
        else hForward g q i := by
  intro n
  induction n with
  | zero =>
    intro a g hcond hwf q i
    rw [if_neg (by omega)]
    rfl
  | succ n ih =>
    intro a g hcond hwf q i
    by_cases hca : a ≤ m
    · have hcc : hForward g (upd.getD a 0) a = some cid :=
        (hcond a (le_refl a) (by omega)).mpr hca
      have hstep : unlinkGo g cid upd (List.range' a (n + 1)) =
          unlinkGo (hModify g (upd.getD a 0)
            (fun nd => nd.setForward a (hForward g cid a))) cid upd
            (List.range' (a + 1) n) := by
        show (if hForward g (upd.getD a 0) a = some cid then _ else g) = _
        rw [if_pos hcc]
      rw [hstep]
      obtain ⟨nda, hnda, hlna⟩ := hwf a (le_refl a) (by omega) hca
      have hfw1 : ∀ q2 i2, hForward (hModify g (upd.getD a 0)
          (fun nd => nd.setForward a (hForward g cid a))) q2 i2 =
          if q2 = upd.getD a 0 ∧ i2 = a then hForward g cid a
          else hForward g q2 i2 := by
        intro q2 i2
        rw [hForward_hModify_setForward]
        by_cases hq2 : q2 = upd.getD a 0 ∧ i2 = a
        · rw [if_pos ⟨hq2.1, hq2.2, nda, hnda, hlna⟩, if_pos hq2]
        · rw [if_neg (fun hx => hq2 ⟨hx.1, hx.2.1⟩), if_neg hq2]
      have hcond1 : ∀ j, a + 1 ≤ j → j < a + 1 + n →
          ((hForward (hModify g (upd.getD a 0)
            (fun nd => nd.setForward a (hForward g cid a))) (upd.getD j 0) j =
              some cid) ↔ j ≤ m) := by
        intro j h1 h2
        rw [hfw1, if_neg (fun hx => by omega)]
        exact hcond j (by omega) (by omega)
      have hwf1 : ∀ j, a + 1 ≤ j → j < a + 1 + n → j ≤ m →
          ∃ nd, hLookup (hModify g (upd.getD a 0)
            (fun nd => nd.setForward a (hForward g cid a))) (upd.getD j 0) =
              some nd ∧ j < nd.forward_.length := by
        intro j h1 h2 h3
        obtain ⟨nd, hnd, hln⟩ := hwf j (by omega) (by omega) h3
        rw [hLookup_hModify]
        by_cases hj : upd.getD j 0 = upd.getD a 0
        · rw [if_pos hj]
          rw [hj] at hnd
          rw [hnda] at hnd
          injection hnd with hnd2
          rw [hnda]
          exact ⟨_, rfl, by
            show j < (nda.setForward a _).forward_.length
            rw [Node.setForward]
            simp only [List.length_set]
            rw [← hnd2] at hln
            exact hln⟩
        · rw [if_neg hj]
          exact ⟨nd, hnd, hln⟩
      rw [ih (a + 1) _ hcond1 hwf1 q i]
      by_cases hmain : a ≤ i ∧ i < a + (n + 1) ∧ i ≤ m ∧ q = upd.getD i 0
      · rw [if_pos hmain]
        by_cases hia : i = a
        · rw [if_neg (by omega), hfw1,
            if_pos ⟨by rw [hmain.2.2.2, hia], hia⟩, hia]
        · rw [if_pos ⟨by omega, by omega, hmain.2.2.1, hmain.2.2.2⟩, hfw1,
            if_neg (fun hx => hne a (by rw [← hx.1]))]
      · rw [if_neg (fun hx => hmain ⟨by omega, by omega, hx.2.2.1, hx.2.2.2⟩)]
        rw [hfw1]
        have hnc : ¬(q = upd.getD a 0 ∧ i = a) := by
          intro hx
          obtain ⟨hx1, hx2⟩ := hx
          subst hx2
          exact hmain ⟨le_refl i, by omega, hca, hx1⟩
        rw [if_neg hnc, if_neg hmain]
    · have hcc : hForward g (upd.getD a 0) a ≠ some cid :=
        fun hx => hca ((hcond a (le_refl a) (by omega)).mp hx)
      have hstep : unlinkGo g cid upd (List.range' a (n + 1)) = g := by
        show (if hForward g (upd.getD a 0) a = some cid then _ else g) = g
        rw [if_neg hcc]
      rw [hstep, if_neg (by omega)]

theorem getD_map_range_ge (f : Nat → Nat) (n j : Nat) (hj : n ≤ j) :
    ((List.range n).map f).getD j 0 = 0 := by
  rw [List.getD_eq_getElem?_getD, List.getElem?_eq_none (by simpa using hj)]
  rfl

/-- Equal node metadata gives equal key, value, level and liveness. -/
theorem meta_eq_fields {h h2 : Heap} {q : Nat}
    (hm : (hLookup h2 q).map nodeMeta = (hLookup h q).map nodeMeta) :
    keyD h2 q = keyD h q ∧ valD h2 q = valD h q ∧
    levelOfD h2 q = levelOfD h q ∧
    (hLookup h2 q).isSome = (hLookup h q).isSome := by
  cases h1 : hLookup h2 q with
  | none =>
    rw [h1] at hm
    cases h2q : hLookup h q with
    | none =>
      refine ⟨?_, ?_, ?_, ?_⟩
      · unfold keyD; rw [h1, h2q]
      · unfold valD; rw [h1, h2q]
      · unfold levelOfD; rw [h1, h2q]
      · rfl
    | some n => rw [h2q] at hm; simp at hm
  | some n =>
    rw [h1] at hm
    cases h2q : hLookup h q with
    | none => rw [h2q] at hm; simp at hm
    | some n2 =>
      rw [h2q] at hm
      injection hm with hm2
      have hm3 : (n.key_, n.value_, n.node_level_, n.forward_.length) =
        (n2.key_, n2.value_, n2.node_level_, n2.forward_.length) := hm2
      injection hm3 with e1 hr
      injection hr with e2 hr2
      injection hr2 with e3 e4
      refine ⟨?_, ?_, ?_, rfl⟩
      · unfold keyD; rw [h1, h2q]; exact e1
      · unfold valD; rw [h1, h2q]; exact e2
      · unfold levelOfD; rw [h1, h2q]; exact e3

/-- Members of a strictly sorted list after a key-matching head all exceed
the key. -/
theorem dt_keys_above {s : SkipState} {L : List Nat} (inv : SkipInv s L)
    {key : Int} {d : Nat} {dt : List Nat}
    (hdw : dwL s.heap L key = d :: dt) (hkey : keyD s.heap d = key) :
    ∀ q ∈ dt, key < keyD s.heap q := by
  intro q hq
  have hpair2 : (d :: dt).Pairwise
      (fun a b => keyD s.heap a < keyD s.heap b) := by
    refine inv.sortedPairwise.sublist ?_
    rw [← tw_dw_append s.heap L key, hdw]
    exact List.sublist_append_right _ _
  have := (List.pairwise_cons.mp hpair2).1 q hq
  omega

/-- The decomposition of L around the node holding the target key. -/
theorem L_split {s : SkipState} {L : List Nat} (inv : SkipInv s L)
    {key : Int} {d : Nat} {dt : List Nat}
    (hdw : dwL s.heap L key = d :: dt) :
    L = twL s.heap L key ++ d :: dt := by
  have h1 := tw_dw_append s.heap L key
  rw [hdw] at h1
  exact h1.symm

/-! ## delete_element -/

/-- Deleting an absent key returns false and the state unchanged, literally:
the walk mutates nothing and the early return fires before any write. -/
theorem delete_element_absent {s : SkipState} {L : List Nat}
    (inv : SkipInv s L) (key : Int)
    (habs : ∀ q ∈ L, keyD s.heap q ≠ key) :
    SkipList.delete_element s key = (false, s) := by
  have hwd := walkDown_spec inv key s.current_level_ inv.clLe 0 (by simp)
  have h1 : (walkDown s key s.current_level_ 0).1 = predAbs s.heap L key 0 := by
    rw [hwd]
  have hfw : hForward s.heap (predAbs s.heap L key 0) 0 =
      (dwL s.heap L key).head? := by
    have := pred_forward inv key 0 (by simp [MAX_LEVEL])
    rwa [levelFilter_zero] at this
  show (match hForward s.heap (walkDown s key s.current_level_ 0).1 0 with
    | none => (false, s)
    | some cid =>
      match hLookup s.heap cid with
      | none => (false, s)
      | some n =>
        if n.key_ = key then
          (true, ⟨hErase (unlinkGo s.heap cid (walkDown s key s.current_level_ 0).2
              (List.range (s.current_level_ + 1))) cid,
            shrinkLevel (unlinkGo s.heap cid (walkDown s key s.current_level_ 0).2
              (List.range (s.current_level_ + 1))) s.current_level_,
            s.element_count_ - 1, s.next_id⟩)
        else (false, s)) = (false, s)
  rw [h1, hfw]
  cases hdw : dwL s.heap L key with
  | nil => rfl
  | cons d dt =>
    have hdmem : d ∈ L := mem_dwL_mem (by rw [hdw]; simp)
    have hds := inv.memDom (List.mem_cons_of_mem _ hdmem)
    simp only [List.head?_cons]
    cases hn : hLookup s.heap d with
    | none => rw [hn] at hds
    | some n =>
      have hkeyd : keyD s.heap d = n.key_ := by unfold keyD; rw [hn]
      have hne : n.key_ ≠ key := by
        have := habs d hdmem
        omega
      show (if n.key_ = key then _ else (false, s)) = (false, s)
      rw [if_neg hne]

/-- Instantiation of the unlink-loop effect for a present key: after the
loop, the slot (predecessor of level i, i) points past the doomed node for
every level up to its node level, and every other slot is untouched. -/
theorem delete_unlink_facts {s : SkipState} {L : List Nat}
    (inv : SkipInv s L) {key : Int} {d : Nat} {dt : List Nat}
    (hdw : dwL s.heap L key = d :: dt) (hkey : keyD s.heap d = key)
    {nd : Node} (hnd : hLookup s.heap d = some nd) :
    ∀ q i, hForward (unlinkGo s.heap d
        ((List.range (s.current_level_ + 1)).map (predAbs s.heap L key))
        (List.range (s.current_level_ + 1))) q i =
      if i ≤ nd.node_level_ ∧ q = predAbs s.heap L key i then
        hForward s.heap d i
      else hForward s.heap q i := by
  have hdmem : d ∈ L := mem_dwL_mem (by rw [hdw]; simp)
  have hd0 : d ≠ 0 := fun he => inv.headerZero (he ▸ hdmem)
  have hLsplit : L = twL s.heap L key ++ d :: dt := L_split inv hdw
  have hnodup : (twL s.heap L key ++ d :: dt).Nodup := hLsplit ▸ inv.nodupL
  obtain ⟨hndtw, hnddt, hdisj⟩ := List.nodup_append.mp hnodup
  have hd_tw : d ∉ twL s.heap L key := fun hin => hdisj hin (by simp)
  have hd_dt : d ∉ dt := (List.nodup_cons.mp hnddt).1
  have hlevd : levelOfD s.heap d = nd.node_level_ := by
    unfold levelOfD; rw [hnd]
  have hm_le : nd.node_level_ ≤ s.current_level_ :=
    (inv.nodesWF d hdmem nd hnd).1
  have hupd : ∀ j, j ≤ s.current_level_ →
      ((List.range (s.current_level_ + 1)).map (predAbs s.heap L key)).getD j 0
        = predAbs s.heap L key j :=
    fun j hj => getD_map_range _ _ _ (by omega)
  have hpred_ne_d : ∀ j, predAbs s.heap L key j ≠ d := by
    intro j he
    rcases List.mem_cons.mp (predAbs_mem s.heap L key j) with h0 | hmem
    · exact hd0 (he.symm.trans h0)
    · exact hd_tw (he ▸ levelFilter_subset _ _ _ _ hmem)
  have hne : ∀ j, ((List.range (s.current_level_ + 1)).map
      (predAbs s.heap L key)).getD j 0 ≠ d := by
    intro j
    by_cases hj : j ≤ s.current_level_
    · rw [hupd j hj]; exact hpred_ne_d j
    · rw [getD_map_range_ge _ _ _ (by omega)]
      exact fun he => hd0 he.symm
  have hcond : ∀ j, 0 ≤ j → j < 0 + (s.current_level_ + 1) →
      ((hForward s.heap (((List.range (s.current_level_ + 1)).map
        (predAbs s.heap L key)).getD j 0) j = some d) ↔
        j ≤ nd.node_level_) := by
    intro j _ hj2
    have hj32 : j ≤ MAX_LEVEL := by have := inv.clLe; omega
    rw [hupd j (by omega), pred_forward inv key j hj32, hdw,
      levelFilter_cons, hlevd]
    by_cases hjm : j ≤ nd.node_level_
    · rw [if_pos hjm]
      simp [hjm]
    · rw [if_neg hjm]
      constructor
      · intro hhead
        exfalso
        cases he : levelFilter s.heap dt j with
        | nil => rw [he] at hhead; simp at hhead
        | cons e et =>
          rw [he] at hhead
          simp only [List.head?_cons, Option.some.injEq] at hhead
          have : e ∈ levelFilter s.heap dt j := by rw [he]; simp
          exact hd_dt (hhead ▸ levelFilter_subset _ _ _ _ this)
      · intro hle; exact absurd hle hjm
  have hwfj : ∀ j, 0 ≤ j → j < 0 + (s.current_level_ + 1) →
      j ≤ nd.node_level_ →
      ∃ nd2, hLookup s.heap (((List.range (s.current_level_ + 1)).map
        (predAbs s.heap L key)).getD j 0) = some nd2 ∧
        j < nd2.forward_.length := by
    intro j _ hj2 hjm
    rw [hupd j (by omega)]
    rcases List.mem_cons.mp (predAbs_mem s.heap L key j) with h0 | hmem
    · obtain ⟨fw, hfw, hfwlen⟩ := inv.headerNode
      rw [h0, hfw]
      refine ⟨_, rfl, ?_⟩
      show j < fw.length
      rw [hfwlen]
      have := inv.clLe
      simp only [MAX_LEVEL] at *
      omega
    · have hq_tw : predAbs s.heap L key j ∈ twL s.heap L key :=
        levelFilter_subset _ _ _ _ hmem
      have hq_L : predAbs s.heap L key j ∈ L := mem_twL_mem hq_tw
      have hq_dom := inv.memDom (List.mem_cons_of_mem _ hq_L)
      cases hq : hLookup s.heap (predAbs s.heap L key j) with
      | none => rw [hq] at hq_dom; simp at hq_dom
      | some nd2 =>
        refine ⟨nd2, rfl, ?_⟩
        have hlev := levelFilter_level hmem
        have hlev2 : levelOfD s.heap (predAbs s.heap L key j) =
            nd2.node_level_ := by unfold levelOfD; rw [hq]
        have := (inv.nodesWF _ hq_L nd2 hq).2
        omega
  have hmain := unlinkGo_forward_spec d
    ((List.range (s.current_level_ + 1)).map (predAbs s.heap L key))
    nd.node_level_ hne (s.current_level_ + 1) 0 s.heap hcond hwfj
  rw [← List.range_eq_range' (s.current_level_ + 1)] at hmain
  intro q i
  rw [hmain q i]
  by_cases hc : i ≤ nd.node_level_ ∧ q = predAbs s.heap L key i
  · rw [if_pos hc, if_pos ⟨by omega, by omega, hc.1, by
      rw [hupd i (by omega)]; exact hc.2⟩]
  · rw [if_neg hc, if_neg ?_]
    intro hx
    exact hc ⟨hx.2.2.1, by
      have := hx.2.2.2
      rwa [hupd i (by omega)] at this⟩

/-- After unlinking and freeing the node of the target key, every level
chains out exactly the surviving level population. -/
theorem delete_links {s : SkipState} {L : List Nat}
    (inv : SkipInv s L) {key : Int} {d : Nat} {dt : List Nat}
    (hdw : dwL s.heap L key = d :: dt) (hkey : keyD s.heap d = key)
    {nd : Node} (hnd : hLookup s.heap d = some nd)
    (g1 : Heap)
    (hmeta1 : ∀ q, (hLookup g1 q).map nodeMeta = (hLookup s.heap q).map nodeMeta)
    (hU : ∀ q i, hForward g1 q i =
      if i ≤ nd.node_level_ ∧ q = predAbs s.heap L key i then hForward s.heap d i
      else hForward s.heap q i) :
    ∀ i, i ≤ MAX_LEVEL →
      chainSeg (hErase g1 d) i 0
        (levelFilter (hErase g1 d) (twL s.heap L key ++ dt) i) none := by
  have hdmem : d ∈ L := mem_dwL_mem (by rw [hdw]; simp)
  have hd0 : d ≠ 0 := fun he => inv.headerZero (he ▸ hdmem)
  have hLsplit : L = twL s.heap L key ++ d :: dt := L_split inv hdw
  have hnodup : (twL s.heap L key ++ d :: dt).Nodup := hLsplit ▸ inv.nodupL
  obtain ⟨hndtw, hnddt, hdisj⟩ := List.nodup_append.mp hnodup
  have hd_tw : d ∉ twL s.heap L key := fun hin => hdisj hin (by simp)
  have hd_dt : d ∉ dt := (List.nodup_cons.mp hnddt).1
  have h0tw : 0 ∉ twL s.heap L key := fun hin => inv.headerZero (mem_twL_mem hin)
  have h0dt : 0 ∉ dt := fun hin =>
    inv.headerZero (hLsplit ▸ List.mem_append_right _ (List.mem_cons_of_mem _ hin))
  have htw_dt : ∀ q ∈ dt, q ∉ twL s.heap L key := fun q hq hin =>
    hdisj hin (List.mem_cons_of_mem _ hq)
  have hlevd : levelOfD s.heap d = nd.node_level_ := by
    unfold levelOfD; rw [hnd]
  have herase : ∀ q, q ≠ d → hLookup (hErase g1 d) q = hLookup g1 q := by
    intro q hq
    rw [hLookup_hErase, if_neg hq]
  have hfw2 : ∀ q i2, q ≠ d → hForward (hErase g1 d) q i2 = hForward g1 q i2 := by
    intro q i2 hq
    rw [hForward_hErase, if_neg hq]
  have hlev2 : ∀ q, q ≠ d → levelOfD (hErase g1 d) q = levelOfD s.heap q := by
    intro q hq
    have h1 : levelOfD (hErase g1 d) q = levelOfD g1 q := by
      unfold levelOfD; rw [herase q hq]
    rw [h1]
    exact (meta_eq_fields (hmeta1 q)).2.2.1
  intro i hi
  have hF2 : levelFilter (hErase g1 d) (twL s.heap L key ++ dt) i =
      levelFilter s.heap (twL s.heap L key) i ++
      levelFilter s.heap dt i := by
    rw [levelFilter, List.filter_congr (fun q hq => by
      have hqd : q ≠ d := by
        rcases List.mem_append.mp hq with h1 | h2
        · exact fun he => hd_tw (he ▸ h1)
        · exact fun he => hd_dt (he ▸ h2)
      rw [hlev2 q hqd])]
    rw [List.filter_append]
    rfl
  rw [hF2]
  have holdlinks := inv.links i hi
  have hFi : levelFilter s.heap L i =
      levelFilter s.heap (twL s.heap L key) i ++
      levelFilter s.heap (dwL s.heap L key) i := by
    rw [levelFilter, levelFilter, levelFilter, ← List.filter_append,
      tw_dw_append]
  rw [hFi, hdw, levelFilter_cons, hlevd] at holdlinks
  by_cases him : i ≤ nd.node_level_
  · rw [if_pos him] at holdlinks
    obtain ⟨hA, hB⟩ := (chainSeg_append s.heap i 0 _ d _ none).mp holdlinks
    have hdi : hForward s.heap d i = (levelFilter s.heap dt i).head? := by
      cases het : levelFilter s.heap dt i with
      | nil => rw [het] at hB; exact hB
      | cons e et => rw [het] at hB; exact hB.1
    have hnodup_tw : (0 :: levelFilter s.heap (twL s.heap L key) i).Nodup := by
      refine List.nodup_cons.mpr ⟨?_, hndtw.filter _⟩
      exact fun hin => h0tw (levelFilter_subset _ _ _ _ hin)
    have hagree : ∀ q ∈ 0 :: levelFilter s.heap (twL s.heap L key) i,
        q ≠ (levelFilter s.heap (twL s.heap L key) i).getLastD 0 →
        hForward (hErase g1 d) q i = hForward s.heap q i := by
      intro q hq hqlast
      have hqd : q ≠ d := by
        rcases List.mem_cons.mp hq with rfl | hmem
        · exact fun he => hd0 he.symm
        · exact fun he => hd_tw (he ▸ levelFilter_subset _ _ _ _ hmem)
      rw [hfw2 q i hqd, hU q i, if_neg (fun hx => hqlast hx.2)]
    have hlast : hForward (hErase g1 d)
        ((levelFilter s.heap (twL s.heap L key) i).getLastD 0) i =
        (levelFilter s.heap dt i).head? := by
      have hpd : predAbs s.heap L key i ≠ d := by
        intro he
        rcases List.mem_cons.mp (predAbs_mem s.heap L key i) with h0 | hmem
        · exact hd0 (he.symm.trans h0)
        · exact hd_tw (he ▸ levelFilter_subset _ _ _ _ hmem)
      show hForward (hErase g1 d) (predAbs s.heap L key i) i = _
      rw [hfw2 _ i hpd, hU _ i, if_pos ⟨him, rfl⟩, hdi]
    have step1 := chainSeg_rewrite_last s.heap (hErase g1 d) i 0
      (levelFilter s.heap (twL s.heap L key) i) (some d)
      ((levelFilter s.heap dt i).head?) hnodup_tw hA hagree hlast
    cases het : levelFilter s.heap dt i with
    | nil =>
      rw [het] at step1
      rw [List.append_nil]
      exact step1
    | cons e et =>
      rw [het] at step1
      refine (chainSeg_append (hErase g1 d) i 0 _ e _ none).mpr ⟨step1, ?_⟩
      rw [het] at hB
      refine chainSeg_congr s.heap (hErase g1 d) i e et none ?_ hB.2
      intro q hq
      have hqdt : q ∈ dt := by
        have : q ∈ levelFilter s.heap dt i := by
          rw [het]; exact hq
        exact levelFilter_subset _ _ _ _ this
      have hqd : q ≠ d := fun he => hd_dt (he ▸ hqdt)
      rw [hfw2 q i hqd, hU q i, if_neg ?_]
      intro hx
      rcases List.mem_cons.mp (predAbs_mem s.heap L key i) with h0 | hmem
      · exact h0dt ((hx.2.trans h0) ▸ hqdt)
      · exact htw_dt q hqdt
          (hx.2 ▸ levelFilter_subset _ _ _ _ hmem)
  · rw [if_neg him] at holdlinks
    refine chainSeg_congr s.heap (hErase g1 d) i 0 _ none ?_ holdlinks
    intro q hq
    have hqd : q ≠ d := by
      rcases List.mem_cons.mp hq with rfl | hmem
      · exact fun he => hd0 he.symm
      · rcases List.mem_append.mp hmem with h1 | h2
        · exact fun he => hd_tw (he ▸ levelFilter_subset _ _ _ _ h1)
        · exact fun he => hd_dt (he ▸ levelFilter_subset _ _ _ _ h2)
    rw [hfw2 q i hqd, hU q i, if_neg (fun hx => him hx.1)]

/-- Deleting a present key: returns true, removes exactly that node, keeps
the invariant, and performs the map-model deletion. -/
theorem delete_element_present {s : SkipState} {L : List Nat}
    (inv : SkipInv s L) {key : Int} {d : Nat} {dt : List Nat}
    (hdw : dwL s.heap L key = d :: dt) (hkey : keyD s.heap d = key) :
    (SkipList.delete_element s key).1 = true ∧
    SkipInv (SkipList.delete_element s key).2 (twL s.heap L key ++ dt) ∧
    absList (SkipList.delete_element s key).2.heap (twL s.heap L key ++ dt) =
      specDelete (absList s.heap L) key := by
  -- shared structural facts
  have hdmem : d ∈ L := mem_dwL_mem (by rw [hdw]; simp)
  have hd0 : d ≠ 0 := fun he => inv.headerZero (he ▸ hdmem)
  have hLsplit : L = twL s.heap L key ++ d :: dt := L_split inv hdw
  have hnodup : (twL s.heap L key ++ d :: dt).Nodup := hLsplit ▸ inv.nodupL
  obtain ⟨hndtw, hnddt, hdisj⟩ := List.nodup_append.mp hnodup
  have hd_tw : d ∉ twL s.heap L key := fun hin => hdisj hin (by simp)
  have hd_dt : d ∉ dt := (List.nodup_cons.mp hnddt).1
  have h0tw : 0 ∉ twL s.heap L key := fun hin => inv.headerZero (mem_twL_mem hin)
  have h0dt : 0 ∉ dt := fun hin =>
    inv.headerZero (hLsplit ▸ List.mem_append_right _ (List.mem_cons_of_mem _ hin))
  have hddom := inv.memDom (List.mem_cons_of_mem _ hdmem)
  obtain ⟨nd, hnd⟩ : ∃ nd, hLookup s.heap d = some nd := by
    cases hq : hLookup s.heap d with
    | none => rw [hq] at hddom; simp at hddom
    | some nd => exact ⟨nd, rfl⟩
  have hndkey : nd.key_ = key := by
    have : keyD s.heap d = nd.key_ := by unfold keyD; rw [hnd]
    omega
  have hm_le : nd.node_level_ ≤ s.current_level_ :=
    (inv.nodesWF d hdmem nd hnd).1
  -- reduce the call
  have hwd := walkDown_spec inv key s.current_level_ inv.clLe 0 (by simp)
  have h1 : (walkDown s key s.current_level_ 0).1 = predAbs s.heap L key 0 := by
    rw [hwd]
  have h2 : (walkDown s key s.current_level_ 0).2 =
      (List.range (s.current_level_ + 1)).map (predAbs s.heap L key) := by
    rw [hwd]
  have hfw0 : hForward s.heap (predAbs s.heap L key 0) 0 = some d := by
    have := pred_forward inv key 0 (by simp [MAX_LEVEL])
    rw [levelFilter_zero] at this
    rw [this, hdw]
    rfl
  have hbody : SkipList.delete_element s key = (true,
      ⟨hErase (unlinkGo s.heap d
          ((List.range (s.current_level_ + 1)).map (predAbs s.heap L key))
          (List.range (s.current_level_ + 1))) d,
        shrinkLevel (unlinkGo s.heap d
          ((List.range (s.current_level_ + 1)).map (predAbs s.heap L key))
          (List.range (s.current_level_ + 1))) s.current_level_,
        s.element_count_ - 1, s.next_id⟩) := by
    show (match hForward s.heap (walkDown s key s.current_level_ 0).1 0 with
      | none => (false, s)
      | some cid =>
        match hLookup s.heap cid with
        | none => (false, s)
        | some n =>
          if n.key_ = key then
            (true, ⟨hErase (unlinkGo s.heap cid
                (walkDown s key s.current_level_ 0).2
                (List.range (s.current_level_ + 1))) cid,
              shrinkLevel (unlinkGo s.heap cid
                (walkDown s key s.current_level_ 0).2
                (List.range (s.current_level_ + 1))) s.current_level_,
              s.element_count_ - 1, s.next_id⟩)
          else (false, s)) = _
    rw [h1, h2, hfw0]
    show (match hLookup s.heap d with
      | none => (false, s)
      | some n =>
        if n.key_ = key then
          (true, ⟨hErase (unlinkGo s.heap d
              ((List.range (s.current_level_ + 1)).map (predAbs s.heap L key))
              (List.range (s.current_level_ + 1))) d,
            shrinkLevel (unlinkGo s.heap d
              ((List.range (s.current_level_ + 1)).map (predAbs s.heap L key))
              (List.range (s.current_level_ + 1))) s.current_level_,
            s.element_count_ - 1, s.next_id⟩)
        else (false, s)) = _
    rw [hnd]
    show (if nd.key_ = key then _ else (false, s)) = _
    rw [if_pos hndkey]
  rw [hbody]
  -- facts about the unlinked heap
  have hU := delete_unlink_facts inv hdw hkey hnd
  have hmeta1 : ∀ q, (hLookup (unlinkGo s.heap d
      ((List.range (s.current_level_ + 1)).map (predAbs s.heap L key))
      (List.range (s.current_level_ + 1))) q).map nodeMeta =
      (hLookup s.heap q).map nodeMeta :=
    fun q => unlinkGo_meta d _ _ s.heap q
  have hkeys1 : (unlinkGo s.heap d
      ((List.range (s.current_level_ + 1)).map (predAbs s.heap L key))
      (List.range (s.current_level_ + 1))).map Prod.fst =
      s.heap.map Prod.fst := unlinkGo_keys d _ _ s.heap
  have hlinks2 := delete_links inv hdw hkey hnd _ hmeta1 hU
  have hmemd : ∀ q ∈ (0 : Nat) :: (twL s.heap L key ++ dt), q ≠ d := by
    intro q hq
    rcases List.mem_cons.mp hq with rfl | hmem
    · exact fun he => hd0 he.symm
    · rcases List.mem_append.mp hmem with h1 | h2
      · exact fun he => hd_tw (he ▸ h1)
      · exact fun he => hd_dt (he ▸ h2)
  have hmemL : ∀ q ∈ (0 : Nat) :: (twL s.heap L key ++ dt), q ∈ (0 : Nat) :: L := by
    intro q hq
    rcases List.mem_cons.mp hq with rfl | hmem
    · simp
    · rcases List.mem_append.mp hmem with h1 | h2
      · exact List.mem_cons_of_mem _ (mem_twL_mem h1)
      · exact List.mem_cons_of_mem _
          (hLsplit ▸ List.mem_append_right _ (List.mem_cons_of_mem _ h2))
  have herase2 : ∀ q, q ≠ d → hLookup (hErase (unlinkGo s.heap d
      ((List.range (s.current_level_ + 1)).map (predAbs s.heap L key))
      (List.range (s.current_level_ + 1))) d) q =
      hLookup (unlinkGo s.heap d
      ((List.range (s.current_level_ + 1)).map (predAbs s.heap L key))
      (List.range (s.current_level_ + 1))) q := by
    intro q hq
    rw [hLookup_hErase, if_neg hq]
  have hmeta2 : ∀ q, q ≠ d → (hLookup (hErase (unlinkGo s.heap d
      ((List.range (s.current_level_ + 1)).map (predAbs s.heap L key))
      (List.range (s.current_level_ + 1))) d) q).map nodeMeta =
      (hLookup s.heap q).map nodeMeta := by
    intro q hq
    rw [herase2 q hq]
    exact hmeta1 q
  have hshrink := shrinkLevel_spec (unlinkGo s.heap d
      ((List.range (s.current_level_ + 1)).map (predAbs s.heap L key))
      (List.range (s.current_level_ + 1))) s.current_level_
  have hlen_eq : L.length = (twL s.heap L key ++ dt).length + 1 := by
    have := congrArg List.length hLsplit
    simp only [List.length_append, List.length_cons] at this ⊢
    omega
  refine ⟨rfl, ⟨?_, ?_, ?_, ?_, ?_, ?_, ?_, hlinks2, ?_, ?_, ?_⟩, ?_⟩
  -- keysNodup
  · show (hErase (unlinkGo s.heap d
      ((List.range (s.current_level_ + 1)).map (predAbs s.heap L key))
      (List.range (s.current_level_ + 1))) d).map Prod.fst |>.Nodup
    rw [keys_hErase, hkeys1]
    exact inv.keysNodup.filter _
  -- dom
  · intro q
    show (hLookup (hErase (unlinkGo s.heap d
      ((List.range (s.current_level_ + 1)).map (predAbs s.heap L key))
      (List.range (s.current_level_ + 1))) d) q).isSome = true ↔ _
    rw [hLookup_hErase]
    by_cases hq : q = d
    · rw [if_pos hq]
      refine iff_of_false (by simp) ?_
      intro hmem
      exact hmemd q (hq ▸ hmem) hq
    · rw [if_neg hq]
      have hiso := (meta_eq_fields (hmeta1 q)).2.2.2
      rw [hiso, inv.dom q]
      constructor
      · intro hmem
        rcases List.mem_cons.mp hmem with rfl | hL
        · exact List.mem_cons_self _ _
        · rw [hLsplit] at hL
          rcases List.mem_append.mp hL with h1 | h2
          · exact List.mem_cons_of_mem _ (List.mem_append_left _ h1)
          · rcases List.mem_cons.mp h2 with rfl | h3
            · exact absurd rfl hq
            · exact List.mem_cons_of_mem _ (List.mem_append_right _ h3)
      · intro hmem
        rcases List.mem_cons.mp hmem with rfl | hL2
        · exact List.mem_cons_self _ _
        · refine List.mem_cons_of_mem _ ?_
          rw [hLsplit]
          rcases List.mem_append.mp hL2 with h1 | h2
          · exact List.mem_append_left _ h1
          · exact List.mem_append_right _ (List.mem_cons_of_mem _ h2)
  -- headerZero
  · intro hmem
    rcases List.mem_append.mp hmem with h1 | h2
    · exact h0tw h1
    · exact h0dt h2
  -- headerNode
  · obtain ⟨fw, hfw0h, hfwlen⟩ := inv.headerNode
    have h0d : (0 : Nat) ≠ d := fun he => hd0 he.symm
    have hm0 := hmeta1 0
    rw [hfw0h] at hm0
    cases hg : hLookup (unlinkGo s.heap d
        ((List.range (s.current_level_ + 1)).map (predAbs s.heap L key))
        (List.range (s.current_level_ + 1))) 0 with
    | none => rw [hg] at hm0; simp at hm0
    | some n0 =>
      rw [hg] at hm0
      injection hm0 with hm0'
      have hm0b : (n0.key_, n0.value_, n0.node_level_, n0.forward_.length) =
        ((0 : Int), "", MAX_LEVEL, fw.length) := hm0'
      injection hm0b with e1 hr
      injection hr with e2 hr2
      injection hr2 with e3 e4
      refine ⟨n0.forward_, ?_, by rw [e4, hfwlen]⟩
      show hLookup (hErase _ d) 0 = _
      rw [hLookup_hErase, if_neg h0d, hg]
      congr 1
      cases n0
      simp only at e1 e2 e3
      rw [e1, e2, e3]
  -- fresh
  · intro q hq
    exact inv.fresh q (hmemL q hq)
  -- nodesWF
  · intro q hq n hn
    have hqd : q ≠ d := hmemd q (List.mem_cons_of_mem _ hq)
    have hq0L : q ∈ (0 : Nat) :: L := hmemL q (List.mem_cons_of_mem _ hq)
    have hqL : q ∈ L := by
      rcases List.mem_cons.mp hq0L with rfl | h
      · exact absurd (List.mem_cons_of_mem _ hq)
          (fun hmem => hmemd 0 hmem (by
            exfalso
            rcases List.mem_append.mp hq with h1 | h2
            · exact h0tw h1
            · exact h0dt h2))
      · exact h
    obtain ⟨n0, hn0⟩ : ∃ n0, hLookup s.heap q = some n0 := by
      have := inv.memDom hq0L
      cases hx : hLookup s.heap q with
      | none => rw [hx] at this; simp at this
      | some n0 => exact ⟨n0, rfl⟩
    have hmq := hmeta2 q hqd
    rw [hn, hn0] at hmq
    injection hmq with hmq'
    have hmqb : (n.key_, n.value_, n.node_level_, n.forward_.length) =
      (n0.key_, n0.value_, n0.node_level_, n0.forward_.length) := hmq'
    injection hmqb with f1 fr
    injection fr with f2 fr2
    injection fr2 with f3 f4
    have hwf0 := inv.nodesWF q hqL n0 hn0
    refine ⟨?_, by rw [f4, f3]; exact hwf0.2⟩
    -- level bounded by the shrunk current level
    show n.node_level_ ≤ shrinkLevel _ s.current_level_
    by_contra hgt
    push_neg at hgt
    have hm32 : n.node_level_ ≤ MAX_LEVEL := by
      have := inv.clLe
      have := hwf0.1
      omega
    have hchain := hlinks2 n.node_level_ hm32
    have hqF : q ∈ levelFilter (hErase (unlinkGo s.heap d
        ((List.range (s.current_level_ + 1)).map (predAbs s.heap L key))
        (List.range (s.current_level_ + 1))) d)
        (twL s.heap L key ++ dt) n.node_level_ := by
      rw [levelFilter, List.mem_filter]
      refine ⟨hq, ?_⟩
      have : levelOfD (hErase (unlinkGo s.heap d
          ((List.range (s.current_level_ + 1)).map (predAbs s.heap L key))
          (List.range (s.current_level_ + 1))) d) q = n.node_level_ := by
        unfold levelOfD; rw [hn]
      rw [this]
      simp
    cases hF : levelFilter (hErase (unlinkGo s.heap d
        ((List.range (s.current_level_ + 1)).map (predAbs s.heap L key))
        (List.range (s.current_level_ + 1))) d)
        (twL s.heap L key ++ dt) n.node_level_ with
    | nil => rw [hF] at hqF; simp at hqF
    | cons x xt =>
      rw [hF] at hchain
      have hhd : hForward (hErase (unlinkGo s.heap d
          ((List.range (s.current_level_ + 1)).map (predAbs s.heap L key))
          (List.range (s.current_level_ + 1))) d) 0 n.node_level_ =
          some x := hchain.1
      have h0d : (0 : Nat) ≠ d := fun he => hd0 he.symm
      rw [hForward_hErase, if_neg h0d] at hhd
      have hnone := hshrink.2.1 n.node_level_ hgt (by
        have := hwf0.1
        omega)
      rw [hnone] at hhd
      exact Option.noConfusion hhd
  -- sorted
  · haveI : IsTrans Nat (fun a b =>
      keyD (hErase (unlinkGo s.heap d
        ((List.range (s.current_level_ + 1)).map (predAbs s.heap L key))
        (List.range (s.current_level_ + 1))) d) a <
      keyD (hErase (unlinkGo s.heap d
        ((List.range (s.current_level_ + 1)).map (predAbs s.heap L key))
        (List.range (s.current_level_ + 1))) d) b) := ⟨fun _ _ _ => lt_trans⟩
    rw [List.chain'_iff_pairwise]
    have hsub : (twL s.heap L key ++ dt).Sublist L := by
      have hx : (twL s.heap L key ++ dt).Sublist (twL s.heap L key ++ d :: dt) :=
        List.Sublist.append_left (List.sublist_cons_self d dt) _
      rw [← hLsplit] at hx
      exact hx
    have hpair := inv.sortedPairwise.sublist hsub
    refine hpair.imp_of_mem ?_
    intro a b ha hb hab
    have hka := (meta_eq_fields (hmeta2 a
      (hmemd a (List.mem_cons_of_mem _ ha)))).1
    have hkb := (meta_eq_fields (hmeta2 b
      (hmemd b (List.mem_cons_of_mem _ hb)))).1
    rw [hka, hkb]
    exact hab
  -- count
  · show s.element_count_ - 1 = _
    rw [inv.count, hlen_eq]
    omega
  -- clLe
  · show shrinkLevel _ s.current_level_ ≤ MAX_LEVEL
    have := hshrink.1
    have := inv.clLe
    omega
  -- clTight
  · rcases hshrink.2.2 with hz | hnz
    · exact Or.inl hz
    · refine Or.inr ?_
      intro hF
      have hcl2 : shrinkLevel (unlinkGo s.heap d
          ((List.range (s.current_level_ + 1)).map (predAbs s.heap L key))
          (List.range (s.current_level_ + 1))) s.current_level_ ≤ MAX_LEVEL := by
        have := hshrink.1
        have := inv.clLe
        omega
      have hchain := hlinks2 _ hcl2
      rw [hF] at hchain
      have h0d : (0 : Nat) ≠ d := fun he => hd0 he.symm
      rw [chainSeg_nil, hForward_hErase, if_neg h0d] at hchain
      exact hnz hchain
  -- abstraction
  · show absList (hErase (unlinkGo s.heap d
      ((List.range (s.current_level_ + 1)).map (predAbs s.heap L key))
      (List.range (s.current_level_ + 1))) d) (twL s.heap L key ++ dt) = _
    have habs1 : absList (hErase (unlinkGo s.heap d
        ((List.range (s.current_level_ + 1)).map (predAbs s.heap L key))
        (List.range (s.current_level_ + 1))) d) (twL s.heap L key ++ dt) =
        absList s.heap (twL s.heap L key ++ dt) := by
      rw [absList, absList]
      refine List.map_congr_left ?_
      intro q hq
      have hqd : q ≠ d := hmemd q (List.mem_cons_of_mem _ hq)
      have hf := meta_eq_fields (hmeta2 q hqd)
      rw [hf.1, hf.2.1]
    rw [habs1]
    rw [specDelete]
    simp only [absList]
    rw [List.filter_map]
    have htw : (twL s.heap L key).filter ((fun p => decide (p.1 ≠ key)) ∘
        (fun q => (keyD s.heap q, valD s.heap q))) = twL s.heap L key := by
      rw [List.filter_eq_self]
      intro q hq
      have := mem_twL_below hq
      simp only [belowKey, decide_eq_true_eq] at this
      simp only [Function.comp_apply, decide_eq_true_eq]
      omega
    have hdt : dt.filter ((fun p => decide (p.1 ≠ key)) ∘
        (fun q => (keyD s.heap q, valD s.heap q))) = dt := by
      rw [List.filter_eq_self]
      intro q hq
      have := dt_keys_above inv hdw hkey q hq
      simp only [Function.comp_apply, decide_eq_true_eq]
      omega
    have hstep : (twL s.heap L key ++ d :: dt).filter
        ((fun p => decide (p.1 ≠ key)) ∘
          (fun q => (keyD s.heap q, valD s.heap q))) =
        twL s.heap L key ++ dt := by
      rw [List.filter_append, List.filter_cons, htw, hdt, if_neg (by
        simp only [Function.comp_apply, decide_eq_true_eq, hkey]
        omega)]
    have hfilter : L.filter ((fun p => decide (p.1 ≠ key)) ∘
        (fun q => (keyD s.heap q, valD s.heap q))) =
        twL s.heap L key ++ dt := by
      conv_lhs => rw [hLsplit]
      exact hstep
    rw [hfilter]

/-! ## insert_element -/

theorem grlLoop_le (coins : Nat → Bool) :
    ∀ fuel lvl, lvl ≤ MAX_LEVEL → grlLoop coins lvl fuel ≤ MAX_LEVEL := by
  intro fuel
  induction fuel with
  | zero => intro lvl h; exact h
  | succ f ih =>
    intro lvl h
    show (if coins lvl ∧ lvl < MAX_LEVEL then grlLoop coins (lvl + 1) f else lvl) ≤ _
    by_cases hc : coins lvl ∧ lvl < MAX_LEVEL
    · rw [if_pos hc]; exact ih (lvl + 1) (by omega)
    · rw [if_neg hc]; exact h

/-- The drawn level never exceeds MAX_LEVEL. -/
theorem get_random_level_le (coins : Nat → Bool) :
    SkipList.get_random_level coins ≤ MAX_LEVEL :=
  grlLoop_le coins (MAX_LEVEL + 1) 0 (by omega)

/-- Sorted insertion right at the key boundary. -/
theorem specInsert_position (key : Int) (v : String) :
    ∀ (A B : List (Int × String)), (∀ p ∈ A, p.1 < key) →
      (∀ p ∈ B, key < p.1) →
      specInsert (A ++ B) key v = A ++ (key, v) :: B := by
  intro A
  induction A with
  | nil =>
    intro B hA hB
    cases B with
    | nil => rfl
    | cons b bt =>
      obtain ⟨k', v'⟩ := b
      have hk : key < k' := hB (k', v') (by simp)
      show specInsert ((k', v') :: bt) key v = _
      rw [specInsert, if_pos hk]
      rfl
  | cons a at2 ih =>
    intro B hA hB
    obtain ⟨k', v'⟩ := a
    have hk : k' < key := hA (k', v') (by simp)
    show specInsert ((k', v') :: (at2 ++ B)) key v = _
    rw [specInsert, if_neg (by omega), if_neg (by omega)]
    rw [ih B (fun p hp => hA p (by simp [hp])) hB]
    rfl

/-- Sorted insertion on a present key replaces the value in place. -/
theorem specInsert_replace (key : Int) (v w : String) :
    ∀ (A B : List (Int × String)), (∀ p ∈ A, p.1 < key) →
      specInsert (A ++ (key, w) :: B) key v = A ++ (key, v) :: B := by
  intro A
  induction A with
  | nil =>
    intro B hA
    show specInsert ((key, w) :: B) key v = _
    rw [specInsert, if_neg (by omega), if_pos rfl]
    rfl
  | cons a at2 ih =>
    intro B hA
    obtain ⟨k', v'⟩ := a
    have hk : k' < key := hA (k', v') (by simp)
    show specInsert ((k', v') :: (at2 ++ (key, w) :: B)) key v = _
    rw [specInsert, if_neg (by omega), if_neg (by omega)]
    rw [ih B (fun p hp => hA p (by simp [hp]))]
    rfl

/-- Inserting a present key: both return value and state change of the
update-in-place branch — value overwritten, everything else identical. -/
theorem insert_element_existing {s : SkipState} {L : List Nat}
    (inv : SkipInv s L) {key : Int} {d : Nat} {dt : List Nat}
    (hdw : dwL s.heap L key = d :: dt) (hkey : keyD s.heap d = key)
    (v : String) (coins : Nat → Bool) :
    SkipList.insert_element s key v coins =
      (true, { s with heap := hModify s.heap d (fun m => { m with value_ := v }) }) ∧
    SkipInv { s with heap := hModify s.heap d (fun m => { m with value_ := v }) } L ∧
    absList (hModify s.heap d (fun m => { m with value_ := v })) L =
      specInsert (absList s.heap L) key v := by
  have hdmem : d ∈ L := mem_dwL_mem (by rw [hdw]; simp)
  have hd0 : d ≠ 0 := fun he => inv.headerZero (he ▸ hdmem)
  have hLsplit : L = twL s.heap L key ++ d :: dt := L_split inv hdw
  have hddom := inv.memDom (List.mem_cons_of_mem _ hdmem)
  obtain ⟨nd, hnd⟩ : ∃ nd, hLookup s.heap d = some nd := by
    cases hq : hLookup s.heap d with
    | none => rw [hq] at hddom; simp at hddom
    | some nd => exact ⟨nd, rfl⟩
  have hndkey : nd.key_ = key := by
    have : keyD s.heap d = nd.key_ := by unfold keyD; rw [hnd]
    omega
  have hwd := walkDown_spec inv key s.current_level_ inv.clLe 0 (by simp)
  have h1 : (walkDown s key s.current_level_ 0).1 = predAbs s.heap L key 0 := by
    rw [hwd]
  have hfw0 : hForward s.heap (predAbs s.heap L key 0) 0 = some d := by
    have := pred_forward inv key 0 (by simp [MAX_LEVEL])
    rw [levelFilter_zero] at this
    rw [this, hdw]
    rfl
  -- facts about the modified heap
  have hlookup2 : ∀ q, hLookup (hModify s.heap d
      (fun m => { m with value_ := v })) q =
      if q = d then (hLookup s.heap d).map (fun m => { m with value_ := v })
      else hLookup s.heap q := fun q => hLookup_hModify s.heap d _ q
  have hkey2 : ∀ q, keyD (hModify s.heap d
      (fun m => { m with value_ := v })) q = keyD s.heap q := by
    intro q
    unfold keyD
    rw [hlookup2 q]
    by_cases hq : q = d
    · rw [if_pos hq, hq, hnd]; rfl
    · rw [if_neg hq]
  have hlev2 : ∀ q, levelOfD (hModify s.heap d
      (fun m => { m with value_ := v })) q = levelOfD s.heap q := by
    intro q
    unfold levelOfD
    rw [hlookup2 q]
    by_cases hq : q = d
    · rw [if_pos hq, hq, hnd]; rfl
    · rw [if_neg hq]
  have hsome2 : ∀ q, (hLookup (hModify s.heap d
      (fun m => { m with value_ := v })) q).isSome =
      (hLookup s.heap q).isSome := by
    intro q
    rw [hlookup2 q]
    by_cases hq : q = d
    · rw [if_pos hq, hq, hnd]; rfl
    · rw [if_neg hq]
  have hfw2 : ∀ q i, hForward (hModify s.heap d
      (fun m => { m with value_ := v })) q i = hForward s.heap q i :=
    fun q i => hForward_hModify_value s.heap d v q i
  have hfilter2 : ∀ M i, levelFilter (hModify s.heap d
      (fun m => { m with value_ := v })) M i = levelFilter s.heap M i := by
    intro M i
    rw [levelFilter, levelFilter]
    exact List.filter_congr (fun q _ => by rw [hlev2 q])
  refine ⟨?_, ?_, ?_⟩
  · show (match hForward s.heap (walkDown s key s.current_level_ 0).1 0 with
      | some c =>
        match hLookup s.heap c with
        | some n =>
          if n.key_ = key then
            (true, { s with heap := hModify s.heap c (fun m => { m with value_ := v }) })
          else (true, SkipList.insertFresh s key v
            (walkDown s key s.current_level_ 0).2 coins)
        | none => (true, SkipList.insertFresh s key v
            (walkDown s key s.current_level_ 0).2 coins)
      | none => (true, SkipList.insertFresh s key v
          (walkDown s key s.current_level_ 0).2 coins)) = _
    rw [h1, hfw0]
    show (match hLookup s.heap d with
      | some n =>
        if n.key_ = key then
          (true, { s with heap := hModify s.heap d (fun m => { m with value_ := v }) })
        else (true, SkipList.insertFresh s key v
          (walkDown s key s.current_level_ 0).2 coins)
      | none => (true, SkipList.insertFresh s key v
          (walkDown s key s.current_level_ 0).2 coins)) = _
    rw [hnd]
    show (if nd.key_ = key then _ else _) = _
    rw [if_pos hndkey]
  · refine ⟨?_, ?_, inv.headerZero, ?_, inv.fresh, ?_, ?_, ?_, inv.count,
      inv.clLe, ?_⟩
    · show ((hModify s.heap d (fun m => { m with value_ := v })).map Prod.fst).Nodup
      rw [keys_hModify]
      exact inv.keysNodup
    · intro q
      show (hLookup (hModify s.heap d (fun m => { m with value_ := v })) q).isSome = true ↔ _
      rw [hsome2 q]
      exact inv.dom q
    · obtain ⟨fw, hfw0h, hfwlen⟩ := inv.headerNode
      refine ⟨fw, ?_, hfwlen⟩
      show hLookup (hModify s.heap d (fun m => { m with value_ := v })) 0 = _
      rw [hlookup2 0, if_neg (fun he => hd0 he.symm), hfw0h]
    · intro q hq n hn
      show n.node_level_ ≤ s.current_level_ ∧ _
      rw [hlookup2 q] at hn
      by_cases hqd : q = d
      · rw [if_pos hqd, hnd] at hn
        injection hn with hn2
        have hwf := inv.nodesWF d hdmem nd hnd
        rw [← hn2]
        exact hwf
      · rw [if_neg hqd] at hn
        exact inv.nodesWF q hq n hn
    · show List.Chain' _ L
      have := inv.sorted
      refine List.Chain'.imp ?_ this
      intro a b hab
      rw [hkey2 a, hkey2 b]
      exact hab
    · intro i hi
      rw [hfilter2 L i]
      refine chainSeg_congr s.heap _ i 0 _ none ?_ (inv.links i hi)
      intro q _
      exact hfw2 q i
    · show s.current_level_ = 0 ∨ _
      rcases inv.clTight with h0 | hne
      · exact Or.inl h0
      · refine Or.inr ?_
        rw [hfilter2 L s.current_level_]
        exact hne
  · rw [hLsplit]
    rw [absList, absList, List.map_append, List.map_append, List.map_cons,
      List.map_cons]
    have htww : ∀ p ∈ (twL s.heap L key).map
        (fun q => (keyD s.heap q, valD s.heap q)), p.1 < key := by
      intro p hp
      obtain ⟨q, hq, rfl⟩ := List.mem_map.mp hp
      have := mem_twL_below hq
      simpa [belowKey] using this
    have hdpair : (keyD s.heap d, valD s.heap d) = (key, valD s.heap d) := by
      rw [hkey]
    rw [hdpair, specInsert_replace key v (valD s.heap d) _ _ htww]
    congr 1
    · refine List.map_congr_left ?_
      intro q hq
      have hqd : q ≠ d := by
        intro he
        have hnodup : (twL s.heap L key ++ d :: dt).Nodup :=
          hLsplit ▸ inv.nodupL
        obtain ⟨_, _, hdisj⟩ := List.nodup_append.mp hnodup
        exact hdisj (he ▸ hq) (by simp)
      rw [hkey2 q]
      unfold valD
      rw [hlookup2 q, if_neg hqd]
    · have hvald : valD (hModify s.heap d
          (fun m => { m with value_ := v })) d = v := by
        unfold valD
        rw [hlookup2 d, if_pos rfl, hnd]
        rfl
      rw [hkey2 d, hkey, hvald]
      congr 1
      refine List.map_congr_left ?_
      intro q hq
      have hqd : q ≠ d := by
        intro he
        have hnodup : (twL s.heap L key ++ d :: dt).Nodup :=
          hLsplit ▸ inv.nodupL
        obtain ⟨_, hnddt, _⟩ := List.nodup_append.mp hnodup
        exact (List.nodup_cons.mp hnddt).1 (he ▸ hq)
      rw [hkey2 q]
      unfold valD
      rw [hlookup2 q, if_neg hqd]

theorem meta_isSome_len {h h2 : Heap} {q : Nat}
    (hm : (hLookup h2 q).map nodeMeta = (hLookup h q).map nodeMeta)
    {nd2 : Node} (hl : hLookup h q = some nd2) :
    ∃ nd3, hLookup h2 q = some nd3 ∧ nd3.forward_.length = nd2.forward_.length := by
  rw [hl] at hm
  cases h2q : hLookup h2 q with
  | none => rw [h2q] at hm; simp at hm
  | some nd3 =>
    rw [h2q] at hm
    injection hm with hm2
    have hm3 : (nd3.key_, nd3.value_, nd3.node_level_, nd3.forward_.length) =
      (nd2.key_, nd2.value_, nd2.node_level_, nd2.forward_.length) := hm2
    injection hm3 with e1 hr
    injection hr with e2 hr2
    injection hr2 with e3 e4
    exact ⟨nd3, rfl, e4⟩

theorem spliceStep_meta (h : Heap) (nid pred i : Nat) (q : Nat) :
    (hLookup (spliceStep h nid pred i) q).map nodeMeta =
      (hLookup h q).map nodeMeta := by
  show (hLookup (hModify (hModify h nid
    (fun n => n.setForward i (hForward h pred i))) pred
    (fun n => n.setForward i (some nid))) q).map nodeMeta = _
  rw [meta_hModify_setForward, meta_hModify_setForward]

theorem spliceFold_meta (nid : Nat) (upd2 : List Nat) :
    ∀ (js : List Nat) (g : Heap) (q : Nat),
      (hLookup (js.foldl (fun h i => spliceStep h nid (upd2.getD i 0) i) g) q).map
        nodeMeta = (hLookup g q).map nodeMeta := by
  intro js
  induction js with
  | nil => intro g q; rfl
  | cons j rest ih =>
    intro g q
    show (hLookup (rest.foldl _ (spliceStep g nid (upd2.getD j 0) j)) q).map
      nodeMeta = _
    rw [ih (spliceStep g nid (upd2.getD j 0) j) q, spliceStep_meta]

theorem spliceStep_keys (h : Heap) (nid pred i : Nat) :
    (spliceStep h nid pred i).map Prod.fst = h.map Prod.fst := by
  show (hModify (hModify h nid
    (fun n => n.setForward i (hForward h pred i))) pred
    (fun n => n.setForward i (some nid))).map Prod.fst = _
  rw [keys_hModify, keys_hModify]

theorem spliceFold_keys (nid : Nat) (upd2 : List Nat) :
    ∀ (js : List Nat) (g : Heap),
      (js.foldl (fun h i => spliceStep h nid (upd2.getD i 0) i) g).map Prod.fst =
        g.map Prod.fst := by
  intro js
  induction js with
  | nil => intro g; rfl
  | cons j rest ih =>
    intro g
    show (rest.foldl _ (spliceStep g nid (upd2.getD j 0) j)).map Prod.fst = _
    rw [ih (spliceStep g nid (upd2.getD j 0) j), spliceStep_keys]

/-- Effect of the splicing loop of insert_element on the successor pointers,
processing levels a, a+1, ..., a+n-1: at each processed level i, the slot
(new node, i) is set to the old successor of the level-i predecessor and the
slot (predecessor, i) is set to the new node; every other slot is left
alone. -/
theorem spliceFold_forward (nid : Nat) (upd2 : List Nat)
    (hne : ∀ j, upd2.getD j 0 ≠ nid) :
    ∀ (n a : Nat) (g : Heap),
      (∀ j, a ≤ j → j < a + n →
        (∃ nn, hLookup g nid = some nn ∧ j < nn.forward_.length) ∧
        (∃ nd2, hLookup g (upd2.getD j 0) = some nd2 ∧
          j < nd2.forward_.length)) →
      ∀ q i, hForward ((List.range' a n).foldl
          (fun h i => spliceStep h nid (upd2.getD i 0) i) g) q i =
        if a ≤ i ∧ i < a + n ∧ q = nid then hForward g (upd2.getD i 0) i
        else if a ≤ i ∧ i < a + n ∧ q = upd2.getD i 0 then some nid
        else hForward g q i := by
  intro n
  induction n with
  | zero =>
    intro a g hwf q i
    rw [if_neg (by omega), if_neg (by omega)]
    rfl
  | succ n ih =>
    intro a g hwf q i
    obtain ⟨⟨nn, hnn, hlnn⟩, ⟨nd2, hnd2, hlnd2⟩⟩ := hwf a (le_refl a) (by omega)
    have hstep : (List.range' a (n + 1)).foldl
        (fun h i => spliceStep h nid (upd2.getD i 0) i) g =
        (List.range' (a + 1) n).foldl
        (fun h i => spliceStep h nid (upd2.getD i 0) i)
        (spliceStep g nid (upd2.getD a 0) a) := rfl
    rw [hstep]
    have hfw1 : ∀ q2 i2, hForward (spliceStep g nid (upd2.getD a 0) a) q2 i2 =
        if q2 = upd2.getD a 0 ∧ i2 = a then some nid
        else if q2 = nid ∧ i2 = a then hForward g (upd2.getD a 0) a
        else hForward g q2 i2 := by
      intro q2 i2
      show hForward (hModify (hModify g nid
        (fun nd => nd.setForward a (hForward g (upd2.getD a 0) a)))
        (upd2.getD a 0) (fun nd => nd.setForward a (some nid))) q2 i2 = _
      rw [hForward_hModify_setForward]
      by_cases hc1 : q2 = upd2.getD a 0 ∧ i2 = a
      · rw [if_pos ⟨hc1.1, hc1.2, by
          rw [hLookup_hModify, if_neg (hne a)]
          exact ⟨nd2, hnd2, hlnd2⟩⟩]
        rw [if_pos hc1]
      · rw [if_neg (fun hx => hc1 ⟨hx.1, hx.2.1⟩), if_neg hc1]
        rw [hForward_hModify_setForward]
        by_cases hc2 : q2 = nid ∧ i2 = a
        · rw [if_pos ⟨hc2.1, hc2.2, nn, hnn, hlnn⟩, if_pos hc2]
        · rw [if_neg (fun hx => hc2 ⟨hx.1, hx.2.1⟩), if_neg hc2]
    have hwf1 : ∀ j, a + 1 ≤ j → j < a + 1 + n →
        (∃ nn2, hLookup (spliceStep g nid (upd2.getD a 0) a) nid = some nn2 ∧
          j < nn2.forward_.length) ∧
        (∃ nd3, hLookup (spliceStep g nid (upd2.getD a 0) a)
          (upd2.getD j 0) = some nd3 ∧ j < nd3.forward_.length) := by
      intro j h1 h2
      obtain ⟨⟨nnj, hnnj, hlnnj⟩, ⟨ndj, hndj, hlndj⟩⟩ :=
        hwf j (by omega) (by omega)
      constructor
      · obtain ⟨nn3, hnn3, hlen3⟩ := meta_isSome_len
          (spliceStep_meta g nid (upd2.getD a 0) a nid) hnnj
        exact ⟨nn3, hnn3, by omega⟩
      · obtain ⟨nd4, hnd4, hlen4⟩ := meta_isSome_len
          (spliceStep_meta g nid (upd2.getD a 0) a (upd2.getD j 0)) hndj
        exact ⟨nd4, hnd4, by omega⟩
    rw [ih (a + 1) _ hwf1 q i]
    by_cases hm1 : a ≤ i ∧ i < a + (n + 1) ∧ q = nid
    · rw [if_pos hm1]
      by_cases hia : i = a
      · rw [if_neg (by omega), if_neg (by omega), hfw1,
          if_neg (fun hx => hne a (hx.1.symm.trans hm1.2.2)),
          if_pos ⟨hm1.2.2, hia⟩, hia]
      · rw [if_pos ⟨by omega, by omega, hm1.2.2⟩, hfw1,
          if_neg (fun hx => hia hx.2), if_neg (fun hx => hne i hx.1)]
    · rw [if_neg hm1]
      by_cases hm2 : a ≤ i ∧ i < a + (n + 1) ∧ q = upd2.getD i 0
      · rw [if_pos hm2]
        by_cases hia : i = a
        · rw [if_neg (by omega), if_neg (by omega), hfw1,
            if_pos ⟨by rw [hm2.2.2, hia], hia⟩]
        · rw [if_neg (fun hx => hm1 ⟨by omega, by omega, hx.2.2⟩),
            if_pos ⟨by omega, by omega, hm2.2.2⟩]
      · rw [if_neg (fun hx => hm1 ⟨by omega, by omega, hx.2.2⟩),
          if_neg (fun hx => hm2 ⟨by omega, by omega, hx.2.2⟩), hfw1]
        have hn1 : ¬(q = upd2.getD a 0 ∧ i = a) := by
          intro hx
          exact hm2 ⟨by omega, by omega, by rw [hx.2]; exact hx.1⟩
        have hn2 : ¬(q = nid ∧ i = a) := by
          intro hx
          exact hm1 ⟨by omega, by omega, hx.1⟩
        rw [if_neg hn1, if_neg hn2, if_neg hm2]

theorem hForward_cons (nid : Nat) (nn : Node) (h : Heap) (q i : Nat) :
    hForward ((nid, nn) :: h) q i =
      if q = nid then nn.forward_.getD i none else hForward h q i := by
  unfold hForward
  rw [hLookup_cons]
  by_cases hq : q = nid
  · rw [if_pos hq, if_pos hq]
  · rw [if_neg hq, if_neg hq]

theorem getD_replicate_none (k j : Nat) :
    (List.replicate k (none : Option Nat)).getD j none = none := by
  induction k generalizing j with
  | zero => cases j <;> rfl
  | succ n ih =>
    cases j with
    | zero => rfl
    | succ m => exact ih m

/-- Above the current level the predecessor is the header: no node reaches
that level. -/
theorem predAbs_high {s : SkipState} {L : List Nat} (inv : SkipInv s L)
    (key : Int) (i : Nat) (hi : s.current_level_ < i) :
    predAbs s.heap L key i = 0 := by
  rw [predAbs]
  have hnil : levelFilter s.heap (twL s.heap L key) i = [] := by
    rw [levelFilter, List.filter_eq_nil_iff]
    intro q hq
    have hqL : q ∈ L := mem_twL_mem hq
    have hdom := inv.memDom (List.mem_cons_of_mem _ hqL)
    cases hn : hLookup s.heap q with
    | none => rw [hn] at hdom; simp at hdom
    | some n =>
      have hlev : levelOfD s.heap q = n.node_level_ := by
        unfold levelOfD; rw [hn]
      have := (inv.nodesWF q hqL n hn).1
      simp only [decide_eq_true_eq, hlev]
      omega
  rw [hnil]
  rfl

/-- Level population of the extended id list: the fresh node joins every
level up to its drawn level, between the two halves. -/
theorem insert_levelFilter (g1 : Heap) (s : SkipState) (L : List Nat)
    (key : Int) (nid rl : Nat)
    (hlev : ∀ q, levelOfD g1 q = if q = nid then rl else levelOfD s.heap q)
    (htwne : ∀ q ∈ twL s.heap L key, q ≠ nid)
    (hdwne : ∀ q ∈ dwL s.heap L key, q ≠ nid) (i : Nat) :
    levelFilter g1 (twL s.heap L key ++ nid :: dwL s.heap L key) i =
      levelFilter s.heap (twL s.heap L key) i ++
      (if i ≤ rl then [nid] else []) ++
      levelFilter s.heap (dwL s.heap L key) i := by
  rw [levelFilter, List.filter_append, List.filter_cons]
  have h1 : (twL s.heap L key).filter (fun q => decide (i ≤ levelOfD g1 q)) =
      levelFilter s.heap (twL s.heap L key) i := by
    rw [levelFilter]
    refine List.filter_congr ?_
    intro q hq
    rw [hlev q, if_neg (htwne q hq)]
  have h2 : (dwL s.heap L key).filter (fun q => decide (i ≤ levelOfD g1 q)) =
      levelFilter s.heap (dwL s.heap L key) i := by
    rw [levelFilter]
    refine List.filter_congr ?_
    intro q hq
    rw [hlev q, if_neg (hdwne q hq)]
  rw [h1, h2]
  by_cases hir : i ≤ rl
  · rw [if_pos (by simp [hlev nid, hir]), if_pos hir]
    simp [List.append_assoc]
  · rw [if_neg (by simp [hlev nid]; omega), if_neg hir]
    simp [List.append_assoc]

/-- After splicing the fresh node in, every level chains out exactly the
extended level population. -/
theorem insert_links {s : SkipState} {L : List Nat} (inv : SkipInv s L)
    {key : Int} (hkabs : ∀ q ∈ L, keyD s.heap q ≠ key)
    (rl : Nat) (hrl : rl ≤ MAX_LEVEL) (g1 : Heap)
    (hlev : ∀ q, levelOfD g1 q =
      if q = s.next_id then rl else levelOfD s.heap q)
    (hU : ∀ q i, hForward g1 q i =
      if i ≤ rl ∧ q = s.next_id then
        hForward s.heap (predAbs s.heap L key i) i
      else if i ≤ rl ∧ q = predAbs s.heap L key i then some s.next_id
      else hForward s.heap q i) :
    ∀ i, i ≤ MAX_LEVEL →
      chainSeg g1 i 0 (levelFilter g1
        (twL s.heap L key ++ s.next_id :: dwL s.heap L key) i) none := by
  have hfresh_tw : ∀ q ∈ twL s.heap L key, q ≠ s.next_id := by
    intro q hq he
    have := inv.fresh q (List.mem_cons_of_mem _ (mem_twL_mem hq))
    omega
  have hfresh_dw : ∀ q ∈ dwL s.heap L key, q ≠ s.next_id := by
    intro q hq he
    have := inv.fresh q (List.mem_cons_of_mem _ (mem_dwL_mem hq))
    omega
  have hfresh0 : (0 : Nat) ≠ s.next_id := by
    have := inv.fresh 0 (by simp)
    omega
  have hpred_ne : ∀ j, predAbs s.heap L key j ≠ s.next_id := by
    intro j
    rcases List.mem_cons.mp (predAbs_mem s.heap L key j) with h0 | hmem
    · rw [h0]; exact hfresh0
    · exact hfresh_tw _ (levelFilter_subset _ _ _ _ hmem)
  intro i hi
  rw [insert_levelFilter g1 s L key s.next_id rl hlev hfresh_tw hfresh_dw i]
  have hFi : levelFilter s.heap L i =
      levelFilter s.heap (twL s.heap L key) i ++
      levelFilter s.heap (dwL s.heap L key) i := by
    rw [levelFilter, levelFilter, levelFilter, ← List.filter_append,
      tw_dw_append]
  have holdlinks := inv.links i hi
  rw [hFi] at holdlinks
  by_cases him : i ≤ rl
  · rw [if_pos him]
    -- chain: tw part, then the fresh node, then the dw part
    have hnodup_tw : (0 :: levelFilter s.heap (twL s.heap L key) i).Nodup := by
      refine List.nodup_cons.mpr ⟨?_, ?_⟩
      · exact fun hin =>
          inv.headerZero (mem_twL_mem (levelFilter_subset _ _ _ _ hin))
      · have hnd : (twL s.heap L key).Nodup := by
          have h1 := inv.nodupL
          have h2 := tw_dw_append s.heap L key
          rw [← h2] at h1
          exact (List.nodup_append.mp h1).1
        exact hnd.filter _
    have hA : chainSeg s.heap i 0 (levelFilter s.heap (twL s.heap L key) i)
        ((levelFilter s.heap (dwL s.heap L key) i).head?) := by
      cases het : levelFilter s.heap (dwL s.heap L key) i with
      | nil => rw [het] at holdlinks; rw [List.append_nil] at holdlinks
               exact holdlinks
      | cons e et =>
        rw [het] at holdlinks
        exact ((chainSeg_append s.heap i 0 _ e _ none).mp holdlinks).1
    have hBdw := chain_at_dw_level inv key i hi
    have part1 : chainSeg g1 i 0 (levelFilter s.heap (twL s.heap L key) i)
        (some s.next_id) := by
      refine chainSeg_rewrite_last s.heap g1 i 0 _ _ _ hnodup_tw hA ?_ ?_
      · intro q hq hqlast
        rw [hU q i]
        have hqne : q ≠ s.next_id := by
          rcases List.mem_cons.mp hq with rfl | hmem
          · exact hfresh0
          · exact hfresh_tw _ (levelFilter_subset _ _ _ _ hmem)
        rw [if_neg (fun hx => hqne hx.2), if_neg (fun hx => hqlast hx.2)]
      · show hForward g1 (predAbs s.heap L key i) i = _
        rw [hU _ i, if_neg (fun hx => hpred_ne i hx.2), if_pos ⟨him, rfl⟩]
    have part2 : chainSeg g1 i s.next_id
        (levelFilter s.heap (dwL s.heap L key) i) none := by
      have hnidfw : hForward g1 s.next_id i =
          (levelFilter s.heap (dwL s.heap L key) i).head? := by
        rw [hU _ i, if_pos ⟨him, rfl⟩]
        exact pred_forward inv key i hi
      cases het : levelFilter s.heap (dwL s.heap L key) i with
      | nil =>
        rw [chainSeg_nil, hnidfw, het]
        rfl
      | cons e et =>
        rw [het] at hBdw
        refine ⟨by rw [hnidfw, het]; rfl, ?_⟩
        refine chainSeg_congr s.heap g1 i e et none ?_ hBdw.2
        intro q hq
        have hqdw : q ∈ dwL s.heap L key := by
          have : q ∈ levelFilter s.heap (dwL s.heap L key) i := by
            rw [het]; exact hq
          exact levelFilter_subset _ _ _ _ this
        have hq1 : q ≠ s.next_id := hfresh_dw q hqdw
        have hq2 : q ≠ predAbs s.heap L key i := by
          intro he
          rcases List.mem_cons.mp (predAbs_mem s.heap L key i) with h0 | hmem
          · exact inv.headerZero (mem_dwL_mem ((he.trans h0) ▸ hqdw))
          · have hqtw : q ∈ twL s.heap L key :=
              he ▸ levelFilter_subset _ _ _ _ hmem
            have h1 := inv.nodupL
            have h2 := tw_dw_append s.heap L key
            rw [← h2] at h1
            exact (List.nodup_append.mp h1).2.2 hqtw hqdw
        rw [hU q i, if_neg (fun hx => hq1 hx.2), if_neg (fun hx => hq2 hx.2)]
    rw [List.append_assoc]
    exact (chainSeg_append g1 i 0 _ s.next_id _ none).mpr ⟨part1, part2⟩
  · rw [if_neg him, List.append_nil]
    refine chainSeg_congr s.heap g1 i 0 _ none ?_ holdlinks
    intro q hq
    have hqne : q ≠ s.next_id := by
      rcases List.mem_cons.mp hq with rfl | hmem
      · exact hfresh0
      · rcases List.mem_append.mp hmem with h1 | h2
        · exact hfresh_tw _ (levelFilter_subset _ _ _ _ h1)
        · exact hfresh_dw _ (levelFilter_subset _ _ _ _ h2)
    rw [hU q i, if_neg (fun hx => him hx.1), if_neg (fun hx => him hx.1)]

theorem getD_replicate_self (x : Nat) (k j : Nat) :
    (List.replicate k x).getD j x = x := by
  induction k generalizing j with
  | zero => cases j <;> rfl
  | succ n ih =>
    cases j with
    | zero => rfl
    | succ m => exact ih m

/-- The levels reached by ids below the target key never exceed the current
level. -/
theorem tw_levels_le {s : SkipState} {L : List Nat} (inv : SkipInv s L)
    (key : Int) : ∀ q ∈ twL s.heap L key,
      levelOfD s.heap q ≤ s.current_level_ := by
  intro q hq
  have hqL : q ∈ L := mem_twL_mem hq
  have hdom := inv.memDom (List.mem_cons_of_mem _ hqL)
  cases hn : hLookup s.heap q with
  | none => rw [hn] at hdom; simp at hdom
  | some n =>
    have hlev : levelOfD s.heap q = n.node_level_ := by
      unfold levelOfD; rw [hn]
    rw [hlev]
    exact (inv.nodesWF q hqL n hn).1

/-- The state of insertFresh keeps the invariant against the id list with
the fresh node in key position, and performs the map-model insertion. -/
theorem insertFresh_spec {s : SkipState} {L : List Nat} (inv : SkipInv s L)
    {key : Int} (hkabs : ∀ q ∈ L, keyD s.heap q ≠ key) (v : String)
    (coins : Nat → Bool) :
    SkipInv (SkipList.insertFresh s key v
        ((List.range (s.current_level_ + 1)).map (predAbs s.heap L key)) coins)
      (twL s.heap L key ++ s.next_id :: dwL s.heap L key) ∧
    absList (SkipList.insertFresh s key v
        ((List.range (s.current_level_ + 1)).map (predAbs s.heap L key))
        coins).heap
      (twL s.heap L key ++ s.next_id :: dwL s.heap L key) =
      specInsert (absList s.heap L) key v ∧
    (SkipList.insertFresh s key v
        ((List.range (s.current_level_ + 1)).map (predAbs s.heap L key))
        coins).element_count_ = s.element_count_ + 1 := by
  have hfresh0 : (0 : Nat) < s.next_id := inv.fresh 0 (by simp)
  have hfreshL : ∀ q ∈ L, q < s.next_id :=
    fun q hq => inv.fresh q (List.mem_cons_of_mem _ hq)
  have hnidnone : hLookup s.heap s.next_id = none := by
    cases hx : hLookup s.heap s.next_id with
    | none => rfl
    | some n =>
      exfalso
      have : (hLookup s.heap s.next_id).isSome = true := by rw [hx]; rfl
      have hmem := (inv.dom s.next_id).mp this
      have := inv.fresh s.next_id hmem
      omega
  have hIF : SkipList.insertFresh s key v
      ((List.range (s.current_level_ + 1)).map (predAbs s.heap L key)) coins =
      ⟨(List.range (SkipList.get_random_level coins + 1)).foldl
        (fun h i => spliceStep h s.next_id
          ((if s.current_level_ < SkipList.get_random_level coins then
            (List.range (s.current_level_ + 1)).map (predAbs s.heap L key) ++
              List.replicate (SkipList.get_random_level coins -
                s.current_level_) 0
          else (List.range (s.current_level_ + 1)).map
            (predAbs s.heap L key)).getD i 0) i)
        ((s.next_id, Node.new key v (SkipList.get_random_level coins)) ::
          s.heap),
        (if s.current_level_ < SkipList.get_random_level coins then
          SkipList.get_random_level coins else s.current_level_),
        s.element_count_ + 1, s.next_id + 1⟩ := rfl
  rw [hIF]
  have hrl : SkipList.get_random_level coins ≤ MAX_LEVEL :=
    get_random_level_le coins
  generalize hrleq : SkipList.get_random_level coins = rl at *
  generalize hupd2eq : (if s.current_level_ < rl then
      (List.range (s.current_level_ + 1)).map (predAbs s.heap L key) ++
        List.replicate (rl - s.current_level_) 0
    else (List.range (s.current_level_ + 1)).map (predAbs s.heap L key)) =
    upd2 at *
  -- the recorded predecessors, uniformly over all levels up to rl
  have hupd2get : ∀ j, j ≤ rl → upd2.getD j 0 = predAbs s.heap L key j := by
    intro j hj
    rw [← hupd2eq]
    by_cases hclrl : s.current_level_ < rl
    · rw [if_pos hclrl]
      by_cases hjcl : j ≤ s.current_level_
      · rw [List.getD_append _ _ _ _ (by simp; omega)]
        exact getD_map_range _ _ _ (by omega)
      · rw [List.getD_append_right _ _ _ _ (by simp; omega)]
        rw [getD_replicate_self]
        rw [predAbs_high inv key j (by omega)]
    · rw [if_neg hclrl]
      exact getD_map_range _ _ _ (by omega)
  have hupd2cases : ∀ j, upd2.getD j 0 = predAbs s.heap L key j ∨
      upd2.getD j 0 = 0 := by
    intro j
    by_cases hj : j ≤ rl
    · exact Or.inl (hupd2get j hj)
    · rw [← hupd2eq]
      by_cases hclrl : s.current_level_ < rl
      · rw [if_pos hclrl]
        refine Or.inr (List.getD_eq_default _ _ ?_)
        simp
        omega
      · by_cases hjcl : j ≤ s.current_level_
        · rw [if_neg hclrl]
          exact Or.inl (getD_map_range _ _ _ (by omega))
        · rw [if_neg hclrl]
          refine Or.inr (List.getD_eq_default _ _ ?_)
          simp
          omega
  have hpred_lt : ∀ j, predAbs s.heap L key j < s.next_id := by
    intro j
    rcases List.mem_cons.mp (predAbs_mem s.heap L key j) with h0 | hmem
    · rw [h0]; exact hfresh0
    · exact hfreshL _ (mem_twL_mem (levelFilter_subset _ _ _ _ hmem))
  have hne2 : ∀ j, upd2.getD j 0 ≠ s.next_id := by
    intro j
    rcases hupd2cases j with he | he
    · rw [he]
      have := hpred_lt j
      omega
    · rw [he]
      omega
  have hh0lookup : ∀ q, hLookup ((s.next_id, Node.new key v rl) :: s.heap) q =
      if q = s.next_id then some (Node.new key v rl) else hLookup s.heap q :=
    fun q => hLookup_cons _ _ _ q
  have hh0fw : ∀ q i, hForward ((s.next_id, Node.new key v rl) :: s.heap) q i =
      hForward s.heap q i := by
    intro q i
    rw [hForward_cons]
    by_cases hq : q = s.next_id
    · rw [if_pos hq]
      show (List.replicate (rl + 1) none).getD i none = _
      rw [getD_replicate_none]
      unfold hForward
      rw [hq, hnidnone]
    · rw [if_neg hq]
  have hwfsplice : ∀ j, 0 ≤ j → j < 0 + (rl + 1) →
      (∃ nn, hLookup ((s.next_id, Node.new key v rl) :: s.heap) s.next_id =
        some nn ∧ j < nn.forward_.length) ∧
      (∃ nd2, hLookup ((s.next_id, Node.new key v rl) :: s.heap)
        (upd2.getD j 0) = some nd2 ∧ j < nd2.forward_.length) := by
    intro j _ hj
    constructor
    · refine ⟨Node.new key v rl, by rw [hh0lookup, if_pos rfl], ?_⟩
      show j < (List.replicate (rl + 1) (none : Option Nat)).length
      simp
      omega
    · rw [hh0lookup, if_neg (hne2 j), hupd2get j (by omega)]
      rcases List.mem_cons.mp (predAbs_mem s.heap L key j) with h0 | hmem
      · obtain ⟨fw, hfw, hfwlen⟩ := inv.headerNode
        rw [h0, hfw]
        refine ⟨_, rfl, ?_⟩
        show j < fw.length
        rw [hfwlen]
        simp only [MAX_LEVEL] at *
        omega
      · have hq_tw := levelFilter_subset _ _ _ _ hmem
        have hq_L := mem_twL_mem hq_tw
        have hq_dom := inv.memDom (List.mem_cons_of_mem _ hq_L)
        cases hq : hLookup s.heap (predAbs s.heap L key j) with
        | none => rw [hq] at hq_dom; simp at hq_dom
        | some nd2 =>
          refine ⟨nd2, rfl, ?_⟩
          have hlev := levelFilter_level hmem
          have hlev2 : levelOfD s.heap (predAbs s.heap L key j) =
              nd2.node_level_ := by unfold levelOfD; rw [hq]
          have := (inv.nodesWF _ hq_L nd2 hq).2
          omega
  have hraw := spliceFold_forward s.next_id upd2 hne2 (rl + 1) 0
    ((s.next_id, Node.new key v rl) :: s.heap) hwfsplice
  rw [← List.range_eq_range' (rl + 1)] at hraw
  have hU : ∀ q i, hForward ((List.range (rl + 1)).foldl
      (fun h i => spliceStep h s.next_id (upd2.getD i 0) i)
      ((s.next_id, Node.new key v rl) :: s.heap)) q i =
      if i ≤ rl ∧ q = s.next_id then
        hForward s.heap (predAbs s.heap L key i) i
      else if i ≤ rl ∧ q = predAbs s.heap L key i then some s.next_id
      else hForward s.heap q i := by
    intro q i
    rw [hraw q i]
    by_cases hc1 : i ≤ rl ∧ q = s.next_id
    · rw [if_pos ⟨by omega, by omega, hc1.2⟩, if_pos hc1,
        hupd2get i hc1.1, hh0fw]
    · rw [if_neg (fun hx => hc1 ⟨by omega, hx.2.2⟩), if_neg hc1]
      by_cases hc2 : i ≤ rl ∧ q = predAbs s.heap L key i
      · rw [if_pos ⟨by omega, by omega, by rw [hupd2get i hc2.1]; exact hc2.2⟩,
          if_pos hc2]
      · rw [if_neg ?_, if_neg hc2, hh0fw]
        intro hx
        refine hc2 ⟨by omega, ?_⟩
        have := hx.2.2
        rwa [hupd2get i (by omega)] at this
  have hmeta1 : ∀ q, (hLookup ((List.range (rl + 1)).foldl
      (fun h i => spliceStep h s.next_id (upd2.getD i 0) i)
      ((s.next_id, Node.new key v rl) :: s.heap)) q).map nodeMeta =
      (hLookup ((s.next_id, Node.new key v rl) :: s.heap) q).map nodeMeta :=
    fun q => spliceFold_meta s.next_id upd2 (List.range (rl + 1)) _ q
  have hkeys1 : ((List.range (rl + 1)).foldl
      (fun h i => spliceStep h s.next_id (upd2.getD i 0) i)
      ((s.next_id, Node.new key v rl) :: s.heap)).map Prod.fst =
      s.next_id :: s.heap.map Prod.fst := by
    rw [spliceFold_keys]
    rfl
  have hlev : ∀ q, levelOfD ((List.range (rl + 1)).foldl
      (fun h i => spliceStep h s.next_id (upd2.getD i 0) i)
      ((s.next_id, Node.new key v rl) :: s.heap)) q =
      if q = s.next_id then rl else levelOfD s.heap q := by
    intro q
    have h1 := (meta_eq_fields (hmeta1 q)).2.2.1
    rw [h1]
    unfold levelOfD
    rw [hh0lookup q]
    by_cases hq : q = s.next_id
    · rw [if_pos hq, if_pos hq]
      rfl
    · rw [if_neg hq, if_neg hq]
  have hkeyg : ∀ q, keyD ((List.range (rl + 1)).foldl
      (fun h i => spliceStep h s.next_id (upd2.getD i 0) i)
      ((s.next_id, Node.new key v rl) :: s.heap)) q =
      if q = s.next_id then key else keyD s.heap q := by
    intro q
    have h1 := (meta_eq_fields (hmeta1 q)).1
    rw [h1]
    unfold keyD
    rw [hh0lookup q]
    by_cases hq : q = s.next_id
    · rw [if_pos hq, if_pos hq]
      rfl
    · rw [if_neg hq, if_neg hq]
  have hvalg : ∀ q, valD ((List.range (rl + 1)).foldl
      (fun h i => spliceStep h s.next_id (upd2.getD i 0) i)
      ((s.next_id, Node.new key v rl) :: s.heap)) q =
      if q = s.next_id then v else valD s.heap q := by
    intro q
    have h1 := (meta_eq_fields (hmeta1 q)).2.1
    rw [h1]
    unfold valD
    rw [hh0lookup q]
    by_cases hq : q = s.next_id
    · rw [if_pos hq, if_pos hq]
      rfl
    · rw [if_neg hq, if_neg hq]
  have hsomeg : ∀ q, (hLookup ((List.range (rl + 1)).foldl
      (fun h i => spliceStep h s.next_id (upd2.getD i 0) i)
      ((s.next_id, Node.new key v rl) :: s.heap)) q).isSome =
      if q = s.next_id then true else (hLookup s.heap q).isSome := by
    intro q
    have h1 := (meta_eq_fields (hmeta1 q)).2.2.2
    rw [h1, hh0lookup q]
    by_cases hq : q = s.next_id
    · rw [if_pos hq, if_pos hq]
      rfl
    · rw [if_neg hq, if_neg hq]
  have hlinks := insert_links inv hkabs rl hrl _ hlev hU
  have hfresh_tw : ∀ q ∈ twL s.heap L key, q ≠ s.next_id := by
    intro q hq he
    have := hfreshL q (mem_twL_mem hq)
    omega
  have hfresh_dw : ∀ q ∈ dwL s.heap L key, q ≠ s.next_id := by
    intro q hq he
    have := hfreshL q (mem_dwL_mem hq)
    omega
  have hlen_tw_dw : (twL s.heap L key).length + (dwL s.heap L key).length =
      L.length := by
    have := congrArg List.length (tw_dw_append s.heap L key)
    simpa using this
  have hdw_above : ∀ q ∈ dwL s.heap L key, key < keyD s.heap q := by
    intro q hq
    have h1 := mem_dwL_not_below inv.sortedPairwise q hq
    have h2 := hkabs q (mem_dwL_mem hq)
    simp only [belowKey, decide_eq_false_iff_not] at h1
    omega
  have htw_below : ∀ q ∈ twL s.heap L key, keyD s.heap q < key := by
    intro q hq
    have := mem_twL_below hq
    simpa [belowKey] using this
  refine ⟨⟨?_, ?_, ?_, ?_, ?_, ?_, ?_, hlinks, ?_, ?_, ?_⟩, ?_, rfl⟩
  · -- keysNodup
    show (((List.range (rl + 1)).foldl
      (fun h i => spliceStep h s.next_id (upd2.getD i 0) i)
      ((s.next_id, Node.new key v rl) :: s.heap)).map Prod.fst).Nodup
    rw [hkeys1]
    refine List.nodup_cons.mpr ⟨?_, inv.keysNodup⟩
    intro hin
    have := (hLookup_isSome_iff_memKeys s.heap s.next_id).mpr hin
    rw [hnidnone] at this
    simp at this
  · -- dom
    intro q
    show (hLookup ((List.range (rl + 1)).foldl _ _) q).isSome = true ↔ _
    rw [hsomeg q]
    by_cases hq : q = s.next_id
    · rw [if_pos hq]
      refine iff_of_true rfl ?_
      rw [hq]
      exact List.mem_cons_of_mem _
        (List.mem_append_right _ (List.mem_cons_self _ _))
    · rw [if_neg hq, inv.dom q]
      constructor
      · intro hmem
        rcases List.mem_cons.mp hmem with rfl | hL
        · exact List.mem_cons_self _ _
        · refine List.mem_cons_of_mem _ ?_
          rw [← tw_dw_append s.heap L key] at hL
          rcases List.mem_append.mp hL with h1 | h2
          · exact List.mem_append_left _ h1
          · exact List.mem_append_right _ (List.mem_cons_of_mem _ h2)
      · intro hmem
        rcases List.mem_cons.mp hmem with rfl | hL2
        · exact List.mem_cons_self _ _
        · refine List.mem_cons_of_mem _ ?_
          rcases List.mem_append.mp hL2 with h1 | h2
          · rw [← tw_dw_append s.heap L key]
            exact List.mem_append_left _ h1
          · rcases List.mem_cons.mp h2 with rfl | h3
            · exact absurd rfl hq
            · rw [← tw_dw_append s.heap L key]
              exact List.mem_append_right _ h3
  · -- headerZero
    intro hmem
    rcases List.mem_append.mp hmem with h1 | h2
    · exact inv.headerZero (mem_twL_mem h1)
    · rcases List.mem_cons.mp h2 with h3 | h4
      · omega
      · exact inv.headerZero (mem_dwL_mem h4)
  · -- headerNode
    obtain ⟨fw, hfw0h, hfwlen⟩ := inv.headerNode
    have h0nid : (0 : Nat) ≠ s.next_id := by omega
    have hm0 := hmeta1 0
    rw [hh0lookup 0, if_neg h0nid, hfw0h] at hm0
    cases hg : hLookup ((List.range (rl + 1)).foldl
        (fun h i => spliceStep h s.next_id (upd2.getD i 0) i)
        ((s.next_id, Node.new key v rl) :: s.heap)) 0 with
    | none => rw [hg] at hm0; simp at hm0
    | some n0 =>
      rw [hg] at hm0
      injection hm0 with hm0b
      have hm0c : (n0.key_, n0.value_, n0.node_level_, n0.forward_.length) =
        ((0 : Int), "", MAX_LEVEL, fw.length) := hm0b
      injection hm0c with e1 hr
      injection hr with e2 hr2
      injection hr2 with e3 e4
      refine ⟨n0.forward_, ?_, by rw [e4, hfwlen]⟩
      congr 1
      cases n0
      simp only at e1 e2 e3
      rw [e1, e2, e3]
  · -- fresh
    intro q hq
    show q < s.next_id + 1
    rcases List.mem_cons.mp hq with rfl | hmem
    · omega
    · rcases List.mem_append.mp hmem with h1 | h2
      · have := hfreshL q (mem_twL_mem h1)
        omega
      · rcases List.mem_cons.mp h2 with rfl | h3
        · omega
        · have := hfreshL q (mem_dwL_mem h3)
          omega
  · -- nodesWF
    intro q hq n hn
    show n.node_level_ ≤ (if s.current_level_ < rl then rl
      else s.current_level_) ∧ _
    have hm := hmeta1 q
    rw [hn, hh0lookup q] at hm
    by_cases hqnid : q = s.next_id
    · rw [if_pos hqnid] at hm
      injection hm with hmb
      have hmc : (n.key_, n.value_, n.node_level_, n.forward_.length) =
        ((Node.new key v rl).key_, (Node.new key v rl).value_,
          (Node.new key v rl).node_level_,
          (Node.new key v rl).forward_.length) := hmb
      injection hmc with f1 fr
      injection fr with f2 fr2
      injection fr2 with f3 f4
      constructor
      · rw [f3]
        show rl ≤ _
        by_cases hcl : s.current_level_ < rl
        · rw [if_pos hcl]
        · rw [if_neg hcl]; omega
      · rw [f4, f3]
        show (List.replicate (rl + 1) (none : Option Nat)).length = rl + 1
        simp
    · rw [if_neg hqnid] at hm
      have hqL : q ∈ L := by
        rcases List.mem_append.mp hq with h1 | h2
        · exact mem_twL_mem h1
        · rcases List.mem_cons.mp h2 with rfl | h3
          · exact absurd rfl hqnid
          · exact mem_dwL_mem h3
      obtain ⟨n0, hn0⟩ : ∃ n0, hLookup s.heap q = some n0 := by
        have := inv.memDom (List.mem_cons_of_mem _ hqL)
        cases hx : hLookup s.heap q with
        | none => rw [hx] at this; simp at this
        | some n0 => exact ⟨n0, rfl⟩
      rw [hn0] at hm
      injection hm with hmb
      have hmc : (n.key_, n.value_, n.node_level_, n.forward_.length) =
        (n0.key_, n0.value_, n0.node_level_, n0.forward_.length) := hmb
      injection hmc with f1 fr
      injection fr with f2 fr2
      injection fr2 with f3 f4
      have hwf0 := inv.nodesWF q hqL n0 hn0
      constructor
      · rw [f3]
        by_cases hcl : s.current_level_ < rl
        · rw [if_pos hcl]
          omega
        · rw [if_neg hcl]
          exact hwf0.1
      · rw [f4, f3]
        exact hwf0.2
  · -- sorted
    haveI : IsTrans Nat (fun a b =>
      keyD ((List.range (rl + 1)).foldl
        (fun h i => spliceStep h s.next_id (upd2.getD i 0) i)
        ((s.next_id, Node.new key v rl) :: s.heap)) a <
      keyD ((List.range (rl + 1)).foldl
        (fun h i => spliceStep h s.next_id (upd2.getD i 0) i)
        ((s.next_id, Node.new key v rl) :: s.heap)) b) :=
      ⟨fun _ _ _ => lt_trans⟩
    rw [List.chain'_iff_pairwise]
    have hpairold := inv.sortedPairwise
    rw [← tw_dw_append s.heap L key] at hpairold
    obtain ⟨hpw_tw, hpw_dw, hpw_cross⟩ := List.pairwise_append.mp hpairold
    refine List.pairwise_append.mpr ⟨?_, ?_, ?_⟩
    · refine hpw_tw.imp_of_mem ?_
      intro a b ha hb hab
      rw [hkeyg a, hkeyg b, if_neg (hfresh_tw a ha), if_neg (hfresh_tw b hb)]
      exact hab
    · refine List.pairwise_cons.mpr ⟨?_, ?_⟩
      · intro b hb
        rw [hkeyg, hkeyg, if_pos rfl, if_neg (hfresh_dw b hb)]
        exact hdw_above b hb
      · refine hpw_dw.imp_of_mem ?_
        intro a b ha hb hab
        rw [hkeyg a, hkeyg b, if_neg (hfresh_dw a ha),
          if_neg (hfresh_dw b hb)]
        exact hab
    · intro a ha b hb
      rcases List.mem_cons.mp hb with rfl | hb2
      · rw [hkeyg a, hkeyg s.next_id, if_neg (hfresh_tw a ha), if_pos rfl]
        exact htw_below a ha
      · rw [hkeyg a, hkeyg b, if_neg (hfresh_tw a ha),
          if_neg (hfresh_dw b hb2)]
        exact hpw_cross a ha b hb2
  · -- count
    show s.element_count_ + 1 = _
    rw [inv.count]
    simp only [List.length_append, List.length_cons]
    omega
  · -- clLe
    show (if s.current_level_ < rl then rl else s.current_level_) ≤ MAX_LEVEL
    by_cases hcl : s.current_level_ < rl
    · rw [if_pos hcl]; exact hrl
    · rw [if_neg hcl]; exact inv.clLe
  · -- clTight
    show (if s.current_level_ < rl then rl else s.current_level_) = 0 ∨ _
    by_cases hcl : s.current_level_ < rl
    · rw [if_pos hcl]
      refine Or.inr ?_
      rw [insert_levelFilter _ s L key s.next_id rl hlev hfresh_tw
        hfresh_dw rl]
      rw [if_pos (le_refl rl)]
      intro hnil
      have := List.append_eq_nil.mp hnil
      have h2 := List.append_eq_nil.mp this.1
      exact List.cons_ne_nil _ _ h2.2
    · rw [if_neg hcl]
      rcases inv.clTight with h0 | hne
      · exact Or.inl h0
      · refine Or.inr ?_
        rw [insert_levelFilter _ s L key s.next_id rl hlev hfresh_tw
          hfresh_dw s.current_level_]
        intro hnil
        have h1 := List.append_eq_nil.mp hnil
        have h2 := List.append_eq_nil.mp h1.1
        refine hne ?_
        have hFsplit : levelFilter s.heap L s.current_level_ =
            levelFilter s.heap (twL s.heap L key) s.current_level_ ++
            levelFilter s.heap (dwL s.heap L key) s.current_level_ := by
          rw [levelFilter, levelFilter, levelFilter, ← List.filter_append,
            tw_dw_append]
        rw [hFsplit, h2.1, h1.2]
        rfl
  · -- abstraction
    show absList ((List.range (rl + 1)).foldl
      (fun h i => spliceStep h s.next_id (upd2.getD i 0) i)
      ((s.next_id, Node.new key v rl) :: s.heap))
      (twL s.heap L key ++ s.next_id :: dwL s.heap L key) = _
    rw [absList, List.map_append, List.map_cons]
    have htwmap : (twL s.heap L key).map (fun q =>
        (keyD ((List.range (rl + 1)).foldl
          (fun h i => spliceStep h s.next_id (upd2.getD i 0) i)
          ((s.next_id, Node.new key v rl) :: s.heap)) q,
         valD ((List.range (rl + 1)).foldl
          (fun h i => spliceStep h s.next_id (upd2.getD i 0) i)
          ((s.next_id, Node.new key v rl) :: s.heap)) q)) =
        (twL s.heap L key).map (fun q => (keyD s.heap q, valD s.heap q)) := by
      refine List.map_congr_left ?_
      intro q hq
      rw [hkeyg q, hvalg q, if_neg (hfresh_tw q hq), if_neg (hfresh_tw q hq)]
    have hdwmap : (dwL s.heap L key).map (fun q =>
        (keyD ((List.range (rl + 1)).foldl
          (fun h i => spliceStep h s.next_id (upd2.getD i 0) i)
          ((s.next_id, Node.new key v rl) :: s.heap)) q,
         valD ((List.range (rl + 1)).foldl
          (fun h i => spliceStep h s.next_id (upd2.getD i 0) i)
          ((s.next_id, Node.new key v rl) :: s.heap)) q)) =
        (dwL s.heap L key).map (fun q => (keyD s.heap q, valD s.heap q)) := by
      refine List.map_congr_left ?_
      intro q hq
      rw [hkeyg q, hvalg q, if_neg (hfresh_dw q hq), if_neg (hfresh_dw q hq)]
    rw [htwmap, hdwmap, hkeyg s.next_id, hvalg s.next_id, if_pos rfl,
      if_pos rfl]
    have hspec : specInsert (absList s.heap L) key v =
        (twL s.heap L key).map (fun q => (keyD s.heap q, valD s.heap q)) ++
        (key, v) :: (dwL s.heap L key).map
          (fun q => (keyD s.heap q, valD s.heap q)) := by
      have habsL : absList s.heap L =
          (twL s.heap L key).map (fun q => (keyD s.heap q, valD s.heap q)) ++
          (dwL s.heap L key).map (fun q => (keyD s.heap q, valD s.heap q)) := by
        rw [absList, ← List.map_append, tw_dw_append]
      rw [habsL]
      refine specInsert_position key v _ _ ?_ ?_
      · intro p hp
        obtain ⟨q, hq, rfl⟩ := List.mem_map.mp hp
        exact htw_below q hq
      · intro p hp
        obtain ⟨q, hq, rfl⟩ := List.mem_map.mp hp
        exact hdw_above q hq
    rw [hspec]

/-- insert_element on an absent key returns true, splices in a fresh node
keeping the invariant, and realizes the map-model insertion. -/
theorem insert_element_fresh {s : SkipState} {L : List Nat}
    (inv : SkipInv s L) {key : Int}
    (hkabs : ∀ q ∈ L, keyD s.heap q ≠ key) (v : String)
    (coins : Nat → Bool) :
    (SkipList.insert_element s key v coins).1 = true ∧
    SkipInv (SkipList.insert_element s key v coins).2
      (twL s.heap L key ++ s.next_id :: dwL s.heap L key) ∧
    absList (SkipList.insert_element s key v coins).2.heap
      (twL s.heap L key ++ s.next_id :: dwL s.heap L key) =
      specInsert (absList s.heap L) key v ∧
    (SkipList.insert_element s key v coins).2.element_count_ =
      s.element_count_ + 1 := by
  have hwd := walkDown_spec inv key s.current_level_ inv.clLe 0 (by simp)
  have h1 : (walkDown s key s.current_level_ 0).1 = predAbs s.heap L key 0 := by
    rw [hwd]
  have h2 : (walkDown s key s.current_level_ 0).2 =
      (List.range (s.current_level_ + 1)).map (predAbs s.heap L key) := by
    rw [hwd]
  have hfw0 : hForward s.heap (predAbs s.heap L key 0) 0 =
      (dwL s.heap L key).head? := by
    have := pred_forward inv key 0 (by simp [MAX_LEVEL])
    rw [levelFilter_zero] at this
    exact this
  have hred : SkipList.insert_element s key v coins =
      (true, SkipList.insertFresh s key v
        ((List.range (s.current_level_ + 1)).map (predAbs s.heap L key))
        coins) := by
    show (match hForward s.heap (walkDown s key s.current_level_ 0).1 0 with
      | some c =>
        match hLookup s.heap c with
        | some n =>
          if n.key_ = key then
            (true, { s with heap := hModify s.heap c (fun m => { m with value_ := v }) })
          else (true, SkipList.insertFresh s key v
            (walkDown s key s.current_level_ 0).2 coins)
        | none => (true, SkipList.insertFresh s key v
            (walkDown s key s.current_level_ 0).2 coins)
      | none => (true, SkipList.insertFresh s key v
          (walkDown s key s.current_level_ 0).2 coins)) = _
    rw [h1, h2, hfw0]
    cases hdw : (dwL s.heap L key).head? with
    | none => rfl
    | some d =>
      have hdmem : d ∈ dwL s.heap L key := by
        cases hd2 : dwL s.heap L key with
        | nil => rw [hd2] at hdw; simp at hdw
        | cons x xt =>
          rw [hd2] at hdw
          injection hdw with hx
          rw [hx]
          simp
      have hdL : d ∈ L := mem_dwL_mem hdmem
      have hddom := inv.memDom (List.mem_cons_of_mem _ hdL)
      obtain ⟨nd, hnd⟩ : ∃ nd, hLookup s.heap d = some nd := by
        cases hq : hLookup s.heap d with
        | none => rw [hq] at hddom; simp at hddom
        | some nd => exact ⟨nd, rfl⟩
      have hndkey : nd.key_ ≠ key := by
        have h3 : keyD s.heap d = nd.key_ := by unfold keyD; rw [hnd]
        have := hkabs d hdL
        omega
      show (match hLookup s.heap d with
        | some n =>
          if n.key_ = key then
            (true, { s with heap := hModify s.heap d (fun m => { m with value_ := v }) })
          else (true, SkipList.insertFresh s key v
            ((List.range (s.current_level_ + 1)).map (predAbs s.heap L key))
            coins)
        | none => (true, SkipList.insertFresh s key v
            ((List.range (s.current_level_ + 1)).map (predAbs s.heap L key))
            coins)) = _
      rw [hnd]
      show (if nd.key_ = key then _ else _) = _
      rw [if_neg hndkey]
  obtain ⟨hinv2, habs2, hcount2⟩ := insertFresh_spec inv hkabs v coins
  rw [hred]
  exact ⟨rfl, hinv2, habs2, hcount2⟩

/-- The freshly constructed list carries the invariant with no data nodes. -/
theorem new_inv : SkipInv SkipList.new [] := by
  refine ⟨?_, ?_, ?_, ?_, ?_, ?_, ?_, ?_, rfl, ?_, Or.inl rfl⟩
  · show ([(0, Node.new 0 "" MAX_LEVEL)].map Prod.fst).Nodup
    simp
  · intro q
    show (if q = 0 then some (Node.new 0 "" MAX_LEVEL) else hLookup [] q).isSome
      = true ↔ q ∈ [0]
    by_cases hq : q = 0
    · rw [if_pos hq]
      simp [hq]
    · rw [if_neg hq]
      simp [hq, hLookup]
  · simp
  · exact ⟨List.replicate (MAX_LEVEL + 1) none, rfl, by simp⟩
  · intro q hq
    have : q = 0 := by simpa using hq
    rw [this]
    show 0 < 1
    omega
  · intro q hq
    simp at hq
  · exact List.chain'_nil
  · intro i hi
    show hForward SkipList.new.heap 0 i = none
    show (List.replicate (MAX_LEVEL + 1) (none : Option Nat)).getD i none = none
    exact getD_replicate_none _ _
  · show (0 : Nat) ≤ MAX_LEVEL
    simp [MAX_LEVEL]

/-- The freeing loop of clear only removes heap entries. -/
theorem clearLoop_keys_sublist : ∀ (fuel : Nat) (h : Heap) (o : Option Nat),
    ((clearLoop h fuel o).map Prod.fst).Sublist (h.map Prod.fst) := by
  intro fuel
  induction fuel with
  | zero =>
    intro h o
    cases o with
    | none => exact List.Sublist.refl _
    | some q => exact List.Sublist.refl _
  | succ f ih =>
    intro h o
    cases o with
    | none => exact List.Sublist.refl _
    | some q =>
      show ((clearLoop (hErase h q) f (hForward h q 0)).map Prod.fst).Sublist _
      refine (ih (hErase h q) (hForward h q 0)).trans ?_
      rw [keys_hErase]
      exact List.filter_sublist _

/-- The freeing loop of clear removes exactly the ids of the level-0 chain it
was started on, when the fuel covers the chain. -/
theorem clearLoop_lookup : ∀ (M : List Nat) (fuel : Nat) (h : Heap)
    (o : Option Nat), M.Nodup →
    (M = [] → o = none) →
    (∀ q rest, M = q :: rest → o = some q ∧ chainSeg h 0 q rest none) →
    M.length ≤ fuel →
    ∀ r, hLookup (clearLoop h fuel o) r = if r ∈ M then none else hLookup h r := by
  intro M
  induction M with
  | nil =>
    intro fuel h o _ hnil _ _ r
    rw [hnil rfl, if_neg (by simp)]
    cases fuel with
    | zero => rfl
    | succ f => rfl
  | cons q rest ih =>
    intro fuel h o hnodup _ hcons hlen r
    obtain ⟨hoq, hchain⟩ := hcons q rest rfl
    cases fuel with
    | zero => simp at hlen
    | succ f =>
      rw [hoq]
      show hLookup (clearLoop (hErase h q) f (hForward h q 0)) r = _
      have hqrest : q ∉ rest := (List.nodup_cons.mp hnodup).1
      have hrestnd : rest.Nodup := (List.nodup_cons.mp hnodup).2
      have hnil2 : rest = [] → hForward h q 0 = none := by
        intro he
        rw [he] at hchain
        exact hchain
      have hcons2 : ∀ q' rest', rest = q' :: rest' →
          hForward h q 0 = some q' ∧
          chainSeg (hErase h q) 0 q' rest' none := by
        intro q' rest' he
        rw [he] at hchain
        refine ⟨hchain.1, ?_⟩
        refine chainSeg_congr h (hErase h q) 0 q' rest' none ?_ hchain.2
        intro p hp
        rw [hForward_hErase]
        have hpq : p ≠ q := by
          intro hpe
          rw [he] at hqrest
          exact hqrest (hpe ▸ hp)
        rw [if_neg hpq]
      have hlen2 : rest.length ≤ f := by
        simp at hlen
        omega
      rw [ih f (hErase h q) (hForward h q 0) hrestnd hnil2 hcons2 hlen2 r]
      rw [hLookup_hErase]
      by_cases hr : r ∈ rest
      · rw [if_pos hr, if_pos (List.mem_cons_of_mem _ hr)]
      · rw [if_neg hr]
        by_cases hrq : r = q
        · rw [if_pos hrq, if_pos (by rw [hrq]; simp)]
        · rw [if_neg hrq, if_neg (by simp [hrq, hr])]

/-- clear frees every data node and keeps a well-formed empty list: the heap
retains only the header, with every successor slot nulled. -/
theorem clear_spec {s : SkipState} {L : List Nat} (inv : SkipInv s L) :
    SkipInv (SkipList.clear s) [] := by
  obtain ⟨fw, hfw0, hfwlen⟩ := inv.headerNode
  have hchainL : chainSeg s.heap 0 0 L none := by
    have := inv.links 0 (by simp [MAX_LEVEL])
    rwa [levelFilter_zero] at this
  have hnilL : L = [] → hForward s.heap 0 0 = none := by
    intro he
    rw [he] at hchainL
    exact hchainL
  have hconsL : ∀ q rest, L = q :: rest → hForward s.heap 0 0 = some q ∧
      chainSeg s.heap 0 q rest none := by
    intro q rest he
    rw [he] at hchainL
    exact hchainL
  have hlen : L.length ≤ s.heap.length := by
    rw [inv.heapLen]
    omega
  have hlook1 : ∀ r, hLookup (clearLoop s.heap s.heap.length
      (hForward s.heap 0 0)) r = if r ∈ L then none else hLookup s.heap r :=
    clearLoop_lookup L s.heap.length s.heap (hForward s.heap 0 0)
      inv.nodupL hnilL hconsL hlen
  have hlook10 : hLookup (clearLoop s.heap s.heap.length
      (hForward s.heap 0 0)) 0 = some ⟨0, "", MAX_LEVEL, fw⟩ := by
    rw [hlook1 0, if_neg inv.headerZero, hfw0]
  have hlook2 : ∀ r, hLookup (SkipList.clear s).heap r =
      if r = 0 then some ⟨0, "", MAX_LEVEL,
        List.replicate fw.length (none : Option Nat)⟩
      else if r ∈ L then none else hLookup s.heap r := by
    intro r
    show hLookup (hModify (clearLoop s.heap s.heap.length
      (hForward s.heap 0 0)) 0
      (fun n => { n with forward_ := List.replicate n.forward_.length none }))
      r = _
    rw [hLookup_hModify]
    by_cases hr : r = 0
    · rw [if_pos hr, if_pos hr, hlook10]
      rfl
    · rw [if_neg hr, if_neg hr, hlook1 r]
  refine ⟨?_, ?_, ?_, ?_, ?_, ?_, ?_, ?_, rfl, ?_, Or.inl rfl⟩
  · show ((hModify (clearLoop s.heap s.heap.length
      (hForward s.heap 0 0)) 0
      (fun n => { n with forward_ := List.replicate n.forward_.length none })).map
      Prod.fst).Nodup
    rw [keys_hModify]
    exact inv.keysNodup.sublist (clearLoop_keys_sublist _ _ _)
  · intro q
    rw [hlook2 q]
    by_cases hq : q = 0
    · rw [if_pos hq]
      simp [hq]
    · rw [if_neg hq]
      by_cases hqL : q ∈ L
      · rw [if_pos hqL]
        simp only [Option.isSome_none]
        constructor
        · intro hx
          exact absurd hx (by simp)
        · intro hx
          simp at hx
          exact absurd hx hq
      · rw [if_neg hqL]
        rw [inv.dom q]
        constructor
        · intro hx
          rcases List.mem_cons.mp hx with rfl | hxx
          · simp
          · exact absurd hxx hqL
        · intro hx
          simp at hx
          exact absurd hx hq
  · simp
  · refine ⟨List.replicate fw.length none, ?_, by simp [hfwlen]⟩
    rw [hlook2 0, if_pos rfl]
  · intro q hq
    have hq0 : q = 0 := by simpa using hq
    rw [hq0]
    show 0 < s.next_id
    exact inv.fresh 0 (by simp)
  · intro q hq
    simp at hq
  · exact List.chain'_nil
  · intro i hi
    show hForward (SkipList.clear s).heap 0 i = none
    unfold hForward
    rw [hlook2 0, if_pos rfl]
    exact getD_replicate_none _ _
  · show (0 : Nat) ≤ MAX_LEVEL
    simp [MAX_LEVEL]

/-- Deleting a key absent from the association list changes nothing. -/
theorem specDelete_absent {h : Heap} {L : List Nat} {k : Int}
    (habs : ∀ q ∈ L, keyD h q ≠ k) :
    specDelete (absList h L) k = absList h L := by
  rw [specDelete]
  refine List.filter_eq_self.mpr ?_
  intro p hp
  obtain ⟨q, hq, rfl⟩ := List.mem_map.mp hp
  simp only [decide_eq_true_eq]
  exact habs q hq

/-- One call preserves well-formedness and acts on the abstraction as the
reference model does. -/
theorem applyOp_step {s : SkipState} {L : List Nat} (inv : SkipInv s L)
    (op : Op) : ∃ L', SkipInv (applyOp s op) L' ∧
    absList (applyOp s op).heap L' =
      (match op with
       | .ins k v _ => specInsert (absList s.heap L) k v
       | .del k => specDelete (absList s.heap L) k
       | .clr => []) := by
  cases op with
  | ins k v c =>
    show ∃ L', SkipInv (SkipList.insert_element s k v c).2 L' ∧
      absList (SkipList.insert_element s k v c).2.heap L' =
        specInsert (absList s.heap L) k v
    by_cases hex : ∃ q ∈ L, keyD s.heap q = k
    · obtain ⟨q, hq, hkey⟩ := hex
      have hhead := key_at_dw_head inv k q hq hkey
      cases hdw : dwL s.heap L k with
      | nil => rw [hdw] at hhead; simp at hhead
      | cons d dt =>
        rw [hdw] at hhead
        have hdq : d = q := by
          injection hhead
        obtain ⟨heq, hinv2, habs2⟩ :=
          insert_element_existing inv hdw (hdq ▸ hkey) v c
        have hst : (SkipList.insert_element s k v c).2 =
            { s with heap := hModify s.heap d (fun m => { m with value_ := v }) } := by
          rw [heq]
        rw [hst]
        exact ⟨L, hinv2, habs2⟩
    · have habs : ∀ q ∈ L, keyD s.heap q ≠ k := by
        intro q hq he
        exact hex ⟨q, hq, he⟩
      obtain ⟨_, hinv2, habs2, _⟩ := insert_element_fresh inv habs v c
      exact ⟨_, hinv2, habs2⟩
  | del k =>
    show ∃ L', SkipInv (SkipList.delete_element s k).2 L' ∧
      absList (SkipList.delete_element s k).2.heap L' =
        specDelete (absList s.heap L) k
    by_cases hex : ∃ q ∈ L, keyD s.heap q = k
    · obtain ⟨q, hq, hkey⟩ := hex
      have hhead := key_at_dw_head inv k q hq hkey
      cases hdw : dwL s.heap L k with
      | nil => rw [hdw] at hhead; simp at hhead
      | cons d dt =>
        rw [hdw] at hhead
        have hdq : d = q := by
          injection hhead
        obtain ⟨_, hinv2, habs2⟩ :=
          delete_element_present inv hdw (hdq ▸ hkey)
        exact ⟨_, hinv2, habs2⟩
    · have habs : ∀ q ∈ L, keyD s.heap q ≠ k := by
        intro q hq he
        exact hex ⟨q, hq, he⟩
      have heq := delete_element_absent inv k habs
      have hst : (SkipList.delete_element s k).2 = s := by
        rw [heq]
      rw [hst, specDelete_absent habs]
      exact ⟨L, inv, rfl⟩
  | clr =>
    exact ⟨[], clear_spec inv, rfl⟩

/-- Folding any sequence of calls keeps well-formedness and tracks the
reference model from any well-formed starting point. -/
theorem applyOps_fold_spec : ∀ (ops : List Op) (s : SkipState) (L : List Nat),
    SkipInv s L →
    ∃ L', SkipInv (ops.foldl applyOp s) L' ∧
      absList (ops.foldl applyOp s).heap L' =
      ops.foldl (fun m op =>
        match op with
        | .ins k v _ => specInsert m k v
        | .del k => specDelete m k
        | .clr => []) (absList s.heap L) := by
  intro ops
  induction ops with
  | nil =>
    intro s L inv
    exact ⟨L, inv, rfl⟩
  | cons op rest ih =>
    intro s L inv
    obtain ⟨L1, hinv1, habs1⟩ := applyOp_step inv op
    obtain ⟨L2, hinv2, habs2⟩ := ih (applyOp s op) L1 hinv1
    refine ⟨L2, hinv2, ?_⟩
    rw [List.foldl_cons, List.foldl_cons, habs2, habs1]

/-- Every state reachable from the fresh list by a call sequence is
well-formed and abstracts to the reference model of the sequence. -/
theorem reachable_spec (ops : List Op) :
    ∃ L, SkipInv (applyOps ops) L ∧
      absList (applyOps ops).heap L = specModel ops := by
  obtain ⟨L, hinv, habs⟩ := applyOps_fold_spec ops SkipList.new [] new_inv
  exact ⟨L, hinv, habs⟩

/-- Traversal of a well-formed list delivers exactly the abstraction. -/
theorem process_all_spec {s : SkipState} {L : List Nat} (inv : SkipInv s L) :
    SkipList.process_all s = absList s.heap L := by
  have hchain : chainSeg s.heap 0 0 L none := by
    have := inv.links 0 (by simp [MAX_LEVEL])
    rwa [levelFilter_zero] at this
  have hdom : ∀ q ∈ L, (hLookup s.heap q).isSome = true :=
    fun q hq => inv.memDom (List.mem_cons_of_mem _ hq)
  have hfuel : L.length ≤ s.heap.length := by
    rw [inv.heapLen]
    omega
  exact processLoop_of_chainSeg s.heap 0 L hchain hdom s.heap.length hfuel

/-- The ids readable from the header at level i are exactly the level-i
population. -/
theorem levelChain_spec {s : SkipState} {L : List Nat} (inv : SkipInv s L)
    (i : Nat) (hi : i ≤ MAX_LEVEL) :
    levelChain s.heap i = levelFilter s.heap L i := by
  have hfuel : (levelFilter s.heap L i).length ≤ s.heap.length := by
    have h1 := levelFilter_length_le s.heap L i
    rw [inv.heapLen]
    omega
  exact chainIds_of_chainSeg s.heap i 0 _ (inv.links i hi) s.heap.length hfuel

/-- On a well-formed list the header's successor at the current level is
populated whenever any element is. -/
theorem header_top_nonempty {s : SkipState} {L : List Nat} (inv : SkipInv s L)
    (hne : s.element_count_ ≠ 0) :
    hForward s.heap 0 s.current_level_ ≠ none := by
  have hLne : L ≠ [] := by
    intro he
    rw [inv.count, he] at hne
    exact hne rfl
  have hFne : levelFilter s.heap L s.current_level_ ≠ [] := by
    rcases inv.clTight with h0 | h
    · rw [h0, levelFilter_zero]
      exact hLne
    · exact h
  have hchain := inv.links s.current_level_ inv.clLe
  cases hF : levelFilter s.heap L s.current_level_ with
  | nil => exact absurd hF hFne
  | cons q rest =>
    rw [hF] at hchain
    rw [hchain.1]
    simp

/-- The character of one decimal digit: its classification and code. -/
theorem digitChar_facts (d : Nat) (hd : d < 10) :
    (Char.ofNat (48 + d)).isDigit = true ∧
    (Char.ofNat (48 + d)).toNat = 48 + d ∧
    (Char.ofNat (48 + d)).isWhitespace = false ∧
    Char.ofNat (48 + d) ≠ '\n' ∧ Char.ofNat (48 + d) ≠ ':' ∧
    Char.ofNat (48 + d) ≠ '-' ∧ Char.ofNat (48 + d) ≠ '+' := by
  interval_cases d <;> exact ⟨rfl, rfl, rfl, by decide, by decide, by decide,
    by decide⟩

theorem natToDigits_all_digits : ∀ n, ∀ c ∈ natToDigits n, c.isDigit = true := by
  intro n
  induction n using Nat.strong_induction_on with
  | _ n ih =>
    intro c hc
    rw [natToDigits] at hc
    by_cases h : n < 10
    · rw [dif_pos h] at hc
      have hce : c = Char.ofNat (48 + n) := by simpa using hc
      rw [hce]
      exact (digitChar_facts n h).1
    · rw [dif_neg h] at hc
      rcases List.mem_append.mp hc with h1 | h2
      · exact ih (n / 10) (Nat.div_lt_self (by omega) (by omega)) c h1
      · have hce : c = Char.ofNat (48 + n % 10) := by simpa using h2
        rw [hce]
        exact (digitChar_facts (n % 10) (Nat.mod_lt _ (by omega))).1

theorem natToDigits_ne_nil (n : Nat) : natToDigits n ≠ [] := by
  rw [natToDigits]
  by_cases h : n < 10
  · rw [dif_pos h]
    simp
  · rw [dif_neg h]
    simp

theorem parseDigits_append (xs : List Char) (hx : ∀ c ∈ xs, c.isDigit = true) :
    ∀ (ys : List Char) (acc : Nat),
      parseDigits acc (xs ++ ys) = parseDigits (parseDigits acc xs) ys := by
  induction xs with
  | nil => intro ys acc; rfl
  | cons c ct ih =>
    intro ys acc
    rw [List.cons_append]
    show (if c.isDigit then parseDigits (acc * 10 + (c.toNat - 48)) (ct ++ ys)
      else acc) = _
    rw [if_pos (hx c (by simp))]
    rw [ih (fun a ha => hx a (by simp [ha])) ys]
    congr 1
    show _ = (if c.isDigit then parseDigits (acc * 10 + (c.toNat - 48)) ct
      else acc)
    rw [if_pos (hx c (by simp))]

theorem parseDigits_natToDigits : ∀ n acc,
    parseDigits acc (natToDigits n) =
      acc * 10 ^ (natToDigits n).length + n := by
  intro n
  induction n using Nat.strong_induction_on with
  | _ n ih =>
    intro acc
    rw [natToDigits]
    by_cases h : n < 10
    · rw [dif_pos h]
      show (if (Char.ofNat (48 + n)).isDigit then
        parseDigits (acc * 10 + ((Char.ofNat (48 + n)).toNat - 48)) []
        else acc) = _
      obtain ⟨h1, h2, _⟩ := digitChar_facts n h
      rw [if_pos h1, h2]
      show acc * 10 + (48 + n - 48) = acc * 10 ^ [Char.ofNat (48 + n)].length + n
      simp
    · rw [dif_neg h]
      rw [parseDigits_append _ (natToDigits_all_digits (n / 10))]
      rw [ih (n / 10) (Nat.div_lt_self (by omega) (by omega))]
      obtain ⟨h1, h2, _⟩ := digitChar_facts (n % 10) (Nat.mod_lt _ (by omega))
      show (if (Char.ofNat (48 + n % 10)).isDigit then
        parseDigits ((acc * 10 ^ (natToDigits (n / 10)).length + n / 10) * 10 +
          ((Char.ofNat (48 + n % 10)).toNat - 48)) []
        else _) = _
      rw [if_pos h1, h2]
      show (acc * 10 ^ (natToDigits (n / 10)).length + n / 10) * 10 +
          (48 + n % 10 - 48) =
        acc * 10 ^ ((natToDigits (n / 10)) ++ [Char.ofNat (48 + n % 10)]).length + n
      rw [List.length_append, List.length_cons, List.length_nil]
      rw [pow_succ]
      have hmod := Nat.div_add_mod n 10
      ring_nf
      omega

theorem natToDigits_head_digit (n : Nat) :
    ∃ c cs, natToDigits n = c :: cs ∧ c.isDigit = true := by
  cases he : natToDigits n with
  | nil => exact absurd he (natToDigits_ne_nil n)
  | cons c cs =>
    exact ⟨c, cs, rfl, natToDigits_all_digits n c (by rw [he]; simp)⟩

theorem digit_not_special {c : Char} (hc : c.isDigit = true) :
    c ≠ '-' ∧ c ≠ '+' ∧ c ≠ ':' ∧ c ≠ '\n' := by
  refine ⟨?_, ?_, ?_, ?_⟩ <;>
    · intro he
      rw [he] at hc
      exact absurd hc (by decide)

theorem digit_not_whitespace {c : Char} (hc : c.isDigit = true) :
    c.isWhitespace = false := by
  cases hx : c.isWhitespace
  · rfl
  · exfalso
    have hx2 : c = ' ' ∨ c = '\t' ∨ c = '\x0d' ∨ c = '\n' := by
      simpa [Char.isWhitespace, or_assoc] using hx
    rcases hx2 with h1 | h1 | h1 | h1 <;>
      · rw [h1] at hc
        exact absurd hc (by decide)

theorem parseDigits_zero_natToDigits (n : Nat) :
    parseDigits 0 (natToDigits n) = n := by
  rw [parseDigits_natToDigits]
  simp

theorem parseIntCpp_natToDigits (n : Nat) :
    parseIntCpp (natToDigits n) = (n : Int) := by
  obtain ⟨c, cs, he, hc⟩ := natToDigits_head_digit n
  have hnw := digit_not_whitespace hc
  obtain ⟨hm, hp, _, _⟩ := digit_not_special hc
  simp only [parseIntCpp]
  rw [he, List.dropWhile_cons, if_neg (by simp [hnw])]
  split
  · rename_i rest heq
    injection heq with h1 h2
    exact absurd h1 hm
  · rename_i rest heq
    injection heq with h1 h2
    exact absurd h1 hp
  · rw [← he, parseDigits_zero_natToDigits]

theorem parseIntCpp_intDecimal (k : Int) : parseIntCpp (intDecimal k) = k := by
  rw [intDecimal]
  by_cases hk : k < 0
  · rw [if_pos hk]
    simp only [parseIntCpp]
    rw [List.dropWhile_cons, if_neg (by decide)]
    split
    · rename_i rest heq
      injection heq with h1 h2
      rw [← h2, parseDigits_zero_natToDigits]
      omega
    · rename_i rest heq
      injection heq with h1 h2
      exact absurd h1.symm (by decide)
    · rename_i hne1 hne2
      exact absurd (hne1 (natToDigits (-k).toNat) rfl) (by simp)
  · rw [if_neg hk]
    rw [parseIntCpp_natToDigits]
    omega

theorem intDecimal_no_colon (k : Int) : ':' ∉ intDecimal k := by
  intro hmem
  rw [intDecimal] at hmem
  by_cases hk : k < 0
  · rw [if_pos hk] at hmem
    rcases List.mem_cons.mp hmem with h1 | h2
    · exact absurd h1 (by decide)
    · have := natToDigits_all_digits _ _ h2
      exact absurd this (by decide)
  · rw [if_neg hk] at hmem
    have := natToDigits_all_digits _ _ hmem
    exact absurd this (by decide)

theorem intDecimal_no_newline (k : Int) : '\n' ∉ intDecimal k := by
  intro hmem
  rw [intDecimal] at hmem
  by_cases hk : k < 0
  · rw [if_pos hk] at hmem
    rcases List.mem_cons.mp hmem with h1 | h2
    · exact absurd h1 (by decide)
    · have := natToDigits_all_digits _ _ h2
      exact absurd this (by decide)
  · rw [if_neg hk] at hmem
    have := natToDigits_all_digits _ _ hmem
    exact absurd this (by decide)

theorem splitFirstColon_append (xs ys : List Char) (hx : ':' ∉ xs) :
    splitFirstColon (xs ++ ':' :: ys) = some (xs, ys) := by
  induction xs with
  | nil =>
    show (if ':' = ':' then some ([], ys)
      else (splitFirstColon ys).map (fun p => (':' :: p.1, p.2))) = _
    rw [if_pos rfl]
  | cons c ct ih =>
    have hc : c ≠ ':' := by
      intro he
      exact hx (by rw [he]; simp)
    show (if c = ':' then some ([], ct ++ ':' :: ys)
      else (splitFirstColon (ct ++ ':' :: ys)).map
        (fun p => (c :: p.1, p.2))) = _
    rw [if_neg hc, ih (fun h => hx (List.mem_cons_of_mem _ h))]
    rfl

theorem takeWhile_no_newline (xs rest : List Char) (hx : '\n' ∉ xs) :
    (xs ++ '\n' :: rest).takeWhile (fun d => d ≠ '\n') = xs ∧
    (xs ++ '\n' :: rest).dropWhile (fun d => d ≠ '\n') = '\n' :: rest := by
  induction xs with
  | nil =>
    constructor
    · rw [List.nil_append, List.takeWhile_cons, if_neg (by simp)]
    · rw [List.nil_append, List.dropWhile_cons, if_neg (by simp)]
  | cons c ct ih =>
    have hc : c ≠ '\n' := fun he => hx (by rw [he]; simp)
    obtain ⟨ih1, ih2⟩ := ih (fun h => hx (List.mem_cons_of_mem _ h))
    constructor
    · rw [List.cons_append, List.takeWhile_cons, if_pos (by simp [hc]), ih1]
    · rw [List.cons_append, List.dropWhile_cons, if_pos (by simp [hc]), ih2]

theorem getlineSplit_line (xs rest : List Char) (hx : '\n' ∉ xs) :
    getlineSplit (xs ++ '\n' :: rest) = xs :: getlineSplit rest := by
  obtain ⟨h1, h2⟩ := takeWhile_no_newline xs rest hx
  obtain ⟨c, cs, hccs⟩ : ∃ c cs, xs ++ '\n' :: rest = c :: cs := by
    cases xs with
    | nil => exact ⟨'\n', rest, rfl⟩
    | cons a t => exact ⟨a, t ++ '\n' :: rest, rfl⟩
  rw [hccs, getlineSplit, ← hccs, h1, h2, List.drop_succ_cons, List.drop_zero]

/-- Splitting the dump stream recovers exactly the written lines when no
value contains a newline. -/
theorem getlineSplit_dump_stream (ps : List (Int × String))
    (hnl : ∀ p ∈ ps, '\n' ∉ p.2.data) :
    getlineSplit (ps.foldr
      (fun p acc => intDecimal p.1 ++ ':' :: p.2.data ++ '\n' :: acc) []) =
    ps.map (fun p => intDecimal p.1 ++ ':' :: p.2.data) := by
  induction ps with
  | nil => simp [getlineSplit]
  | cons p pt ih =>
    rw [List.foldr_cons, List.map_cons]
    have hline : '\n' ∉ intDecimal p.1 ++ ':' :: p.2.data := by
      intro hmem
      rcases List.mem_append.mp hmem with h1 | h2
      · exact intDecimal_no_newline p.1 h1
      · rcases List.mem_cons.mp h2 with h3 | h4
        · exact absurd h3 (by decide)
        · exact hnl p (by simp) h4
    have hassoc : intDecimal p.1 ++ ':' :: p.2.data ++ '\n' ::
        pt.foldr (fun p acc =>
          intDecimal p.1 ++ ':' :: p.2.data ++ '\n' :: acc) [] =
        (intDecimal p.1 ++ ':' :: p.2.data) ++ '\n' ::
        pt.foldr (fun p acc =>
          intDecimal p.1 ++ ':' :: p.2.data ++ '\n' :: acc) [] := by
      rw [List.append_assoc]
    rw [hassoc, getlineSplit_line _ _ hline,
      ih (fun q hq => hnl q (List.mem_cons_of_mem _ hq))]

/-- One line of the dump stream loads as the insert of its pair. -/
theorem loadLine_pair (s : SkipState) (k : Int) (v : String)
    (c : Nat → Bool) :
    KVStore.loadLine s (intDecimal k ++ ':' :: v.data) c =
      applyOp s (.ins k v c) := by
  rw [KVStore.loadLine, splitFirstColon_append _ _ (intDecimal_no_colon k)]
  show (SkipList.insert_element s (parseIntCpp (intDecimal k))
    (String.mk v.data) c).2 = _
  rw [parseIntCpp_intDecimal]
  rfl

/-- Loading the lines of dumped pairs folds the reference insertion over
them, preserving well-formedness. -/
theorem loadLines_model : ∀ (ps : List (Int × String)) (s : SkipState)
    (L : List Nat) (coinss : Nat → Nat → Bool) (n : Nat), SkipInv s L →
    ∃ L', SkipInv (KVStore.loadLines
        (ps.map (fun p => intDecimal p.1 ++ ':' :: p.2.data)) s coinss n) L' ∧
      absList (KVStore.loadLines
        (ps.map (fun p => intDecimal p.1 ++ ':' :: p.2.data)) s coinss n).heap
        L' =
      ps.foldl (fun m p => specInsert m p.1 p.2) (absList s.heap L) := by
  intro ps
  induction ps with
  | nil =>
    intro s L coinss n inv
    exact ⟨L, inv, rfl⟩
  | cons p pt ih =>
    intro s L coinss n inv
    rw [List.map_cons]
    have hunf : KVStore.loadLines ((intDecimal p.1 ++ ':' :: p.2.data) ::
        pt.map (fun p => intDecimal p.1 ++ ':' :: p.2.data)) s coinss n =
        KVStore.loadLines
          (pt.map (fun p => intDecimal p.1 ++ ':' :: p.2.data))
          (applyOp s (.ins p.1 p.2 (coinss n))) coinss (n + 1) := by
      rw [← loadLine_pair]
      rfl
    obtain ⟨L1, hinv1, habs1⟩ := applyOp_step inv (.ins p.1 p.2 (coinss n))
    have habs1b : absList (applyOp s (.ins p.1 p.2 (coinss n))).heap L1 =
        specInsert (absList s.heap L) p.1 p.2 := habs1
    obtain ⟨L', hinv', habs'⟩ := ih (applyOp s (.ins p.1 p.2 (coinss n))) L1
      coinss (n + 1) hinv1
    rw [hunf]
    refine ⟨L', hinv', ?_⟩
    rw [habs', habs1b, List.foldl_cons]

theorem specInsert_append_last : ∀ (m : List (Int × String)) (k : Int)
    (v : String), (∀ p ∈ m, p.1 < k) → specInsert m k v = m ++ [(k, v)] := by
  intro m
  induction m with
  | nil => intro k v _; rfl
  | cons q mt ih =>
    intro k v hlt
    have hq := hlt q (by simp)
    show (if k < q.1 then (k, v) :: (q.1, q.2) :: mt
      else if k = q.1 then (k, v) :: mt
      else (q.1, q.2) :: specInsert mt k v) = _
    rw [if_neg (by omega), if_neg (by omega),
      ih k v (fun p hp => hlt p (by simp [hp]))]
    rfl

theorem foldl_specInsert_sorted : ∀ (ps m : List (Int × String)),
    (m ++ ps).Pairwise (fun a b => a.1 < b.1) →
    ps.foldl (fun acc p => specInsert acc p.1 p.2) m = m ++ ps := by
  intro ps
  induction ps with
  | nil =>
    intro m _
    rw [List.foldl_nil, List.append_nil]
  | cons p pt ih =>
    intro m hpair
    rw [List.foldl_cons]
    have hmlt : ∀ q ∈ m, q.1 < p.1 := by
      intro q hq
      have := (List.pairwise_append.mp hpair).2.2 q hq p (by simp)
      exact this
    have hstep : specInsert m p.1 p.2 = m ++ [(p.1, p.2)] :=
      specInsert_append_last m p.1 p.2 hmlt
    have hp2 : (p.1, p.2) = p := rfl
    rw [hstep, hp2, ih (m ++ [p]) (by rwa [List.append_assoc,
      List.singleton_append]), List.append_assoc, List.singleton_append]

/-- The abstraction is key-sorted. -/
theorem absList_pairwise {s : SkipState} {L : List Nat} (inv : SkipInv s L) :
    (absList s.heap L).Pairwise (fun a b => a.1 < b.1) := by
  rw [absList]
  exact List.Pairwise.map _ (fun {a b} h => h) inv.sortedPairwise

/-- Round trip on newline-free values: dump and load reproduce the exact
traversal, hence the (key, value) set and its ascending order. -/
theorem dump_load_roundtrip {s : SkipState} {L : List Nat} (inv : SkipInv s L)
    (hnl : ∀ p ∈ SkipList.process_all s, '\n' ∉ p.2.data)
    (coinss : Nat → Nat → Bool) :
    ∃ L', SkipInv (KVStore.load (some (dumpContent s)) SkipList.new coinss) L' ∧
      SkipList.process_all
        (KVStore.load (some (dumpContent s)) SkipList.new coinss) =
      SkipList.process_all s := by
  have hps := process_all_spec inv
  have hnl2 : ∀ p ∈ absList s.heap L, '\n' ∉ p.2.data := by
    rw [← hps]
    exact hnl
  have hcontent : dumpContent s = (absList s.heap L).foldr
      (fun p acc => intDecimal p.1 ++ ':' :: p.2.data ++ '\n' :: acc) [] := by
    rw [dumpContent, hps]
  have hsplit : getlineSplit (dumpContent s) =
      (absList s.heap L).map (fun p => intDecimal p.1 ++ ':' :: p.2.data) := by
    rw [hcontent]
    exact getlineSplit_dump_stream _ hnl2
  have hload : KVStore.load (some (dumpContent s)) SkipList.new coinss =
      KVStore.loadLines ((absList s.heap L).map
        (fun p => intDecimal p.1 ++ ':' :: p.2.data)) SkipList.new coinss 0 := by
    rw [KVStore.load, hsplit]
  obtain ⟨L', hinv', habs'⟩ := loadLines_model (absList s.heap L)
    SkipList.new [] coinss 0 new_inv
  rw [hload]
  refine ⟨L', hinv', ?_⟩
  rw [process_all_spec hinv', habs', hps]
  show (absList s.heap L).foldl (fun m p => specInsert m p.1 p.2)
    (absList SkipList.new.heap []) = _
  exact foldl_specInsert_sorted _ [] (by simpa using absList_pairwise inv)

/-- Key membership in the traversal, through the invariant. -/
theorem mem_processAll_key {s : SkipState} {L : List Nat} (inv : SkipInv s L)
    {k : Int} :
    k ∈ (SkipList.process_all s).map Prod.fst ↔
      ∃ q ∈ L, keyD s.heap q = k := by
  rw [process_all_spec inv, absList, List.map_map]
  constructor
  · intro h
    obtain ⟨q, hq, he⟩ := List.mem_map.mp h
    exact ⟨q, hq, he⟩
  · intro h
    obtain ⟨q, hq, he⟩ := h
    exact List.mem_map.mpr ⟨q, hq, he⟩

theorem lookupKey_specInsert : ∀ (m : List (Int × String)) (k : Int)
    (v : String), lookupKey (specInsert m k v) k = some v := by
  intro m
  induction m with
  | nil =>
    intro k v
    show (if k = k then some v else lookupKey [] k) = some v
    rw [if_pos rfl]
  | cons q mt ih =>
    intro k v
    show lookupKey (if k < q.1 then (k, v) :: (q.1, q.2) :: mt
      else if k = q.1 then (k, v) :: mt
      else (q.1, q.2) :: specInsert mt k v) k = some v
    by_cases h1 : k < q.1
    · rw [if_pos h1]
      show (if k = k then some v else _) = some v
      rw [if_pos rfl]
    · rw [if_neg h1]
      by_cases h2 : k = q.1
      · rw [if_pos h2]
        show (if k = k then some v else _) = some v
        rw [if_pos rfl]
      · rw [if_neg h2]
        show (if k = q.1 then some q.2 else lookupKey (specInsert mt k v) k) =
          some v
        rw [if_neg h2, ih]

/-- C1: after any sequence of insert and delete calls on a fresh list,
search_element finds exactly the keys of the reference model — the keys
inserted and not subsequently deleted — and returns for each the value of
its most recent insert; on other keys it reports false. -/
theorem C1_search_matches_model (ops : List Op)
    (hnc : ∀ op ∈ ops, op.isClear = false) (k : Int) (v0 : String) :
    SkipList.search_element (applyOps ops) k v0 =
      match lookupKey (specModel ops) k with
      | some v => (true, v)
      | none => (false, v0) := by
  obtain ⟨L, inv, habs⟩ := reachable_spec ops
  rw [search_element_spec inv, habs]

theorem C1_search_matches_model_witness :
    (∀ op ∈ [Op.ins 1 "a" (fun _ => false), Op.del 2],
      op.isClear = false) ∧
    SkipList.search_element
        (applyOps [Op.ins 1 "a" (fun _ => false), Op.del 2]) 1 "" =
      match lookupKey
          (specModel [Op.ins 1 "a" (fun _ => false), Op.del 2]) 1 with
      | some v => (true, v)
      | none => (false, "") :=
  ⟨by decide, C1_search_matches_model _ (by decide) 1 ""⟩

/-- C2: after any sequence of calls the structural invariant holds: keys
along each level chain strictly increase, a key on level i appears on every
level below, and the header's successor at the current level is populated
unless the list is empty. -/
theorem C2_structure_after_ops (ops : List Op) (i : Nat)
    (hi : i ≤ MAX_LEVEL) :
    ((levelChain (applyOps ops).heap i).map
      (keyD (applyOps ops).heap)).Chain' (· < ·) ∧
    (∀ j, j ≤ i → ∀ kk ∈ (levelChain (applyOps ops).heap i).map
        (keyD (applyOps ops).heap),
      kk ∈ (levelChain (applyOps ops).heap j).map (keyD (applyOps ops).heap)) ∧
    ((applyOps ops).element_count_ ≠ 0 →
      hForward (applyOps ops).heap 0 (applyOps ops).current_level_ ≠ none) := by
  obtain ⟨L, inv, _⟩ := reachable_spec ops
  refine ⟨?_, ?_, header_top_nonempty inv⟩
  · rw [levelChain_spec inv i hi]
    haveI : IsTrans Int (· < ·) := ⟨fun _ _ _ => lt_trans⟩
    rw [List.chain'_iff_pairwise]
    refine List.Pairwise.map _ (fun a b h => h) ?_
    exact inv.sortedPairwise.sublist (List.filter_sublist _)
  · intro j hj kk hkk
    rw [levelChain_spec inv i hi] at hkk
    rw [levelChain_spec inv j (le_trans hj hi)]
    obtain ⟨q, hq, rfl⟩ := List.mem_map.mp hkk
    refine List.mem_map.mpr ⟨q, ?_, rfl⟩
    have hm := List.mem_filter.mp hq
    refine List.mem_filter.mpr ⟨hm.1, ?_⟩
    have h2 := hm.2
    simp only [decide_eq_true_eq] at h2 ⊢
    omega

theorem C2_structure_after_ops_witness :
    0 ≤ MAX_LEVEL ∧
    (((levelChain (applyOps [Op.ins 1 "a" (fun _ => false)]).heap 0).map
      (keyD (applyOps [Op.ins 1 "a" (fun _ => false)]).heap)).Chain' (· < ·) ∧
    (∀ j, j ≤ 0 → ∀ kk ∈ (levelChain
        (applyOps [Op.ins 1 "a" (fun _ => false)]).heap 0).map
        (keyD (applyOps [Op.ins 1 "a" (fun _ => false)]).heap),
      kk ∈ (levelChain (applyOps [Op.ins 1 "a" (fun _ => false)]).heap j).map
        (keyD (applyOps [Op.ins 1 "a" (fun _ => false)]).heap)) ∧
    ((applyOps [Op.ins 1 "a" (fun _ => false)]).element_count_ ≠ 0 →
      hForward (applyOps [Op.ins 1 "a" (fun _ => false)]).heap 0
        (applyOps [Op.ins 1 "a" (fun _ => false)]).current_level_ ≠ none)) :=
  ⟨by decide, C2_structure_after_ops [Op.ins 1 "a" (fun _ => false)] 0
    (by decide)⟩

/-- C4: deleting an absent key returns false and leaves the state — element
count, current level and the whole node heap — exactly as it was. -/
theorem C4_delete_absent_noop (ops : List Op) (k : Int)
    (habs : k ∉ (SkipList.process_all (applyOps ops)).map Prod.fst) :
    SkipList.delete_element (applyOps ops) k = (false, applyOps ops) := by
  obtain ⟨L, inv, _⟩ := reachable_spec ops
  refine delete_element_absent inv k ?_
  intro q hq he
  exact habs ((mem_processAll_key inv).mpr ⟨q, hq, he⟩)

theorem C4_delete_absent_noop_witness :
    ((5 : Int) ∉ (SkipList.process_all
      (applyOps [Op.ins 1 "a" (fun _ => false)])).map Prod.fst) ∧
    SkipList.delete_element (applyOps [Op.ins 1 "a" (fun _ => false)]) 5 =
      (false, applyOps [Op.ins 1 "a" (fun _ => false)]) :=
  ⟨by decide, C4_delete_absent_noop [Op.ins 1 "a" (fun _ => false)] 5
    (by decide)⟩

/-- C9: the drawn level never exceeds MAX_LEVEL, the current level stays
within MAX_LEVEL, and every live node — the header included — owns exactly
level + 1 successor slots with its level at most MAX_LEVEL, so every slot
index the walks use is in range. -/
theorem C9_levels_in_range (coins : Nat → Bool) (ops : List Op) :
    SkipList.get_random_level coins ≤ MAX_LEVEL ∧
    (applyOps ops).current_level_ ≤ MAX_LEVEL ∧
    ∀ q n, hLookup (applyOps ops).heap q = some n →
      n.forward_.length = n.node_level_ + 1 ∧ n.node_level_ ≤ MAX_LEVEL := by
  obtain ⟨L, inv, _⟩ := reachable_spec ops
  refine ⟨get_random_level_le coins, inv.clLe, ?_⟩
  intro q n hn
  have hdom : q ∈ 0 :: L := (inv.dom q).mp (by rw [hn]; rfl)
  rcases List.mem_cons.mp hdom with rfl | hqL
  · obtain ⟨fw, hfw, hlen⟩ := inv.headerNode
    rw [hn] at hfw
    injection hfw with he
    rw [he]
    exact ⟨by simpa using hlen, le_refl _⟩
  · have hwf := inv.nodesWF q hqL n hn
    exact ⟨hwf.2, le_trans hwf.1 inv.clLe⟩

/-- C10: searching an absent key returns false with the out-parameter exactly
as the caller supplied it, and KVStore::get forwards that behaviour. -/
theorem C10_search_absent_frame (ops : List Op) (k : Int) (v0 : String)
    (habs : k ∉ (SkipList.process_all (applyOps ops)).map Prod.fst) :
    SkipList.search_element (applyOps ops) k v0 = (false, v0) ∧
    KVStore.get (applyOps ops) k v0 = (false, v0) := by
  obtain ⟨L, inv, _⟩ := reachable_spec ops
  have hkeys : ∀ q ∈ L, keyD (applyOps ops).heap q ≠ k := by
    intro q hq he
    exact habs ((mem_processAll_key inv).mpr ⟨q, hq, he⟩)
  have hs : SkipList.search_element (applyOps ops) k v0 = (false, v0) := by
    rw [search_element_spec inv, lookupKey_absList_none hkeys]
  exact ⟨hs, hs⟩

theorem C10_search_absent_frame_witness :
    ((5 : Int) ∉ (SkipList.process_all
      (applyOps [Op.ins 1 "a" (fun _ => false)])).map Prod.fst) ∧
    (SkipList.search_element (applyOps [Op.ins 1 "a" (fun _ => false)]) 5
        "untouched" = (false, "untouched") ∧
      KVStore.get (applyOps [Op.ins 1 "a" (fun _ => false)]) 5 "untouched" =
        (false, "untouched")) :=
  ⟨by decide, C10_search_absent_frame [Op.ins 1 "a" (fun _ => false)] 5
    "untouched" (by decide)⟩

/-- C3 counterexample: the return value of insert_element does not tell an
update apart from a fresh insertion — both paths return true. -/
theorem C3_counterexample_both_true :
    (SkipList.insert_element SkipList.new 1 "a" (fun _ => false)).1 = true ∧
    (SkipList.insert_element
      (SkipList.insert_element SkipList.new 1 "a" (fun _ => false)).2
      1 "b" (fun _ => false)).1 = true := by
  exact ⟨by decide, by decide⟩

/-- C3: re-inserting a present key overwrites its value in place — returning
true like every insert — and changes neither the element count, the current
level, the set of node ids, any successor pointer, nor any node's level;
afterwards search returns the new value. -/
theorem C3_update_in_place (ops : List Op) (k : Int) (v : String)
    (coins : Nat → Bool)
    (hpres : k ∈ (SkipList.process_all (applyOps ops)).map Prod.fst) :
    (SkipList.insert_element (applyOps ops) k v coins).1 = true ∧
    (SkipList.insert_element (applyOps ops) k v coins).2.element_count_ =
      (applyOps ops).element_count_ ∧
    (SkipList.insert_element (applyOps ops) k v coins).2.current_level_ =
      (applyOps ops).current_level_ ∧
    (SkipList.insert_element (applyOps ops) k v coins).2.heap.map Prod.fst =
      (applyOps ops).heap.map Prod.fst ∧
    (∀ q i, hForward
        (SkipList.insert_element (applyOps ops) k v coins).2.heap q i =
      hForward (applyOps ops).heap q i) ∧
    (∀ q, levelOfD
        (SkipList.insert_element (applyOps ops) k v coins).2.heap q =
      levelOfD (applyOps ops).heap q) ∧
    SkipList.search_element
      (SkipList.insert_element (applyOps ops) k v coins).2 k "" = (true, v) := by
  obtain ⟨L, inv, _⟩ := reachable_spec ops
  obtain ⟨q0, hq0, hkey0⟩ := (mem_processAll_key inv).mp hpres
  have hhead := key_at_dw_head inv k q0 hq0 hkey0
  cases hdw : dwL (applyOps ops).heap L k with
  | nil => rw [hdw] at hhead; simp at hhead
  | cons d dt =>
    rw [hdw] at hhead
    have hdq : d = q0 := by injection hhead
    obtain ⟨heq, hinv2, habs2⟩ :=
      insert_element_existing inv hdw (hdq ▸ hkey0) v coins
    have h1 : (SkipList.insert_element (applyOps ops) k v coins).1 = true := by
      rw [heq]
    have hst : (SkipList.insert_element (applyOps ops) k v coins).2 =
        { applyOps ops with heap := hModify (applyOps ops).heap d (fun m => { m with value_ := v }) } := by
      rw [heq]
    refine ⟨h1, ?_, ?_, ?_, ?_, ?_, ?_⟩
    · rw [hst]
    · rw [hst]
    · rw [hst]
      show (hModify (applyOps ops).heap d
        (fun m => { m with value_ := v })).map Prod.fst = _
      exact keys_hModify _ _ _
    · intro q i
      rw [hst]
      show hForward (hModify (applyOps ops).heap d
        (fun m => { m with value_ := v })) q i = _
      exact hForward_hModify_value _ _ _ _ _
    · intro q
      rw [hst]
      show levelOfD (hModify (applyOps ops).heap d
        (fun m => { m with value_ := v })) q = _
      unfold levelOfD
      rw [hLookup_hModify]
      by_cases hq : q = d
      · rw [if_pos hq, hq]
        cases hx : hLookup (applyOps ops).heap d with
        | none => rfl
        | some n => rfl
      · rw [if_neg hq]
    · rw [hst, search_element_spec hinv2, habs2, lookupKey_specInsert]

theorem C3_update_in_place_witness :
    ((1 : Int) ∈ (SkipList.process_all
      (applyOps [Op.ins 1 "a" (fun _ => false)])).map Prod.fst) ∧
    ((SkipList.insert_element (applyOps [Op.ins 1 "a" (fun _ => false)]) 1 "b"
      (fun _ => false)).1 = true ∧
    (SkipList.insert_element (applyOps [Op.ins 1 "a" (fun _ => false)]) 1 "b"
        (fun _ => false)).2.element_count_ =
      (applyOps [Op.ins 1 "a" (fun _ => false)]).element_count_ ∧
    (SkipList.insert_element (applyOps [Op.ins 1 "a" (fun _ => false)]) 1 "b"
        (fun _ => false)).2.current_level_ =
      (applyOps [Op.ins 1 "a" (fun _ => false)]).current_level_ ∧
    (SkipList.insert_element (applyOps [Op.ins 1 "a" (fun _ => false)]) 1 "b"
        (fun _ => false)).2.heap.map Prod.fst =
      (applyOps [Op.ins 1 "a" (fun _ => false)]).heap.map Prod.fst ∧
    (∀ q i, hForward (SkipList.insert_element
        (applyOps [Op.ins 1 "a" (fun _ => false)]) 1 "b"
        (fun _ => false)).2.heap q i =
      hForward (applyOps [Op.ins 1 "a" (fun _ => false)]).heap q i) ∧
    (∀ q, levelOfD (SkipList.insert_element
        (applyOps [Op.ins 1 "a" (fun _ => false)]) 1 "b"
        (fun _ => false)).2.heap q =
      levelOfD (applyOps [Op.ins 1 "a" (fun _ => false)]).heap q) ∧
    SkipList.search_element (SkipList.insert_element
      (applyOps [Op.ins 1 "a" (fun _ => false)]) 1 "b"
      (fun _ => false)).2 1 "" = (true, "b")) :=
  ⟨by decide, C3_update_in_place [Op.ins 1 "a" (fun _ => false)] 1 "b"
    (fun _ => false) (by decide)⟩

theorem getlineSplit_nil : getlineSplit [] = [] := by
  simp [getlineSplit]

/-- C5 counterexample: a value free of the delimiter but containing a
newline does not survive the round trip — dump writes it across two lines
and load takes only the first, even though every value is delimiter-free. -/
theorem C5_counterexample_newline :
    ':' ∉ "a\nb".data ∧
    SkipList.process_all (KVStore.load (some (dumpContent
        (SkipList.insert_element SkipList.new 1 "a\nb" (fun _ => false)).2))
      SkipList.new (fun _ _ => false)) ≠
    SkipList.process_all
      (SkipList.insert_element SkipList.new 1 "a\nb" (fun _ => false)).2 := by
  have h1 : SkipList.process_all
      (SkipList.insert_element SkipList.new 1 "a\nb" (fun _ => false)).2 =
      [(1, "a\nb")] := by decide
  have hnat : natToDigits 1 = ['1'] := by
    rw [natToDigits]
    decide
  have hdump : dumpContent
      (SkipList.insert_element SkipList.new 1 "a\nb" (fun _ => false)).2 =
      ['1', ':', 'a', '\n', 'b', '\n'] := by
    rw [dumpContent, h1]
    show intDecimal 1 ++ ':' :: "a\nb".data ++ '\n' :: [] = _
    rw [intDecimal, if_neg (by decide)]
    show natToDigits 1 ++ ':' :: "a\nb".data ++ '\n' :: [] = _
    rw [hnat]
    decide
  have hsplitline : getlineSplit ['1', ':', 'a', '\n', 'b', '\n'] =
      [['1', ':', 'a'], ['b']] := by
    have e1 : ['1', ':', 'a', '\n', 'b', '\n'] =
        ['1', ':', 'a'] ++ '\n' :: ['b', '\n'] := rfl
    rw [e1, getlineSplit_line _ _ (by decide)]
    have e2 : ['b', '\n'] = ['b'] ++ '\n' :: ([] : List Char) := rfl
    rw [e2, getlineSplit_line _ _ (by decide), getlineSplit_nil]
  have hload : KVStore.load (some (dumpContent
        (SkipList.insert_element SkipList.new 1 "a\nb" (fun _ => false)).2))
      SkipList.new (fun _ _ => false) =
      KVStore.loadLines [['1', ':', 'a'], ['b']] SkipList.new
        (fun _ _ => false) 0 := by
    show KVStore.loadLines (getlineSplit (dumpContent
        (SkipList.insert_element SkipList.new 1 "a\nb" (fun _ => false)).2))
      SkipList.new (fun _ _ => false) 0 = _
    rw [hdump, hsplitline]
  refine ⟨by decide, ?_⟩
  rw [hload, h1]
  decide

/-- C5: for values whose text contains no newline, dump writes one
key:value line per pair in traversal (ascending key) order, and loading the
dumped stream into a fresh list reproduces the exact traversal. -/
theorem C5_roundtrip_newline_free (ops : List Op)
    (hnl : ∀ p ∈ SkipList.process_all (applyOps ops), '\n' ∉ p.2.data)
    (path : String) (coinss : Nat → Nat → Bool) :
    (KVStore.dump (applyOps ops) path true).2.1 =
      some ((SkipList.process_all (applyOps ops)).foldr
        (fun p acc => intDecimal p.1 ++ ':' :: p.2.data ++ '\n' :: acc) []) ∧
    SkipList.process_all (KVStore.load (some (dumpContent (applyOps ops)))
      SkipList.new coinss) = SkipList.process_all (applyOps ops) := by
  obtain ⟨L, inv, _⟩ := reachable_spec ops
  obtain ⟨L', hinv', hround⟩ := dump_load_roundtrip inv hnl coinss
  exact ⟨rfl, hround⟩

theorem C5_roundtrip_newline_free_witness :
    (∀ p ∈ SkipList.process_all (applyOps [Op.ins 1 "good" (fun _ => false)]),
      '\n' ∉ p.2.data) ∧
    ((KVStore.dump (applyOps [Op.ins 1 "good" (fun _ => false)]) "f"
        true).2.1 =
      some ((SkipList.process_all
          (applyOps [Op.ins 1 "good" (fun _ => false)])).foldr
        (fun p acc => intDecimal p.1 ++ ':' :: p.2.data ++ '\n' :: acc) []) ∧
    SkipList.process_all (KVStore.load (some (dumpContent
        (applyOps [Op.ins 1 "good" (fun _ => false)]))) SkipList.new
      (fun _ _ => false)) =
      SkipList.process_all (applyOps [Op.ins 1 "good" (fun _ => false)])) :=
  ⟨by decide, C5_roundtrip_newline_free [Op.ins 1 "good" (fun _ => false)]
    (by decide) "f" (fun _ _ => false)⟩

/-- C6: the guard table of SkipList.h as written: insert_element and
delete_element construct an exclusive (unique_lock) guard and search_element
a shared one, but process_all — the traverse — and clear construct no guard
at all, contradicting the claimed discipline. -/
theorem C6_lock_table :
    lockDiscipline .insertOp = .exclusive ∧
    lockDiscipline .deleteOp = .exclusive ∧
    lockDiscipline .searchOp = .shared ∧
    lockDiscipline .traverseOp = .unguarded ∧
    lockDiscipline .clearOp = .unguarded :=
  ⟨rfl, rfl, rfl, rfl, rfl⟩

/-- C7 counterexample: KVStore::del returns void, so its caller receives the
identical result whether the key was present (the inner delete returned
true) or absent (it returned false) — no removed signal is passed through. -/
theorem C7_counterexample_void_del :
    (SkipList.delete_element (applyOps [Op.ins 1 "a" (fun _ => false)])
      1).1 = true ∧
    (SkipList.delete_element (applyOps [Op.ins 1 "a" (fun _ => false)])
      2).1 = false ∧
    KVStore.delResult (applyOps [Op.ins 1 "a" (fun _ => false)]) 1 =
      KVStore.delResult (applyOps [Op.ins 1 "a" (fun _ => false)]) 2 :=
  ⟨by decide, by decide, rfl⟩

/-- C7: the Index's delete_element does compute the removed boolean — true
exactly on present keys — and KVStore::del forwards the state change, but
being declared void it discards that boolean instead of returning it. -/
theorem C7_del_forwards_state (ops : List Op) (k : Int) :
    KVStore.del (applyOps ops) k =
      (SkipList.delete_element (applyOps ops) k).2 ∧
    KVStore.delResult (applyOps ops) k = () ∧
    (k ∈ (SkipList.process_all (applyOps ops)).map Prod.fst →
      (SkipList.delete_element (applyOps ops) k).1 = true) ∧
    (k ∉ (SkipList.process_all (applyOps ops)).map Prod.fst →
      (SkipList.delete_element (applyOps ops) k).1 = false) := by
  obtain ⟨L, inv, _⟩ := reachable_spec ops
  refine ⟨rfl, rfl, ?_, ?_⟩
  · intro hpres
    obtain ⟨q0, hq0, hkey0⟩ := (mem_processAll_key inv).mp hpres
    have hhead := key_at_dw_head inv k q0 hq0 hkey0
    cases hdw : dwL (applyOps ops).heap L k with
    | nil => rw [hdw] at hhead; simp at hhead
    | cons d dt =>
      rw [hdw] at hhead
      have hdq : d = q0 := by injection hhead
      exact (delete_element_present inv hdw (hdq ▸ hkey0)).1
  · intro habs
    have h2 : ∀ q ∈ L, keyD (applyOps ops).heap q ≠ k := by
      intro q hq he
      exact habs ((mem_processAll_key inv).mpr ⟨q, hq, he⟩)
    rw [delete_element_absent inv k h2]

theorem C7_del_forwards_state_witness :
    KVStore.del (applyOps [Op.ins 1 "a" (fun _ => false)]) 1 =
      (SkipList.delete_element (applyOps [Op.ins 1 "a" (fun _ => false)])
        1).2 ∧
    KVStore.delResult (applyOps [Op.ins 1 "a" (fun _ => false)]) 1 = () ∧
    ((1 : Int) ∈ (SkipList.process_all
        (applyOps [Op.ins 1 "a" (fun _ => false)])).map Prod.fst →
      (SkipList.delete_element (applyOps [Op.ins 1 "a" (fun _ => false)])
        1).1 = true) ∧
    ((1 : Int) ∉ (SkipList.process_all
        (applyOps [Op.ins 1 "a" (fun _ => false)])).map Prod.fst →
      (SkipList.delete_element (applyOps [Op.ins 1 "a" (fun _ => false)])
        1).1 = false) :=
  C7_del_forwards_state [Op.ins 1 "a" (fun _ => false)] 1

/-- C8 counterexample: a load whose file fails to open prints nothing and
returns nothing — the caller receives exactly what a successful load of any
file returns, so the failure is not reported to the caller. -/
theorem C8_counterexample_silent_load :
    KVStore.loadStderr none = ([] : List String) ∧
    KVStore.loadStderr (some ['x']) = ([] : List String) ∧
    KVStore.loadResult none SkipList.new (fun _ _ => false) =
      KVStore.loadResult (some []) SkipList.new (fun _ _ => false) :=
  ⟨rfl, rfl, rfl⟩

/-- C8: when opening the snapshot file fails, both dump and load leave the
in-memory list untouched and usable; dump reports the failure — on stderr
only, both functions returning void — while load reports nothing at all. -/
theorem C8_open_failure_state (s : SkipState) (path : String)
    (coinss : Nat → Nat → Bool) :
    (KVStore.dump s path false).1 = s ∧
    (KVStore.dump s path false).2.2 =
      ["Error opening file for dump: " ++ path] ∧
    KVStore.load none s coinss = s ∧
    KVStore.loadStderr none = ([] : List String) :=
  ⟨rfl, rfl, rfl, rfl⟩
